import Mathlib

/-!
# ECM (Error Code Modeler) encoder/decoder: `src/ecm.c`

A shallow embedding of the codec of `src/ecm.c`, and theorems about it.

Conventions of the embedding.

* A byte buffer (`uint8_t*`) is a `List Nat`; `buf.getD i 0` is the read `buf[i]`,
  `buf.set i v` the store `buf[i] = v`, and pointer arithmetic `p + k` on a
  buffer that is only read is `List.drop k`.
* `uint32_t` values are `Nat`; a store of a wider value into a narrower
  variable is an explicit `% 2 ^ w`.
* A file opened for reading is the `List Nat` of its bytes (with a read
  position, or the unread remainder); a file opened for writing is the
  `List Nat` of the bytes written so far.  Writes to the output are assumed
  to succeed (`fputc`/`fwrite` never report `EOF`/short writes); reads fail
  exactly at end of file.
* Progress reporting (`setcounter_*`, `printf`) does not influence the bytes
  produced and is left out.  In place of the tally `typetally` of the units
  per type, the state of `ecmify` keeps the list `flushed` of the arguments of
  its calls of `write_sectors`.
-/

deriving instance DecidableEq for Except

namespace Ecm

/-! ## Little-endian 32-bit access -/

/-- The function `get32lsb(src)`. -/
def get32lsb (src : List Nat) : Nat :=
  ((src.getD 0 0) <<< 0) |||
  ((src.getD 1 0) <<< 8) |||
  ((src.getD 2 0) <<< 16) |||
  ((src.getD 3 0) <<< 24)

/-- The function `put32lsb(dest + ofs, value)`: four byte stores. -/
def put32lsb (dest : List Nat) (ofs : Nat) (value : Nat) : List Nat :=
  (((dest.set ofs (value % 256)).set (ofs + 1) ((value >>> 8) % 256)).set
    (ofs + 2) ((value >>> 16) % 256)).set (ofs + 3) ((value >>> 24) % 256)

/-! ## Look-up tables -/

/-- The three static tables `ecc_f_lut`, `ecc_b_lut`, `edc_lut`. -/
structure Luts where
  ecc_f_lut : List Nat
  ecc_b_lut : List Nat
  edc_lut : List Nat
deriving DecidableEq, Repr

/-- The inner loop of `eccedc_init`: `n` rounds of
`edc = (edc >> 1) ^ (edc & 1 ? 0xD8018001 : 0)`. -/
def edc_init_bits : Nat → Nat → Nat
  | 0, edc => edc
  | n + 1, edc =>
    edc_init_bits n (((edc >>> 1) ^^^ (if edc &&& 1 ≠ 0 then 0xD8018001 else 0)) % 2 ^ 32)

/-- The outer loop of `eccedc_init`, from index `i`, for `n` more rounds. -/
def eccedc_init_loop : Nat → Nat → Luts → Luts
  | 0, _, t => t
  | n + 1, i, t =>
    let j := (i <<< 1) ^^^ (if i &&& 0x80 ≠ 0 then 0x11D else 0)
    let f := t.ecc_f_lut.set i (j % 256)
    let b := t.ecc_b_lut.set (i ^^^ j) (i % 256)
    let e := t.edc_lut.set i (edc_init_bits 8 i)
    eccedc_init_loop n (i + 1) ⟨f, b, e⟩

/-- The function `eccedc_init()`, run on the zero-initialised static tables. -/
def eccedc_init : Luts :=
  eccedc_init_loop 256 0 ⟨List.replicate 256 0, List.replicate 256 0, List.replicate 256 0⟩

/-- The table `ecc_f_lut` after `eccedc_init()` (called by `main` before the codec). -/
def ecc_f_lut : List Nat := eccedc_init.ecc_f_lut

/-- The table `ecc_b_lut` after `eccedc_init()`. -/
def ecc_b_lut : List Nat := eccedc_init.ecc_b_lut

/-- The table `edc_lut` after `eccedc_init()`. -/
def edc_lut : List Nat := eccedc_init.edc_lut

/-! ## EDC -/

/-- The function `edc_compute(edc, src, size)`. -/
def edc_compute : Nat → List Nat → Nat → Nat
  | edc, _, 0 => edc
  | edc, src, size + 1 =>
    edc_compute
      (((edc >>> 8) ^^^ edc_lut.getD ((edc ^^^ src.getD 0 0) &&& 0xFF) 0) % 2 ^ 32)
      (src.drop 1) size

/-! ## ECC -/

/-- The body of the `minor` loop shared by `ecc_checkpq` and `ecc_writepq`,
run `n` times from the state `(index, ecc_a, ecc_b)`; `rd k` is the byte
`data[k]`. Returns the final `(ecc_a, ecc_b)`. -/
def ecc_minor_loop (address : List Nat) (rd : Nat → Nat) (size minor_inc : Nat) :
    Nat → Nat → Nat → Nat → Nat × Nat
  | 0, _, ecc_a, ecc_b => (ecc_a, ecc_b)
  | n + 1, index, ecc_a, ecc_b =>
    let temp := if index < 4 then address.getD index 0 else rd (index - 4)
    let index := index + minor_inc
    let index := if index ≥ size then index - size else index
    let ecc_a := ecc_a ^^^ temp
    let ecc_b := ecc_b ^^^ temp
    let ecc_a := ecc_f_lut.getD ecc_a 0
    ecc_minor_loop address rd size minor_inc n index ecc_a ecc_b

/-- The two parity bytes computed for one `major` by `ecc_checkpq`/`ecc_writepq`:
the values compared with / stored to `ecc[major]` and `ecc[major + major_count]`. -/
def ecc_major (address : List Nat) (rd : Nat → Nat)
    (major_count minor_count major_mult minor_inc major : Nat) : Nat × Nat :=
  let size := major_count * minor_count
  let index := (major >>> 1) * major_mult + (major &&& 1)
  let ab := ecc_minor_loop address rd size minor_inc minor_count index 0 0
  let ecc_a := ecc_b_lut.getD (ecc_f_lut.getD ab.1 0 ^^^ ab.2) 0
  (ecc_a, ecc_a ^^^ ab.2)

/-- The `major` loop of `ecc_checkpq`, from `major`, for `n` more rounds. -/
def ecc_checkpq_loop (address data : List Nat)
    (major_count minor_count major_mult minor_inc : Nat) (ecc : List Nat) :
    Nat → Nat → Bool
  | 0, _ => true
  | n + 1, major =>
    let p := ecc_major address (fun k => data.getD k 0)
      major_count minor_count major_mult minor_inc major
    if ecc.getD major 0 ≠ p.1 ∨ ecc.getD (major + major_count) 0 ≠ p.2 then
      false
    else
      ecc_checkpq_loop address data major_count minor_count major_mult minor_inc ecc
        n (major + 1)

/-- The function `ecc_checkpq(address, data, major_count, minor_count, major_mult,
minor_inc, ecc)`. -/
def ecc_checkpq (address data : List Nat)
    (major_count minor_count major_mult minor_inc : Nat) (ecc : List Nat) : Bool :=
  ecc_checkpq_loop address data major_count minor_count major_mult minor_inc ecc
    major_count 0

/-- The `major` loop of `ecc_writepq`, from `major`, for `n` more rounds. `data`
and `ecc` are offsets into the one buffer `sector`, so that reads see earlier
stores exactly as in the source. -/
def ecc_writepq_loop (address : List Nat) (data : Nat)
    (major_count minor_count major_mult minor_inc : Nat) (ecc : Nat) :
    Nat → Nat → List Nat → List Nat
  | 0, _, sector => sector
  | n + 1, major, sector =>
    let p := ecc_major address (fun k => sector.getD (data + k) 0)
      major_count minor_count major_mult minor_inc major
    ecc_writepq_loop address data major_count minor_count major_mult minor_inc ecc
      n (major + 1)
      ((sector.set (ecc + major) p.1).set (ecc + (major + major_count)) p.2)

/-- The function `ecc_writepq(address, sector + data, ..., sector + ecc)`.
The `address` array (`sector + 0xC` or `zeroaddress`) is passed by value: it
lies below every store of the function. -/
def ecc_writepq (address : List Nat) (data : Nat)
    (major_count minor_count major_mult minor_inc : Nat) (ecc : Nat)
    (sector : List Nat) : List Nat :=
  ecc_writepq_loop address data major_count minor_count major_mult minor_inc ecc
    major_count 0 sector

/-- The function `ecc_checksector(address, data, ecc)`. -/
def ecc_checksector (address data ecc : List Nat) : Bool :=
  ecc_checkpq address data 86 24 2 86 ecc &&
  ecc_checkpq address data 52 43 86 88 (ecc.drop 0xAC)

/-- The function `ecc_writesector(address, sector + data, sector + ecc)`. -/
def ecc_writesector (address : List Nat) (data ecc : Nat) (sector : List Nat) : List Nat :=
  ecc_writepq address data 52 43 86 88 (ecc + 0xAC)
    (ecc_writepq address data 86 24 2 86 ecc sector)

/-- The constant `zeroaddress`. -/
def zeroaddress : List Nat := [0, 0, 0, 0]

/-! ## Sector detection and reconstruction -/

/-- The first test of `detect_sector`: sync, mode byte 1 and zero reserved bytes. -/
def mode1_shape (sector : List Nat) (size_available : Nat) : Bool :=
  decide (size_available ≥ 2352) &&
  sector.getD 0x000 0 == 0x00 &&
  sector.getD 0x001 0 == 0xFF &&
  sector.getD 0x002 0 == 0xFF &&
  sector.getD 0x003 0 == 0xFF &&
  sector.getD 0x004 0 == 0xFF &&
  sector.getD 0x005 0 == 0xFF &&
  sector.getD 0x006 0 == 0xFF &&
  sector.getD 0x007 0 == 0xFF &&
  sector.getD 0x008 0 == 0xFF &&
  sector.getD 0x009 0 == 0xFF &&
  sector.getD 0x00A 0 == 0xFF &&
  sector.getD 0x00B 0 == 0x00 &&
  sector.getD 0x00F 0 == 0x01 &&
  sector.getD 0x814 0 == 0x00 &&
  sector.getD 0x815 0 == 0x00 &&
  sector.getD 0x816 0 == 0x00 &&
  sector.getD 0x817 0 == 0x00 &&
  sector.getD 0x818 0 == 0x00 &&
  sector.getD 0x819 0 == 0x00 &&
  sector.getD 0x81A 0 == 0x00 &&
  sector.getD 0x81B 0 == 0x00

/-- The second test of `detect_sector`: the two copies of the flags agree. -/
def mode2_shape (sector : List Nat) (size_available : Nat) : Bool :=
  decide (size_available ≥ 2336) &&
  sector.getD 0 0 == sector.getD 4 0 &&
  sector.getD 1 0 == sector.getD 5 0 &&
  sector.getD 2 0 == sector.getD 6 0 &&
  sector.getD 3 0 == sector.getD 7 0

/-- The function `detect_sector(sector, size_available)`. -/
def detect_sector (sector : List Nat) (size_available : Nat) : Nat :=
  if mode1_shape sector size_available then
    if ecc_checksector (sector.drop 0xC) (sector.drop 0x10) (sector.drop 0x81C) &&
        edc_compute 0 sector 0x810 == get32lsb (sector.drop 0x810) then
      1
    else
      0
  else if mode2_shape sector size_available then
    if ecc_checksector zeroaddress sector (sector.drop 0x80C) &&
        edc_compute 0 sector 0x808 == get32lsb (sector.drop 0x808) then
      2
    else if edc_compute 0 sector 0x91C == get32lsb (sector.drop 0x91C) then
      3
    else
      0
  else
    0

/-- The sync stores at the top of `reconstruct_sector`. -/
def reconstruct_sync (sector : List Nat) : List Nat :=
  (((((((((((sector.set 0x000 0x00).set 0x001 0xFF).set 0x002 0xFF).set 0x003 0xFF).set
    0x004 0xFF).set 0x005 0xFF).set 0x006 0xFF).set 0x007 0xFF).set 0x008 0xFF).set
    0x009 0xFF).set 0x00A 0xFF).set 0x00B 0x00

/-- The first `switch` of `reconstruct_sector`: mode byte, reserved bytes or flags. -/
def reconstruct_mode (sector : List Nat) (type : Nat) : List Nat :=
  if type = 1 then
    ((((((((sector.set 0x00F 0x01).set 0x814 0x00).set 0x815 0x00).set 0x816 0x00).set
      0x817 0x00).set 0x818 0x00).set 0x819 0x00).set 0x81A 0x00).set 0x81B 0x00
  else if type = 2 ∨ type = 3 then
    let s := sector.set 0x00F 0x02
    let s := s.set 0x010 (s.getD 0x014 0)
    let s := s.set 0x011 (s.getD 0x015 0)
    let s := s.set 0x012 (s.getD 0x016 0)
    s.set 0x013 (s.getD 0x017 0)
  else
    sector

/-- The second `switch` of `reconstruct_sector`: the EDC. -/
def reconstruct_edc (sector : List Nat) (type : Nat) : List Nat :=
  if type = 1 then put32lsb sector 0x810 (edc_compute 0 sector 0x810)
  else if type = 2 then put32lsb sector 0x818 (edc_compute 0 (sector.drop 0x10) 0x808)
  else if type = 3 then put32lsb sector 0x92C (edc_compute 0 (sector.drop 0x10) 0x91C)
  else sector

/-- The third `switch` of `reconstruct_sector`: the ECC. -/
def reconstruct_ecc (sector : List Nat) (type : Nat) : List Nat :=
  if type = 1 then ecc_writesector (sector.drop 0xC) 0x10 0x81C sector
  else if type = 2 then ecc_writesector zeroaddress 0x10 0x81C sector
  else sector

/-- The function `reconstruct_sector(sector, type)`. -/
def reconstruct_sector (sector : List Nat) (type : Nat) : List Nat :=
  reconstruct_ecc (reconstruct_edc (reconstruct_mode (reconstruct_sync sector) type) type) type

/-! ## Type/count records -/

/-- The `while(count)` loop of `write_type_count`; `fuel` bounds the number
of rounds (the value `count` itself is enough, as `count >> 7 < count`). -/
def write_count_loop : Nat → Nat → List Nat
  | 0, _ => []
  | fuel + 1, count =>
    if count ≠ 0 then
      (((if count ≥ 128 then 1 else 0) <<< 7) ||| (count &&& 127)) % 256 ::
        write_count_loop fuel (count >>> 7)
    else
      []

/-- The function `write_type_count(outfilename, out, type, count)`: the bytes
it writes with `fputc`. -/
def write_type_count (type count : Nat) : List Nat :=
  let count := (count + (2 ^ 32 - 1)) % 2 ^ 32
  ((((if count ≥ 32 then 1 else 0) <<< 7) ||| ((count &&& 31) <<< 2)) ||| type) % 256 ::
    write_count_loop (count >>> 5) (count >>> 5)

/-! ## Files -/

/-- The ways `ecmify` and `unecmify` fail. `out_of_fuel` is not an outcome of
the program: it marks a loop of the embedding that was given too few rounds. -/
inductive EcmError
  | read_error
  | bad_header
  | corrupt_count
  | checksum
  | out_of_fuel
deriving DecidableEq, Repr

/-- The constant `sizeof(sector_buffer)`. -/
def sector_buffer_size : Nat := 2352

/-- The static `sector_buffer` at program start. -/
def sector_buffer_init : List Nat := List.replicate 2352 0

/-- The call `fread(buf + ofs, 1, n, in)` on a file whose unread remainder is
`inp`: `none` when fewer than `n` bytes are left, otherwise the buffer after the
read and the new unread remainder. -/
def fread (buf : List Nat) (ofs n : Nat) (inp : List Nat) : Option (List Nat × List Nat) :=
  if n ≤ inp.length then
    some (buf.take ofs ++ (inp.take n ++ buf.drop (ofs + n)), inp.drop n)
  else
    none

/-- The call `fwrite(buf + ofs, 1, n, out)`: the output file after the write. -/
def fwrite (buf : List Nat) (ofs n : Nat) (out : List Nat) : List Nat :=
  out ++ (buf.drop ofs).take n

/-- The input file (unread remainder), the output file (bytes written) and the
static `sector_buffer`. -/
structure Files where
  inp : List Nat
  out : List Nat
  sector_buffer : List Nat
deriving DecidableEq, Repr

/-! ## Encoder -/

/-- The `while(count)` loop of `write_sectors` for `type == 0`. -/
def write_literals : Nat → Nat → Files → Except EcmError Files
  | 0, count, io => if count ≠ 0 then .error .out_of_fuel else .ok io
  | fuel + 1, count, io =>
    if count ≠ 0 then
      let b := if count > sector_buffer_size then sector_buffer_size else count
      match fread io.sector_buffer 0 b io.inp with
      | none => .error .read_error
      | some (buf, inp) =>
        write_literals fuel (count - b) ⟨inp, fwrite buf 0 b io.out, buf⟩
    else
      .ok io

/-- The body of the `for(; count; count--)` loop of `write_sectors`. -/
def write_sector (type : Nat) (io : Files) : Except EcmError Files :=
  if type = 1 then
    match fread io.sector_buffer 0 2352 io.inp with
    | none => .error .read_error
    | some (buf, inp) => .ok ⟨inp, fwrite buf 0x010 0x800 (fwrite buf 0x00C 0x003 io.out), buf⟩
  else if type = 2 then
    match fread io.sector_buffer 0 2336 io.inp with
    | none => .error .read_error
    | some (buf, inp) => .ok ⟨inp, fwrite buf 0x004 0x804 io.out, buf⟩
  else if type = 3 then
    match fread io.sector_buffer 0 2336 io.inp with
    | none => .error .read_error
    | some (buf, inp) => .ok ⟨inp, fwrite buf 0x004 0x918 io.out, buf⟩
  else
    .ok io

/-- The `for(; count; count--)` loop of `write_sectors`. -/
def write_sector_loop (type : Nat) : Nat → Files → Except EcmError Files
  | 0, io => .ok io
  | count + 1, io =>
    match write_sector type io with
    | .error e => .error e
    | .ok io => write_sector_loop type count io

/-- The function `write_sectors(type, count, infilename, outfilename, in, out)`. -/
def write_sectors (type count : Nat) (io : Files) : Except EcmError Files :=
  let io : Files := ⟨io.inp, io.out ++ write_type_count type count, io.sector_buffer⟩
  if type = 0 then write_literals count count io
  else write_sector_loop type count io

/-- The constant `queue_size` of `ecmify`. -/
def queue_size : Nat := 0x40000

/-- The table `sectorsize` of `ecmify`. -/
def sectorsize : List Nat := [1, 2352, 2336, 2336]

/-- The local variables of `ecmify`, the output file and `sector_buffer`.
`queue` holds the bytes of the queue buffer from its start up to the last
byte read into it. `flushed` is the record of the calls of `write_sectors`
made so far: the type, the count and the input offset `curtype_in_start` of
each call, in order (the source only adds the count to `typetally[curtype]`). -/
structure EcmState where
  queue : List Nat
  queue_start_ofs : Nat
  queue_bytes_available : Nat
  input_edc : Nat
  curtype : Int
  curtype_count : Nat
  curtype_in_start : Nat
  literal_skip : Nat
  input_bytes_checked : Nat
  input_bytes_queued : Nat
  out : List Nat
  sector_buffer : List Nat
  flushed : List (Nat × Nat × Nat)
deriving DecidableEq, Repr

/-- The step "Refill queue if necessary" of the main loop of `ecmify`
on the input file `S`. -/
def ecmify_refill (S : List Nat) (st : EcmState) : Except EcmError EcmState :=
  if st.queue_bytes_available < 2352 ∧
      st.queue_bytes_available < S.length - st.input_bytes_queued then
    let willread := S.length - st.input_bytes_queued
    let maxread := queue_size - st.queue_bytes_available
    let willread := if willread > maxread then maxread else willread
    let queue :=
      if st.queue_start_ofs > 0 then
        (st.queue.drop st.queue_start_ofs).take st.queue_bytes_available
      else st.queue
    let st := { st with queue := queue, queue_start_ofs := 0 }
    if willread ≠ 0 then
      match fread st.queue st.queue_bytes_available willread (S.drop st.input_bytes_queued) with
      | none => .error .read_error
      | some (queue, _) =>
        .ok { st with
          queue := queue.take (st.queue_bytes_available + willread)
          input_edc :=
            edc_compute st.input_edc (queue.drop st.queue_bytes_available) willread
          input_bytes_queued := st.input_bytes_queued + willread
          queue_bytes_available := st.queue_bytes_available + willread }
    else
      .ok st
  else
    .ok st

/-- The test of the heuristic of `ecmify`: a CD sync and mode byte 2 at the
start of the queue while the current run is of a mode 2 type. -/
def sync_after_mode2 (st : EcmState) : Bool :=
  decide (st.curtype ≥ 2) &&
  decide (st.queue_bytes_available ≥ 0x10) &&
  st.queue.getD (st.queue_start_ofs + 0x0) 0 == 0x00 &&
  st.queue.getD (st.queue_start_ofs + 0x1) 0 == 0xFF &&
  st.queue.getD (st.queue_start_ofs + 0x2) 0 == 0xFF &&
  st.queue.getD (st.queue_start_ofs + 0x3) 0 == 0xFF &&
  st.queue.getD (st.queue_start_ofs + 0x4) 0 == 0xFF &&
  st.queue.getD (st.queue_start_ofs + 0x5) 0 == 0xFF &&
  st.queue.getD (st.queue_start_ofs + 0x6) 0 == 0xFF &&
  st.queue.getD (st.queue_start_ofs + 0x7) 0 == 0xFF &&
  st.queue.getD (st.queue_start_ofs + 0x8) 0 == 0xFF &&
  st.queue.getD (st.queue_start_ofs + 0x9) 0 == 0xFF &&
  st.queue.getD (st.queue_start_ofs + 0xA) 0 == 0xFF &&
  st.queue.getD (st.queue_start_ofs + 0xB) 0 == 0x00 &&
  st.queue.getD (st.queue_start_ofs + 0xF) 0 == 0x02

/-- The classification step of the main loop of `ecmify`: the value of
`detecttype` and the new value of `literal_skip`. -/
def ecmify_detect (st : EcmState) : Int × Nat :=
  if st.queue_bytes_available = 0 then
    (-1, st.literal_skip)
  else if st.literal_skip > 0 then
    (0, st.literal_skip - 1)
  else if sync_after_mode2 st then
    (0, 15)
  else
    ((detect_sector (st.queue.drop st.queue_start_ofs) st.queue_bytes_available : Nat),
      st.literal_skip)

/-- The run-aggregation step of the main loop of `ecmify` on the input file `S`:
count one more unit of the current type, or flush the current run with
`write_sectors` and start a new one. -/
def ecmify_aggregate (S : List Nat) (detecttype : Int) (st : EcmState) :
    Except EcmError EcmState :=
  if detecttype = st.curtype ∧ st.curtype_count ≤ 0x7FFFFFFF then
    .ok { st with curtype_count := (st.curtype_count + 1) % 2 ^ 32 }
  else
    let flushed : Except EcmError EcmState :=
      if st.curtype_count > 0 then
        match write_sectors st.curtype.toNat st.curtype_count
            ⟨S.drop st.curtype_in_start, st.out, st.sector_buffer⟩ with
        | .error e => .error e
        | .ok io =>
          .ok { st with
            out := io.out
            sector_buffer := io.sector_buffer
            flushed := st.flushed ++
              [(st.curtype.toNat, st.curtype_count, st.curtype_in_start)] }
      else
        .ok st
    match flushed with
    | .error e => .error e
    | .ok st =>
      .ok { st with
        curtype := detecttype
        curtype_in_start := st.input_bytes_checked
        curtype_count := 1 }

/-- One round of the main loop of `ecmify`: the state after it, and whether
the loop was left by `break`. -/
def ecmify_iter (S : List Nat) (st : EcmState) : Except EcmError (EcmState × Bool) :=
  match ecmify_refill S st with
  | .error e => .error e
  | .ok st =>
    let d := ecmify_detect st
    match ecmify_aggregate S d.1 { st with literal_skip := d.2 } with
    | .error e => .error e
    | .ok st =>
      if st.curtype < 0 then
        .ok (st, true)
      else
        let size := sectorsize.getD st.curtype.toNat 0
        .ok ({ st with
          input_bytes_checked := st.input_bytes_checked + size
          queue_start_ofs := st.queue_start_ofs + size
          queue_bytes_available := st.queue_bytes_available - size }, false)

/-- The main loop of `ecmify`, given `fuel` rounds: the state at `break`. -/
def ecmify_loop (S : List Nat) : Nat → EcmState → Except EcmError EcmState
  | 0, _ => .error .out_of_fuel
  | fuel + 1, st =>
    match ecmify_iter S st with
    | .error e => .error e
    | .ok (st, true) => .ok st
    | .ok (st, false) => ecmify_loop S fuel st

/-- The state of `ecmify` when it enters its main loop: the magic identifier
has been written. -/
def ecmify_init : EcmState :=
  { queue := []
    queue_start_ofs := 0
    queue_bytes_available := 0
    input_edc := 0
    curtype := -1
    curtype_count := 0
    curtype_in_start := 0
    literal_skip := 0
    input_bytes_checked := 0
    input_bytes_queued := 0
    out := [0x45, 0x43, 0x4D, 0x00]
    sector_buffer := sector_buffer_init
    flushed := [] }

/-- The tail of `ecmify` after its main loop: the end-of-records indicator
and the EDC of the input file. -/
def ecmify_finish (st : EcmState) : List Nat :=
  let out := st.out ++ write_type_count 0 0
  let sector_buffer := put32lsb st.sector_buffer 0 st.input_edc
  fwrite sector_buffer 0 4 out

/-- The function `ecmify` on the input file `S`, its main loop given `fuel`
rounds: the bytes of the output file. -/
def ecmify_fuel (fuel : Nat) (S : List Nat) : Except EcmError (List Nat) :=
  match ecmify_loop S fuel ecmify_init with
  | .error e => .error e
  | .ok st => .ok (ecmify_finish st)

/-- The function `ecmify(infilename, outfilename)` on an input file with
bytes `S`: the bytes of the output file. -/
def ecmify (S : List Nat) : Except EcmError (List Nat) :=
  ecmify_fuel (S.length + 1) S

/-! ## Decoder -/

/-- The input file (unread remainder), output file, output EDC and
`sector_buffer` of `unecmify`. -/
structure UnecmState where
  inp : List Nat
  out : List Nat
  output_edc : Nat
  sector_buffer : List Nat
deriving DecidableEq, Repr

/-- The `while(c & 0x80)` loop of the record parser of `unecmify`: the value of
`num` and the unread remainder of the input. -/
def read_count_loop : List Nat → Nat → Nat → Nat → Except EcmError (Nat × List Nat)
  | [], c, _, num => if c &&& 0x80 ≠ 0 then .error .read_error else .ok (num, [])
  | c1 :: rest, c, bits, num =>
    if c &&& 0x80 ≠ 0 then
      if bits > 31 ∨ (c1 &&& 0x7F) ≥ (0x80000000 >>> (bits - 1)) then
        .error .corrupt_count
      else
        read_count_loop rest c1 (bits + 7) ((num ||| ((c1 &&& 0x7F) <<< bits)) % 2 ^ 32)
    else
      .ok (num, c1 :: rest)

/-- The record parser at the top of the main loop of `unecmify`: `type`, `num`
and the unread remainder of the input. -/
def read_type_count : List Nat → Except EcmError (Nat × Nat × List Nat)
  | [] => .error .read_error
  | c :: rest =>
    match read_count_loop rest c 5 ((c >>> 2) &&& 0x1F) with
    | .error e => .error e
    | .ok (num, rest) => .ok (c &&& 3, num, rest)

/-- The `while(num)` loop of `unecmify` for `type == 0`. -/
def unecmify_literals : Nat → Nat → UnecmState → Except (EcmError × UnecmState) UnecmState
  | 0, num, st => if num ≠ 0 then .error (.out_of_fuel, st) else .ok st
  | fuel + 1, num, st =>
    if num ≠ 0 then
      let b := if num > sector_buffer_size then sector_buffer_size else num
      match fread st.sector_buffer 0 b st.inp with
      | none => .error (.read_error, st)
      | some (buf, inp) =>
        unecmify_literals fuel (num - b)
          ⟨inp, fwrite buf 0 b st.out, edc_compute st.output_edc buf b, buf⟩
    else
      .ok st

/-- The body of the `for(; num; num--)` loop of `unecmify`. -/
def unecmify_sector (type : Nat) (st : UnecmState) : Except (EcmError × UnecmState) UnecmState :=
  if type = 1 then
    match fread st.sector_buffer 0x00C 0x003 st.inp with
    | none => .error (.read_error, st)
    | some (buf, inp) =>
      match fread buf 0x010 0x800 inp with
      | none => .error (.read_error, st)
      | some (buf, inp) =>
        let buf := reconstruct_sector buf 1
        .ok ⟨inp, fwrite buf 0 2352 st.out, edc_compute st.output_edc buf 2352, buf⟩
  else if type = 2 then
    match fread st.sector_buffer 0x014 0x804 st.inp with
    | none => .error (.read_error, st)
    | some (buf, inp) =>
      let buf := reconstruct_sector buf 2
      .ok ⟨inp, fwrite buf 0x10 2336 st.out,
        edc_compute st.output_edc (buf.drop 0x10) 2336, buf⟩
  else if type = 3 then
    match fread st.sector_buffer 0x014 0x918 st.inp with
    | none => .error (.read_error, st)
    | some (buf, inp) =>
      let buf := reconstruct_sector buf 3
      .ok ⟨inp, fwrite buf 0x10 2336 st.out,
        edc_compute st.output_edc (buf.drop 0x10) 2336, buf⟩
  else
    .ok st

/-- The `for(; num; num--)` loop of `unecmify`. -/
def unecmify_sectors (type : Nat) : Nat → UnecmState → Except (EcmError × UnecmState) UnecmState
  | 0, st => .ok st
  | num + 1, st =>
    match unecmify_sector type st with
    | .error e => .error e
    | .ok st => unecmify_sectors type num st

/-- The main loop of `unecmify`, given `fuel` rounds: the state at `break`, or
the error and the state in which it was met. -/
def unecmify_loop : Nat → UnecmState → Except (EcmError × UnecmState) UnecmState
  | 0, st => .error (.out_of_fuel, st)
  | fuel + 1, st =>
    match read_type_count st.inp with
    | .error e => .error (e, st)
    | .ok (type, num, rest) =>
      if num = 0xFFFFFFFF then
        .ok { st with inp := rest }
      else
        let num := (num + 1) % 2 ^ 32
        let body :=
          if type = 0 then unecmify_literals num num { st with inp := rest }
          else unecmify_sectors type num { st with inp := rest }
        match body with
        | .error e => .error e
        | .ok st => unecmify_loop fuel st

/-- What a run of `unecmify` leaves behind: its return code, the error met (if
any), the bytes of the output file (`none` when the output file was never
opened) and the final value of `output_edc`. -/
structure UnecmResult where
  returncode : Nat
  error : Option EcmError
  out : Option (List Nat)
  output_edc : Nat
deriving DecidableEq, Repr

/-- The call `fgetc(in)`: the byte read (or `EOF`, which is `-1`) and the
unread remainder. -/
def fgetc : List Nat → Int × List Nat
  | [] => (-1, [])
  | c :: rest => ((c : Int), rest)

/-- The test "Magic header" of `unecmify`: whether the header is missing, and
the unread remainder after the bytes the test consumed. -/
def header_missing (inp : List Nat) : Bool × List Nat :=
  let r := fgetc inp
  if r.1 ≠ 0x45 then (true, r.2) else
  let r := fgetc r.2
  if r.1 ≠ 0x43 then (true, r.2) else
  let r := fgetc r.2
  if r.1 ≠ 0x4D then (true, r.2) else
  let r := fgetc r.2
  if r.1 ≠ 0x00 then (true, r.2) else
  (false, r.2)

/-- The function `unecmify` on the input file `inp`, its main loop given `fuel`
rounds. -/
def unecmify_fuel (fuel : Nat) (inp : List Nat) : UnecmResult :=
  let h := header_missing inp
  if h.1 then
    ⟨1, some .bad_header, none, 0⟩
  else
    match unecmify_loop fuel ⟨h.2, [], 0, sector_buffer_init⟩ with
    | .error (e, st) => ⟨1, some e, some st.out, st.output_edc⟩
    | .ok st =>
      match fread st.sector_buffer 0 4 st.inp with
      | none => ⟨1, some .read_error, some st.out, st.output_edc⟩
      | some (buf, _) =>
        if get32lsb buf ≠ st.output_edc then
          ⟨1, some .checksum, some st.out, st.output_edc⟩
        else
          ⟨0, none, some st.out, st.output_edc⟩

/-- The function `unecmify(infilename, outfilename)` on an input file with
bytes `inp`. Every round of the main loop reads at least one byte, so
`inp.length + 1` rounds are enough. -/
def unecmify (inp : List Nat) : UnecmResult :=
  unecmify_fuel (inp.length + 1) inp

/-! ## Predicates used in the statements -/

/-- The conditions under which the stores of `ecc_writepq` lie above all its reads. -/
structure PQParams (data major_count minor_count major_mult minor_inc ecc : Nat) : Prop where
  hinc : minor_inc ≤ major_count * minor_count
  hidx : ∀ j, j < major_count →
    (j >>> 1) * major_mult + (j &&& 1) < major_count * minor_count
  hbelow : data + (major_count * minor_count - 4) ≤ ecc

/-- A sector of type `type` at the head of the input `s` survives the codec:
`write_sector` strips it to a payload `P`, from which `unecmify_sector`
rebuilds exactly the bytes of the sector, whatever follows the payload and
whatever the scratch buffer held. -/
def SectorRoundTrips (type : Nat) (s : List Nat) : Prop :=
  sectorsize.getD type 0 ≤ s.length ∧
  ∃ P : List Nat,
    (∀ out ebuf, ebuf.length = 2352 →
      ∃ ebuf1, ebuf1.length = 2352 ∧
        write_sector type ⟨s, out, ebuf⟩
          = .ok ⟨s.drop (sectorsize.getD type 0), out ++ P, ebuf1⟩) ∧
    (∀ tail dout edc dbuf, dbuf.length = 2352 →
      ∃ dbuf1, dbuf1.length = 2352 ∧
        unecmify_sector type ⟨P ++ tail, dout, edc, dbuf⟩
          = .ok ⟨tail, dout ++ s.take (sectorsize.getD type 0),
              edc_compute edc (s.take (sectorsize.getD type 0)) (sectorsize.getD type 0),
              dbuf1⟩)

/-- The bytes `body` are `k` complete records of an ECM stream which `unecmify`
decodes to `raw`: from any state, the main loop of `unecmify` run on `body`
followed by `tail` arrives, after `k` rounds, at `tail` with `raw` appended
to the output and folded into the output EDC. -/
def Decodes (k : Nat) (body raw : List Nat) : Prop :=
  k ≤ body.length ∧
  ∀ (fuel : Nat) (tail dout : List Nat) (edc : Nat) (dbuf : List Nat), dbuf.length = 2352 →
    ∃ dbuf1, dbuf1.length = 2352 ∧
      unecmify_loop (fuel + k) ⟨body ++ tail, dout, edc, dbuf⟩
        = unecmify_loop fuel ⟨tail, dout ++ raw, edc_compute edc raw raw.length, dbuf1⟩

end Ecm
namespace Ecm

/-! ## Sample buffers

Concrete buffers at which the general statements below are instantiated. -/

/-- A 2336-byte sector of zero bytes. -/
def zero_sector : List Nat := List.replicate 2336 0

/-- A 2352-byte buffer of zero bytes, like `sector_buffer` at program start. -/
def zero_buffer : List Nat := List.replicate 2352 0

/-- A 2352-byte buffer with the sync pattern, the address 00:00:00, mode byte 1
and zero bytes everywhere else: it has the shape of a Mode 1 sector, but its
P parity (all zero) does not match its header (the mode byte is covered by the
parity). -/
def mode1_unchecked_sector : List Nat :=
  [0, 255, 255, 255, 255, 255, 255, 255, 255, 255, 255, 0, 0, 0, 0, 1] ++ List.replicate 2336 0

/-- A 2336-byte sector of zero bytes except for the first byte of its Form 1
EDC field, which is 1. -/
def form1_bad_edc_sector : List Nat := (List.replicate 2336 0).set 0x808 1

end Ecm
namespace Ecm

/-! ## Definitions used to state refinement and index properties -/

/-- One step of the bit-serial right-shift CRC with generator constant 0xD8018001:
`e <- (e >> 1) XOR (0xD8018001 if e is odd else 0)`. -/
def crc_shift (e : Nat) : Nat :=
  (e >>> 1) ^^^ (if e % 2 = 1 then 0xD8018001 else 0)

/-- The bit-serial EDC update for one byte: XOR the byte into the low byte of the
accumulator, then apply `crc_shift` eight times. -/
def edc_bit_serial (a b : Nat) : Nat :=
  crc_shift^[8] (a ^^^ b)

/-- The values taken by `index` at the reads of the `minor` loop of
`ecc_checkpq`/`ecc_writepq`, run `n` times from `index`. -/
def ecc_index_trace (size minor_inc : Nat) : Nat → Nat → List Nat
  | 0, _ => []
  | n + 1, index =>
    index :: ecc_index_trace size minor_inc n
      (if index + minor_inc ≥ size then index + minor_inc - size else index + minor_inc)

/-- The values of `index` read for one `major` by `ecc_checkpq`/`ecc_writepq`. -/
def ecc_major_indices (major_count minor_count major_mult minor_inc major : Nat) : List Nat :=
  ecc_index_trace (major_count * minor_count) minor_inc minor_count
    ((major >>> 1) * major_mult + (major &&& 1))

/-- The step of the `minor` loop at a given value of `index`, on `(ecc_a, ecc_b)`. -/
def ecc_minor_step (address : List Nat) (rd : Nat → Nat) (ab : Nat × Nat) (index : Nat) :
    Nat × Nat :=
  let temp := if index < 4 then address.getD index 0 else rd (index - 4)
  (ecc_f_lut.getD (ab.1 ^^^ temp) 0, ab.2 ^^^ temp)

end Ecm
namespace Ecm

/-! ## The main loop of `ecmify`: rounds, runs and the loop invariant -/

/-- The four bytes that `put32lsb(dest, value)` stores, in order. -/
def le32 (value : Nat) : List Nat :=
  [value % 256, (value >>> 8) % 256, (value >>> 16) % 256, (value >>> 24) % 256]

/-- Whether the classification step of the main loop of `ecmify` calls
`detect_sector`: the queue is not empty, no literal is being skipped and the
heuristic for a sync after a mode 2 sector does not apply. -/
def detect_invoked (st : EcmState) : Bool :=
  decide (st.queue_bytes_available ≠ 0) && decide (st.literal_skip = 0) &&
    !sync_after_mode2 st

/-- The state at the top of round `n` of the main loop of `ecmify` on the input
`S`, counting from a round that starts in `st`; `none` when the loop was left
before, by `break` or by an error. -/
def ecmify_steps (S : List Nat) : Nat → EcmState → Option EcmState
  | 0, st => some st
  | n + 1, st =>
    match ecmify_iter S st with
    | .ok (st, false) => ecmify_steps S n st
    | _ => none

/-- The bytes that `write_sectors` writes for the run `(type, count, start)` of
the input `S`. -/
def run_bytes (S : List Nat) (r : Nat × Nat × Nat) : List Nat :=
  match write_sectors r.1 r.2.1 ⟨S.drop r.2.2, [], sector_buffer_init⟩ with
  | .ok io => io.out
  | .error _ => []

/-- The bytes that `write_sectors` writes for a list of runs of the input `S`. -/
def runs_bytes (S : List Nat) : List (Nat × Nat × Nat) → List Nat
  | [] => []
  | r :: rs => run_bytes S r ++ runs_bytes S rs

/-- The number of input bytes of a run: `count * sectorsize[type]`. -/
def run_size (r : Nat × Nat × Nat) : Nat :=
  r.2.1 * sectorsize.getD r.1 0

/-- The number of input bytes of a list of runs. -/
def runs_size : List (Nat × Nat × Nat) → Nat
  | [] => 0
  | r :: rs => run_size r + runs_size rs

/-- A run `(type, count, start)` of the input `S` that `write_sectors` can
encode: its type is a sector type, its count is between 1 and 2^31, it lies
inside the input, and its record is written whatever the output and the
scratch buffer hold and is decoded by one round of `unecmify` to the bytes of
the run. -/
def RunOk (S : List Nat) (r : Nat × Nat × Nat) : Prop :=
  r.1 ≤ 3 ∧ 1 ≤ r.2.1 ∧ r.2.1 ≤ 2 ^ 31 ∧ r.2.2 + run_size r ≤ S.length ∧
  (∀ out ebuf, ebuf.length = 2352 →
    ∃ inp1 ebuf1, ebuf1.length = 2352 ∧
      write_sectors r.1 r.2.1 ⟨S.drop r.2.2, out, ebuf⟩
        = .ok ⟨inp1, out ++ run_bytes S r, ebuf1⟩) ∧
  Decodes 1 (run_bytes S r) ((S.drop r.2.2).take (run_size r))

/-- The invariant of the main loop of `ecmify` on the input file `S`, at the
top of every round. -/
structure EcmInv (S : List Nat) (st : EcmState) : Prop where
  queue_ok : ∀ i, i < st.queue_bytes_available →
    st.queue.getD (st.queue_start_ofs + i) 0 = S.getD (st.input_bytes_checked + i) 0
  queue_len : st.queue_start_ofs + st.queue_bytes_available ≤ st.queue.length
  queue_cap : st.queue_start_ofs + st.queue_bytes_available ≤ queue_size
  queued_eq : st.input_bytes_checked + st.queue_bytes_available = st.input_bytes_queued
  queued_le : st.input_bytes_queued ≤ S.length
  edc_ok : st.input_edc = edc_compute 0 S st.input_bytes_queued
  buf_len : st.sector_buffer.length = 2352
  skip_le : st.literal_skip ≤ 15
  skip_run : 0 < st.literal_skip → st.curtype = 0
  run_ok :
    (st.curtype = -1 ∧ st.curtype_count = 0 ∧ st.input_bytes_checked = 0 ∧
      st.curtype_in_start = 0 ∧ st.flushed = []) ∨
    ∃ t : Nat, st.curtype = (t : Int) ∧ t ≤ 3 ∧ 1 ≤ st.curtype_count ∧
      st.curtype_count ≤ 2 ^ 31 ∧
      st.input_bytes_checked = st.curtype_in_start + st.curtype_count * sectorsize.getD t 0 ∧
      (1 ≤ t → ∀ i, i < st.curtype_count →
        SectorRoundTrips t (S.drop (st.curtype_in_start + i * sectorsize.getD t 0)))
  runs_ok : ∀ r ∈ st.flushed, RunOk S r
  tile_ok : (∀ i, i < st.flushed.length →
      (st.flushed.getD i (0, 0, 0)).2.2 = runs_size (st.flushed.take i)) ∧
    st.curtype_in_start = runs_size st.flushed
  adj_ok : (∀ i, i + 1 < st.flushed.length →
      (st.flushed.getD i (0, 0, 0)).1 ≠ (st.flushed.getD (i + 1) (0, 0, 0)).1 ∨
      (st.flushed.getD i (0, 0, 0)).2.1 = 2 ^ 31) ∧
    (∀ r, st.flushed.getLast? = some r → ((r.1 : Nat) : Int) ≠ st.curtype ∨ r.2.1 = 2 ^ 31)
  out_ok : st.out = [0x45, 0x43, 0x4D, 0x00] ++ runs_bytes S st.flushed

/-- What holds of the state in which the main loop of `ecmify` on the input
file `S` is left. -/
structure EcmPost (S : List Nat) (st : EcmState) : Prop where
  runs_ok : ∀ r ∈ st.flushed, RunOk S r
  tile_ok : (∀ i, i < st.flushed.length →
      (st.flushed.getD i (0, 0, 0)).2.2 = runs_size (st.flushed.take i)) ∧
    runs_size st.flushed = S.length
  adj_ok : ∀ i, i + 1 < st.flushed.length →
      (st.flushed.getD i (0, 0, 0)).1 ≠ (st.flushed.getD (i + 1) (0, 0, 0)).1 ∨
      (st.flushed.getD i (0, 0, 0)).2.1 = 2 ^ 31
  out_ok : st.out = [0x45, 0x43, 0x4D, 0x00] ++ runs_bytes S st.flushed
  edc_ok : st.input_edc = edc_compute 0 S S.length
  buf_len : st.sector_buffer.length = 2352
  checked_eq : st.input_bytes_checked = S.length

end Ecm
namespace Ecm

/-! ## The output name derived by `main` -/

/-- The function `tolower` of the C library (in the "C" locale) on a character. -/
def tolower (c : Char) : Char := c.toLower

/-- The output name that `main` derives in the one-argument form `bin2ecm source`:
`strcat(tempfilename, ".ecm")`. -/
def encode_outname (infilename : List Char) : List Char :=
  infilename ++ ['.', 'e', 'c', 'm']

/-- The output name that `main` derives in the one-argument form `ecm2bin source`:
the name without its last four characters when it is longer than four characters
and ends in ".ecm" (in any letter case), and the name followed by ".unecm"
otherwise. A name is the list of the characters of the C string. -/
def decode_outname (infilename : List Char) : List Char :=
  let l := infilename.length
  if l > 4 ∧
      infilename.getD (l - 4) 'x' = '.' ∧
      tolower (infilename.getD (l - 3) 'x') = 'e' ∧
      tolower (infilename.getD (l - 2) 'x') = 'c' ∧
      tolower (infilename.getD (l - 1) 'x') = 'm' then
    infilename.take (l - 4)
  else
    infilename ++ ['.', 'u', 'n', 'e', 'c', 'm']

/-- A name ends in ".ecm" in some letter case: its last four characters are a dot
and letters that `tolower` maps to e, c, m. -/
def ends_in_ecm (name : List Char) : Prop :=
  ∃ (pre : List Char) (a b c d : Char), name = pre ++ [a, b, c, d] ∧
    a = '.' ∧ tolower b = 'e' ∧ tolower c = 'c' ∧ tolower d = 'm'

end Ecm
namespace Ecm

/-! ## Sample inputs of any length -/

/-- An input of `n` bytes 0, 0, 0, 0, 1, 1, 1, 1, 0, ...: it holds no sync pattern
and no two equal words four bytes apart, so `detect_sector` finds no sector in it. -/
def literal_input (n : Nat) : List Nat :=
  (List.range n).map (fun i => (i / 4) % 2)

end Ecm
namespace Ecm

/-- The first 16 bytes of a Mode 2 sector at address 00:00:00: the sync pattern,
the address and the mode byte 2. -/
def sync_sample : List Nat :=
  [0, 255, 255, 255, 255, 255, 255, 255, 255, 255, 255, 0, 0, 0, 0, 2]

/-- An input of 2352 bytes: a 2336-byte sector of zero bytes and then the 16 bytes
of `sync_sample`. -/
def mode2_then_sync : List Nat := List.replicate 2336 0 ++ sync_sample

end Ecm
namespace Ecm

theorem read_count_loop_stop (l : List Nat) (c bits num : Nat) (h : c &&& 0x80 = 0) :
    read_count_loop l c bits num = .ok (num, l) := by
  cases l <;> simp [read_count_loop, h]

theorem first_byte_bits : ∀ f < 2, ∀ m < 32, ∀ t < 4,
    ((((f <<< 7) ||| (m <<< 2)) ||| t) % 256) &&& 3 = t ∧
    (((((f <<< 7) ||| (m <<< 2)) ||| t) % 256) >>> 2) &&& 0x1F = m ∧
    (((((f <<< 7) ||| (m <<< 2)) ||| t) % 256) &&& 0x80 = 0 ↔ f = 0) := by
  decide

theorem next_byte_bits : ∀ f < 2, ∀ m < 128,
    ((((f <<< 7) ||| m) % 256) &&& 0x7F = m) ∧
    ((((f <<< 7) ||| m) % 256) &&& 0x80 = 0 ↔ f = 0) ∧
    (m ≠ 0 → ((f <<< 7) ||| m) % 256 ≠ 0) := by
  decide

theorem write_count_loop_zero (fuel : Nat) : write_count_loop fuel 0 = [] := by
  cases fuel <;> simp [write_count_loop]

theorem or_shiftLeft_eq_add (num x bits : Nat) (h : num < 2 ^ bits) :
    num ||| (x <<< bits) = num + x * 2 ^ bits := by
  rw [Nat.shiftLeft_eq, Nat.lor_comm, Nat.mul_comm x, ← Nat.mul_add_lt_is_or h]
  omega

theorem read_write_count_loop (fuel : Nat) : ∀ (m bits num c : Nat) (tail : List Nat),
    m ≤ fuel → (c &&& 0x80 = 0 ↔ m = 0) → 1 ≤ bits → num < 2 ^ bits →
    (m ≠ 0 → ∃ k, bits + k = 32 ∧ m < 2 ^ k) →
    read_count_loop (write_count_loop fuel m ++ tail) c bits num
      = .ok (num + m * 2 ^ bits, tail) := by
  induction fuel with
  | zero =>
    intro m bits num c tail hm hc _ _ _
    have h0 : m = 0 := by omega
    subst h0
    simp [write_count_loop, read_count_loop_stop _ _ _ _ (hc.2 rfl)]
  | succ fuel ih =>
    intro m bits num c tail hm hc hb hnum hk
    by_cases h0 : m = 0
    · subst h0
      simp [write_count_loop, read_count_loop_stop _ _ _ _ (hc.2 rfl)]
    · obtain ⟨k, hk1, hk2⟩ := hk h0
      have hc' : c &&& 0x80 ≠ 0 := fun h => h0 (hc.1 h)
      have hf : (if m ≥ 128 then 1 else 0) < 2 := by split <;> omega
      have hm7 : m &&& 127 = m % 128 := Nat.and_pow_two_sub_one_eq_mod m 7
      have hlt : m % 128 < 128 := Nat.mod_lt _ (by omega)
      obtain ⟨hb1, hb2, _⟩ := next_byte_bits _ hf _ hlt
      have hkpos : 0 < k := by
        rcases k with _ | k
        · simp at hk2; omega
        · omega
      have hshift : 0x80000000 >>> (bits - 1) = 2 ^ k := by
        rw [Nat.shiftRight_eq_div_pow]
        have : (0x80000000 : Nat) = 2 ^ 31 := by norm_num
        rw [this, Nat.pow_div (by omega) (by omega)]
        congr 1; omega
      have hmk : m % 128 < 2 ^ k := lt_of_le_of_lt (Nat.mod_le _ _) hk2
      have h32 : (2 : Nat) ^ 32 = 2 ^ k * 2 ^ bits := by rw [← pow_add]; congr 1; omega
      have hsum : num + m % 128 * 2 ^ bits < 2 ^ 32 := by
        rw [h32]
        calc num + m % 128 * 2 ^ bits < 2 ^ bits + m % 128 * 2 ^ bits := by omega
          _ = (m % 128 + 1) * 2 ^ bits := by ring
          _ ≤ 2 ^ k * 2 ^ bits := Nat.mul_le_mul_right _ hmk
      have hstep : write_count_loop (fuel + 1) m
          = (((if m ≥ 128 then 1 else 0) <<< 7) ||| (m &&& 127)) % 256 ::
              write_count_loop fuel (m >>> 7) := by
        simp [write_count_loop, h0]
      rw [hstep, hm7, List.cons_append, read_count_loop]
      have hnb : ¬ (bits > 31 ∨ ((((if m ≥ 128 then 1 else 0) <<< 7) ||| (m % 128)) % 256 &&& 0x7F)
          ≥ 0x80000000 >>> (bits - 1)) := by
        rw [hb1, hshift]; omega
      rw [if_pos hc', if_neg hnb, hb1, or_shiftLeft_eq_add _ _ _ hnum, Nat.mod_eq_of_lt hsum]
      have hdiv : m >>> 7 = m / 128 := by rw [Nat.shiftRight_eq_div_pow]
      rw [hdiv]
      rw [ih (m / 128) (bits + 7) _ _ tail (by omega) ?_ (by omega) ?_ ?_]
      · congr 2
        have : (2 : Nat) ^ (bits + 7) = 128 * 2 ^ bits := by rw [pow_add]; ring
        rw [this]
        have := Nat.div_add_mod m 128
        calc num + m % 128 * 2 ^ bits + m / 128 * (128 * 2 ^ bits)
            = num + (128 * (m / 128) + m % 128) * 2 ^ bits := by ring
          _ = num + m * 2 ^ bits := by rw [this]
      · rw [hb2]; split <;> omega
      · have : (2 : Nat) ^ (bits + 7) = 128 * 2 ^ bits := by rw [pow_add]; ring
        rw [this]
        have : m % 128 * 2 ^ bits ≤ 127 * 2 ^ bits := Nat.mul_le_mul_right _ (by omega)
        omega
      · intro hne
        have h128 : 128 ≤ m := by
          by_contra hlt'
          exact hne (Nat.div_eq_of_lt (by omega))
        have hk7 : 7 < k := by
          by_contra hle
          have : (2 : Nat) ^ k ≤ 2 ^ 7 := Nat.pow_le_pow_right (by omega) (by omega)
          omega
        refine ⟨k - 7, by omega, ?_⟩
        have : (2 : Nat) ^ k = 2 ^ (k - 7) * 128 := by
          rw [show (128 : Nat) = 2 ^ 7 by norm_num, ← pow_add]; congr 1; omega
        rw [Nat.div_lt_iff_lt_mul (by omega), ← this]
        exact hk2

theorem write_type_count_eq (type count : Nat) (h : count < 2 ^ 32) :
    write_type_count type ((count + 1) % 2 ^ 32)
      = ((((if count ≥ 32 then 1 else 0) <<< 7) ||| ((count &&& 31) <<< 2)) ||| type) % 256 ::
          write_count_loop (count >>> 5) (count >>> 5) := by
  have : ((count + 1) % 2 ^ 32 + (2 ^ 32 - 1)) % 2 ^ 32 = count := by omega
  simp only [write_type_count, this]

theorem read_write_type_count (type n : Nat) (tail : List Nat) (ht : type < 4)
    (hn : n < 2 ^ 32) :
    read_type_count (write_type_count type ((n + 1) % 2 ^ 32) ++ tail) = .ok (type, n, tail) := by
  rw [write_type_count_eq type n hn, List.cons_append, read_type_count]
  have hf : (if n ≥ 32 then 1 else 0) < 2 := by split <;> omega
  have hm : n &&& 31 = n % 32 := Nat.and_pow_two_sub_one_eq_mod n 5
  have hlt : n % 32 < 32 := Nat.mod_lt _ (by omega)
  rw [hm]
  obtain ⟨h1, h2, h3⟩ := first_byte_bits _ hf _ hlt _ ht
  rw [h1, h2]
  have hdiv : n >>> 5 = n / 32 := by rw [Nat.shiftRight_eq_div_pow]
  rw [hdiv]
  rw [read_write_count_loop (n / 32) (n / 32) 5 (n % 32) _ tail (le_refl _) ?_ (by omega)
    (by omega) ?_]
  · have := Nat.div_add_mod n 32
    have h5 : (2 : Nat) ^ 5 = 32 := by norm_num
    simp only [h5]
    congr 3
    omega
  · rw [h3]; split <;> omega
  · intro _
    exact ⟨27, by omega, by omega⟩

theorem size_shiftRight (m k : Nat) : Nat.size (m >>> k) = Nat.size m - k := by
  apply le_antisymm
  · rw [Nat.size_le, Nat.shiftRight_eq_div_pow]
    by_cases hk : k ≤ Nat.size m
    · rw [Nat.div_lt_iff_lt_mul (by positivity), ← pow_add]
      have : Nat.size m - k + k = Nat.size m := by omega
      rw [this]
      exact Nat.lt_size_self m
    · have h1 : m < 2 ^ k :=
        lt_of_lt_of_le (Nat.lt_size_self m) (Nat.pow_le_pow_right (by omega) (by omega))
      rw [Nat.div_eq_of_lt h1]
      positivity
  · by_cases hk : Nat.size m ≤ k
    · omega
    · have h1 : Nat.size m - k - 1 < Nat.size (m >>> k) := by
        rw [Nat.lt_size, Nat.shiftRight_eq_div_pow, Nat.le_div_iff_mul_le (by positivity),
          ← pow_add]
        have h2 : Nat.size m - 1 < Nat.size m := by omega
        rw [Nat.lt_size] at h2
        have : Nat.size m - k - 1 + k = Nat.size m - 1 := by omega
        rw [this]
        exact h2
      omega

theorem write_count_loop_length (fuel : Nat) : ∀ m, m ≤ fuel →
    (write_count_loop fuel m).length = (Nat.size m + 6) / 7 := by
  induction fuel with
  | zero =>
    intro m hm
    have h0 : m = 0 := by omega
    subst h0
    simp [write_count_loop]
  | succ fuel ih =>
    intro m hm
    by_cases h0 : m = 0
    · subst h0
      simp [write_count_loop]
    · have hlt : m >>> 7 ≤ fuel := by
        rw [Nat.shiftRight_eq_div_pow]
        have : m / 2 ^ 7 < m := Nat.div_lt_self (by omega) (by norm_num)
        omega
      have hpos : 0 < Nat.size m := Nat.size_pos.2 (by omega)
      simp only [write_count_loop, ne_eq, h0, not_false_eq_true, if_true, List.length_cons]
      rw [ih _ hlt, size_shiftRight]
      omega

theorem write_count_loop_last (fuel : Nat) : ∀ m, m ≤ fuel → m ≠ 0 →
    ∃ b, (write_count_loop fuel m).getLast? = some b ∧ b ≠ 0 := by
  induction fuel with
  | zero => intro m hm h0; omega
  | succ fuel ih =>
    intro m hm h0
    have hlt : m >>> 7 ≤ fuel := by
      rw [Nat.shiftRight_eq_div_pow]
      have : m / 2 ^ 7 < m := Nat.div_lt_self (by omega) (by norm_num)
      omega
    simp only [write_count_loop, ne_eq, h0, not_false_eq_true, if_true]
    by_cases h7 : m >>> 7 = 0
    · rw [h7, write_count_loop_zero]
      have hm128 : m < 128 := by
        rw [Nat.shiftRight_eq_div_pow] at h7
        by_contra hge
        have : 1 ≤ m / 2 ^ 7 := (Nat.le_div_iff_mul_le (by norm_num)).2 (by omega)
        omega
      have hm7 : m &&& 127 = m % 128 := Nat.and_pow_two_sub_one_eq_mod m 7
      refine ⟨_, rfl, ?_⟩
      rw [hm7, Nat.mod_eq_of_lt hm128, if_neg (by omega)]
      exact (next_byte_bits 0 (by omega) m hm128).2.2 h0
    · obtain ⟨b, hb, hb0⟩ := ih _ hlt h7
      refine ⟨b, ?_, hb0⟩
      rw [List.getLast?_cons, hb]
      rfl

end Ecm
namespace Ecm

/-! ## Buffers -/

theorem getD_drop (l : List Nat) (k i : Nat) : (l.drop k).getD i 0 = l.getD (k + i) 0 := by
  simp [List.getD_eq_getElem?_getD, List.getElem?_drop]

theorem getD_take (l : List Nat) (k i : Nat) (h : i < k) : (l.take k).getD i 0 = l.getD i 0 := by
  simp [List.getD_eq_getElem?_getD, List.getElem?_take, h]

theorem getD_set (l : List Nat) (j v i : Nat) :
    (l.set j v).getD i 0 = if i = j ∧ j < l.length then v else l.getD i 0 := by
  simp only [List.getD_eq_getElem?_getD, List.getElem?_set]
  by_cases h : j = i
  · subst h
    by_cases h2 : j < l.length
    · simp [h2]
    · simp [h2, List.getElem?_eq_none (Nat.le_of_not_lt h2)]
  · have : ¬ (i = j ∧ j < l.length) := fun h' => h h'.1.symm
    simp [h, this]

theorem getD_append_left (l1 l2 : List Nat) (i : Nat) (h : i < l1.length) :
    (l1 ++ l2).getD i 0 = l1.getD i 0 := by
  simp [List.getD_eq_getElem?_getD, List.getElem?_append_left h]

theorem getD_append_right (l1 l2 : List Nat) (i : Nat) (h : l1.length ≤ i) :
    (l1 ++ l2).getD i 0 = l2.getD (i - l1.length) 0 := by
  simp [List.getD_eq_getElem?_getD, List.getElem?_append_right h]

theorem getD_of_length_le (l : List Nat) (i : Nat) (h : l.length ≤ i) : l.getD i 0 = 0 := by
  simp [List.getD_eq_getElem?_getD, List.getElem?_eq_none h]

theorem ext_getD (l1 l2 : List Nat) (hlen : l1.length = l2.length)
    (h : ∀ i, i < l1.length → l1.getD i 0 = l2.getD i 0) : l1 = l2 := by
  apply List.ext_getElem hlen
  intro i h1 h2
  have := h i h1
  simpa [List.getD_eq_getElem?_getD, List.getElem?_eq_getElem h1, List.getElem?_eq_getElem h2]
    using this

theorem getD_lt_of_forall (l : List Nat) (h : ∀ b ∈ l, b < 256) (i : Nat) : l.getD i 0 < 256 := by
  by_cases hi : i < l.length
  · have : l.getD i 0 = l[i] := by
      simp [List.getD_eq_getElem?_getD, List.getElem?_eq_getElem hi]
    rw [this]
    exact h _ (List.getElem_mem hi)
  · rw [getD_of_length_le l i (by omega)]
    omega

/-! ## The EDC -/

theorem edc_compute_congr (n : Nat) : ∀ (a : Nat) (src src1 : List Nat),
    (∀ i, i < n → src.getD i 0 = src1.getD i 0) →
    edc_compute a src n = edc_compute a src1 n := by
  induction n with
  | zero => intro a src src1 _; simp [edc_compute]
  | succ n ih =>
    intro a src src1 h
    simp only [edc_compute]
    rw [h 0 (by omega)]
    apply ih
    intro i hi
    rw [getD_drop, getD_drop]
    exact h _ (by omega)

theorem edc_compute_take (a : Nat) (src : List Nat) (n : Nat) :
    edc_compute a src n = edc_compute a (src.take n) n :=
  edc_compute_congr n a _ _ (fun i hi => (getD_take src n i hi).symm)

theorem edc_compute_append (X : List Nat) : ∀ (a : Nat) (Y : List Nat) (n : Nat),
    edc_compute a (X ++ Y) (X.length + n) = edc_compute (edc_compute a X X.length) Y n := by
  induction X with
  | nil => intro a Y n; simp [edc_compute]
  | cons x X ih =>
    intro a Y n
    have : (x :: X).length + n = (X.length + n) + 1 := by simp; omega
    rw [this]
    simp only [List.cons_append, edc_compute, List.length_cons, List.drop_succ_cons,
      List.drop_zero, List.getD_cons_zero]
    exact ih _ Y n

theorem edc_compute_lt (n : Nat) : ∀ (a : Nat) (src : List Nat), a < 2 ^ 32 →
    edc_compute a src n < 2 ^ 32 := by
  induction n with
  | zero => intro a src h; simpa [edc_compute] using h
  | succ n ih =>
    intro a src _
    simp only [edc_compute]
    exact ih _ _ (Nat.mod_lt _ (by norm_num))

/-! ## Little-endian words -/

theorem get32lsb_eq (b0 b1 b2 b3 : Nat) (h0 : b0 < 256) (h1 : b1 < 256) (h2 : b2 < 256) :
    (b0 <<< 0) ||| (b1 <<< 8) ||| (b2 <<< 16) ||| (b3 <<< 24)
      = b0 + b1 * 2 ^ 8 + b2 * 2 ^ 16 + b3 * 2 ^ 24 := by
  have e1 : b0 <<< 0 ||| b1 <<< 8 = b0 + b1 * 2 ^ 8 := by
    rw [Nat.shiftLeft_zero]
    exact or_shiftLeft_eq_add b0 b1 8 (by omega)
  have e2 : (b0 + b1 * 2 ^ 8) ||| b2 <<< 16 = b0 + b1 * 2 ^ 8 + b2 * 2 ^ 16 :=
    or_shiftLeft_eq_add _ b2 16 (by omega)
  have e3 : (b0 + b1 * 2 ^ 8 + b2 * 2 ^ 16) ||| b3 <<< 24
      = b0 + b1 * 2 ^ 8 + b2 * 2 ^ 16 + b3 * 2 ^ 24 :=
    or_shiftLeft_eq_add _ b3 24 (by omega)
  rw [e1, e2, e3]

theorem getD_put32lsb (dest : List Nat) (ofs v i : Nat) (h : ofs + 4 ≤ dest.length) :
    (put32lsb dest ofs v).getD i 0 =
      if i = ofs then v % 256
      else if i = ofs + 1 then (v >>> 8) % 256
      else if i = ofs + 2 then (v >>> 16) % 256
      else if i = ofs + 3 then (v >>> 24) % 256
      else dest.getD i 0 := by
  simp only [put32lsb, getD_set, List.length_set]
  split_ifs <;> first | rfl | omega

theorem length_put32lsb (dest : List Nat) (ofs v : Nat) :
    (put32lsb dest ofs v).length = dest.length := by
  simp [put32lsb]

theorem put32lsb_get32lsb_getD (dest src : List Nat) (ofs i : Nat) (h : ofs + 4 ≤ dest.length)
    (hb : ∀ k, src.getD k 0 < 256) :
    (put32lsb dest ofs (get32lsb src)).getD i 0 =
      if ofs ≤ i ∧ i < ofs + 4 then src.getD (i - ofs) 0 else dest.getD i 0 := by
  rw [getD_put32lsb _ _ _ _ h, get32lsb, get32lsb_eq _ _ _ _ (hb 0) (hb 1) (hb 2)]
  have h0 := hb 0
  have h1 := hb 1
  have h2 := hb 2
  have h3 := hb 3
  simp only [Nat.shiftRight_eq_div_pow]
  split_ifs with c1 c2 c3 c4 c5 c6 c7 c8 c9
  all_goals first
    | omega
    | (subst_vars; simp only [Nat.sub_self, Nat.add_sub_cancel_left]; omega)

theorem get32lsb_put32lsb (dest : List Nat) (ofs v : Nat) (h : ofs + 4 ≤ dest.length)
    (hv : v < 2 ^ 32) : get32lsb ((put32lsb dest ofs v).drop ofs) = v := by
  have hb : ∀ k, k < 4 → ((put32lsb dest ofs v).drop ofs).getD k 0 < 256 := by
    intro k hk
    rw [getD_drop, getD_put32lsb _ _ _ _ h]
    split_ifs <;> omega
  rw [get32lsb, get32lsb_eq _ _ _ _ (hb 0 (by omega)) (hb 1 (by omega)) (hb 2 (by omega))]
  simp only [getD_drop, getD_put32lsb _ _ _ _ h, Nat.shiftRight_eq_div_pow]
  simp
  omega

end Ecm
namespace Ecm

/-! ## The ECC -/

theorem ecc_minor_loop_congr (address address1 : List Nat) (rd rd1 : Nat → Nat)
    (size minor_inc : Nat) (hinc : minor_inc ≤ size)
    (haddr : ∀ i, i < 4 → address.getD i 0 = address1.getD i 0)
    (hrd : ∀ k, k + 4 < size → rd k = rd1 k) :
    ∀ (n index a b : Nat), index < size →
      ecc_minor_loop address rd size minor_inc n index a b
        = ecc_minor_loop address1 rd1 size minor_inc n index a b := by
  intro n
  induction n with
  | zero => intro index a b _; simp [ecc_minor_loop]
  | succ n ih =>
    intro index a b hidx
    simp only [ecc_minor_loop]
    have htemp : (if index < 4 then address.getD index 0 else rd (index - 4))
        = (if index < 4 then address1.getD index 0 else rd1 (index - 4)) := by
      split
      · exact haddr _ (by omega)
      · exact hrd _ (by omega)
    rw [htemp]
    apply ih
    split <;> omega

theorem ecc_major_congr (address address1 : List Nat) (rd rd1 : Nat → Nat)
    (major_count minor_count major_mult minor_inc major : Nat)
    (hinc : minor_inc ≤ major_count * minor_count)
    (hidx : (major >>> 1) * major_mult + (major &&& 1) < major_count * minor_count)
    (haddr : ∀ i, i < 4 → address.getD i 0 = address1.getD i 0)
    (hrd : ∀ k, k + 4 < major_count * minor_count → rd k = rd1 k) :
    ecc_major address rd major_count minor_count major_mult minor_inc major
      = ecc_major address1 rd1 major_count minor_count major_mult minor_inc major := by
  simp only [ecc_major]
  rw [ecc_minor_loop_congr address address1 rd rd1 _ _ hinc haddr hrd _ _ _ _ hidx]

theorem ecc_checkpq_loop_iff (address data : List Nat)
    (major_count minor_count major_mult minor_inc : Nat) (ecc : List Nat) :
    ∀ (n major : Nat),
      ecc_checkpq_loop address data major_count minor_count major_mult minor_inc ecc n major
        = true ↔
      ∀ j, major ≤ j → j < major + n →
        ecc.getD j 0 = (ecc_major address (fun k => data.getD k 0)
          major_count minor_count major_mult minor_inc j).1 ∧
        ecc.getD (j + major_count) 0 = (ecc_major address (fun k => data.getD k 0)
          major_count minor_count major_mult minor_inc j).2 := by
  intro n
  induction n with
  | zero =>
    intro major
    simp only [ecc_checkpq_loop, true_iff]
    intro j h1 h2
    omega
  | succ n ih =>
    intro major
    simp only [ecc_checkpq_loop]
    split
    · rename_i hne
      simp only [Bool.false_eq_true, false_iff]
      intro hall
      have := hall major (le_refl _) (by omega)
      rcases hne with h | h
      · exact h this.1
      · exact h this.2
    · rename_i hne
      rw [not_or, not_not, not_not] at hne
      rw [ih (major + 1)]
      constructor
      · intro hall j h1 h2
        by_cases hj : j = major
        · subst hj; exact hne
        · exact hall j (by omega) (by omega)
      · intro hall j h1 h2
        exact hall j (by omega) (by omega)

theorem ecc_checkpq_iff (address data : List Nat)
    (major_count minor_count major_mult minor_inc : Nat) (ecc : List Nat) :
    ecc_checkpq address data major_count minor_count major_mult minor_inc ecc = true ↔
      ∀ j, j < major_count →
        ecc.getD j 0 = (ecc_major address (fun k => data.getD k 0)
          major_count minor_count major_mult minor_inc j).1 ∧
        ecc.getD (j + major_count) 0 = (ecc_major address (fun k => data.getD k 0)
          major_count minor_count major_mult minor_inc j).2 := by
  rw [ecc_checkpq, ecc_checkpq_loop_iff]
  constructor
  · intro h j hj; exact h j (by omega) (by omega)
  · intro h j _ hj; exact h j (by omega)

theorem ecc_writepq_loop_spec (address : List Nat)
    (data major_count minor_count major_mult minor_inc ecc : Nat)
    (hp : PQParams data major_count minor_count major_mult minor_inc ecc) :
    ∀ (n major : Nat) (sector : List Nat), major + n ≤ major_count →
      ecc + 2 * major_count ≤ sector.length →
      (ecc_writepq_loop address data major_count minor_count major_mult minor_inc ecc
          n major sector).length = sector.length ∧
      (∀ i, (i < ecc + major ∨ (ecc + major + n ≤ i ∧ i < ecc + major_count + major) ∨
          ecc + major_count + major + n ≤ i) →
        (ecc_writepq_loop address data major_count minor_count major_mult minor_inc ecc
          n major sector).getD i 0 = sector.getD i 0) ∧
      (∀ j, major ≤ j → j < major + n →
        (ecc_writepq_loop address data major_count minor_count major_mult minor_inc ecc
            n major sector).getD (ecc + j) 0
          = (ecc_major address (fun k => sector.getD (data + k) 0)
              major_count minor_count major_mult minor_inc j).1 ∧
        (ecc_writepq_loop address data major_count minor_count major_mult minor_inc ecc
            n major sector).getD (ecc + (j + major_count)) 0
          = (ecc_major address (fun k => sector.getD (data + k) 0)
              major_count minor_count major_mult minor_inc j).2) := by
  intro n
  induction n with
  | zero =>
    intro major sector _ _
    simp only [ecc_writepq_loop, true_and]
    refine ⟨fun _ _ => trivial, ?_⟩
    intro j h1 h2
    omega
  | succ n ih =>
    intro major sector hmn hlen
    simp only [ecc_writepq_loop]
    generalize hp1 : ecc_major address (fun k => sector.getD (data + k) 0)
      major_count minor_count major_mult minor_inc major = p
    have hlen1 : ecc + 2 * major_count ≤
        ((sector.set (ecc + major) p.1).set (ecc + (major + major_count)) p.2).length := by
      simpa using hlen
    obtain ⟨ihlen, ihframe, ihval⟩ := ih (major + 1)
      ((sector.set (ecc + major) p.1).set (ecc + (major + major_count)) p.2) (by omega) hlen1
    have hsame : ∀ j, j < major_count →
        ecc_major address
          (fun k => ((sector.set (ecc + major) p.1).set
            (ecc + (major + major_count)) p.2).getD (data + k) 0)
          major_count minor_count major_mult minor_inc j
        = ecc_major address (fun k => sector.getD (data + k) 0)
          major_count minor_count major_mult minor_inc j := by
      intro j hj
      apply ecc_major_congr _ _ _ _ _ _ _ _ _ hp.hinc (hp.hidx j hj) (fun _ _ => rfl)
      intro k hk
      have := hp.hbelow
      simp only [getD_set, List.length_set]
      rw [if_neg (by omega), if_neg (by omega)]
    refine ⟨by simpa using ihlen, ?_, ?_⟩
    · intro i hi
      rw [ihframe i (by omega)]
      simp only [getD_set, List.length_set]
      rw [if_neg (by omega), if_neg (by omega)]
    · intro j h1 h2
      by_cases hj : j = major
      · subst hj
        rw [ihframe (ecc + j) (by omega), ihframe (ecc + (j + major_count)) (by omega)]
        simp only [getD_set, List.length_set]
        rw [hp1]
        constructor
        · rw [if_neg (by omega), if_pos ⟨trivial, by omega⟩]
        · rw [if_pos ⟨trivial, by omega⟩]
      · have := ihval j (by omega) (by omega)
        rw [hsame j (by omega)] at this
        exact this

theorem ecc_writepq_spec (address : List Nat)
    (data major_count minor_count major_mult minor_inc ecc : Nat) (sector : List Nat)
    (hp : PQParams data major_count minor_count major_mult minor_inc ecc)
    (hlen : ecc + 2 * major_count ≤ sector.length) :
    (ecc_writepq address data major_count minor_count major_mult minor_inc ecc sector).length
      = sector.length ∧
    (∀ i, (i < ecc ∨ ecc + 2 * major_count ≤ i) →
      (ecc_writepq address data major_count minor_count major_mult minor_inc ecc sector).getD i 0
        = sector.getD i 0) ∧
    (∀ j, j < major_count →
      (ecc_writepq address data major_count minor_count major_mult minor_inc ecc sector).getD
          (ecc + j) 0
        = (ecc_major address (fun k => sector.getD (data + k) 0)
            major_count minor_count major_mult minor_inc j).1 ∧
      (ecc_writepq address data major_count minor_count major_mult minor_inc ecc sector).getD
          (ecc + (j + major_count)) 0
        = (ecc_major address (fun k => sector.getD (data + k) 0)
            major_count minor_count major_mult minor_inc j).2) := by
  obtain ⟨h1, h2, h3⟩ := ecc_writepq_loop_spec address data major_count minor_count
    major_mult minor_inc ecc hp major_count 0 sector (by omega) hlen
  refine ⟨h1, ?_, ?_⟩
  · intro i hi
    exact h2 i (by omega)
  · intro j hj
    exact h3 j (by omega) (by omega)

theorem pqparams_P (data ecc : Nat) (h : data + 2060 ≤ ecc) : PQParams data 86 24 2 86 ecc := by
  refine ⟨by omega, ?_, by omega⟩
  intro j hj
  have h1 : j >>> 1 = j / 2 := by rw [Nat.shiftRight_eq_div_pow]
  have h2 : j &&& 1 = j % 2 := Nat.and_pow_two_sub_one_eq_mod j 1
  rw [h1, h2]
  omega

theorem pqparams_Q (data ecc : Nat) (h : data + 2232 ≤ ecc) : PQParams data 52 43 86 88 ecc := by
  refine ⟨by omega, ?_, by omega⟩
  intro j hj
  have h1 : j >>> 1 = j / 2 := by rw [Nat.shiftRight_eq_div_pow]
  have h2 : j &&& 1 = j % 2 := Nat.and_pow_two_sub_one_eq_mod j 1
  rw [h1, h2]
  omega

end Ecm
namespace Ecm

/-! ## Reconstruction of a sector -/

theorem length_reconstruct_sync (l : List Nat) : (reconstruct_sync l).length = l.length := by
  simp [reconstruct_sync]

theorem getD_set_lt (l : List Nat) (j v i : Nat) (h : j < l.length) :
    (l.set j v).getD i 0 = if i = j then v else l.getD i 0 := by
  rw [getD_set]
  by_cases hi : i = j <;> simp [hi, h]

theorem getD_set6 (l : List Nat) (j0 j1 j2 j3 j4 j5 i v0 v1 v2 v3 v4 v5 : Nat)
    (h0 : j0 < l.length) (h1 : j1 < l.length) (h2 : j2 < l.length) (h3 : j3 < l.length)
    (h4 : j4 < l.length) (h5 : j5 < l.length) :
    ((((((l.set j0 v0).set j1 v1).set j2 v2).set j3 v3).set j4 v4).set j5 v5).getD i 0 =
      if i = j5 then v5 else if i = j4 then v4 else if i = j3 then v3
      else if i = j2 then v2 else if i = j1 then v1 else if i = j0 then v0
      else l.getD i 0 := by
  rw [getD_set_lt _ _ _ _ (by simpa using h5), getD_set_lt _ _ _ _ (by simpa using h4),
    getD_set_lt _ _ _ _ (by simpa using h3), getD_set_lt _ _ _ _ (by simpa using h2),
    getD_set_lt _ _ _ _ (by simpa using h1), getD_set_lt _ _ _ _ h0]

theorem getD_reconstruct_sync (l : List Nat) (h : 12 ≤ l.length) (i : Nat) :
    (reconstruct_sync l).getD i 0 =
      if i = 0 then 0 else if i < 11 then 0xFF else if i = 11 then 0 else l.getD i 0 := by
  rw [reconstruct_sync,
    getD_set6 _ _ _ _ _ _ _ _ _ _ _ _ _ _ (by simp; omega) (by simp; omega) (by simp; omega)
      (by simp; omega) (by simp; omega) (by simp; omega),
    getD_set6 _ _ _ _ _ _ _ _ _ _ _ _ _ _ (by omega) (by omega) (by omega)
      (by omega) (by omega) (by omega)]
  by_cases hi : i < 12
  · interval_cases i <;> rfl
  · repeat rw [if_neg (by omega)]

theorem length_reconstruct_mode (l : List Nat) (t : Nat) :
    (reconstruct_mode l t).length = l.length := by
  simp only [reconstruct_mode]
  split_ifs <;> simp

theorem getD_reconstruct_mode_1 (l : List Nat) (h : 0x81C ≤ l.length) (i : Nat) :
    (reconstruct_mode l 1).getD i 0 =
      if i = 0xF then 1 else if 0x814 ≤ i ∧ i < 0x81C then 0 else l.getD i 0 := by
  simp only [reconstruct_mode, getD_set, List.length_set, if_true]
  split_ifs <;> first | rfl | omega

theorem getD_reconstruct_mode_23 (l : List Nat) (t : Nat) (ht : t = 2 ∨ t = 3)
    (h : 0x18 ≤ l.length) (i : Nat) :
    (reconstruct_mode l t).getD i 0 =
      if i = 0xF then 2 else if 0x10 ≤ i ∧ i < 0x14 then l.getD (i + 4) 0 else l.getD i 0 := by
  have h1 : ¬ t = 1 := by omega
  simp only [reconstruct_mode, getD_set, List.length_set, if_neg h1, if_pos ht]
  split_ifs <;> first | rfl | omega | (congr 1; omega)

theorem length_reconstruct_edc (l : List Nat) (t : Nat) :
    (reconstruct_edc l t).length = l.length := by
  simp only [reconstruct_edc]
  split_ifs <;> simp [length_put32lsb]

theorem length_ecc_writepq_loop (address : List Nat)
    (data major_count minor_count major_mult minor_inc ecc : Nat) :
    ∀ (n major : Nat) (sector : List Nat),
      (ecc_writepq_loop address data major_count minor_count major_mult minor_inc ecc
        n major sector).length = sector.length := by
  intro n
  induction n with
  | zero => intro major sector; simp [ecc_writepq_loop]
  | succ n ih => intro major sector; simp [ecc_writepq_loop, ih]

theorem length_reconstruct_ecc (l : List Nat) (t : Nat) :
    (reconstruct_ecc l t).length = l.length := by
  simp only [reconstruct_ecc, ecc_writesector, ecc_writepq]
  split_ifs <;> simp [length_ecc_writepq_loop]

theorem length_reconstruct_sector (l : List Nat) (t : Nat) :
    (reconstruct_sector l t).length = l.length := by
  simp [reconstruct_sector, length_reconstruct_ecc, length_reconstruct_edc,
    length_reconstruct_mode, length_reconstruct_sync]

theorem ecc_writesector_spec (address address1 : List Nat) (data : Nat) (sector : List Nat)
    (haddr : ∀ i, i < 4 → address.getD i 0 = address1.getD i 0)
    (hlen : data + 2060 + 276 ≤ sector.length) :
    (ecc_writesector address data (data + 2060) sector).length = sector.length ∧
    (∀ i, (i < data + 2060 ∨ data + 2060 + 276 ≤ i) →
      (ecc_writesector address data (data + 2060) sector).getD i 0 = sector.getD i 0) ∧
    ecc_checksector address1 ((ecc_writesector address data (data + 2060) sector).drop data)
      ((ecc_writesector address data (data + 2060) sector).drop (data + 2060)) = true := by
  have hP := pqparams_P data (data + 2060) (le_refl _)
  have hQ := pqparams_Q data (data + 2060 + 0xAC) (by omega)
  obtain ⟨p1, p2, p3⟩ := ecc_writepq_spec address data 86 24 2 86 (data + 2060) sector hP
    (by omega)
  obtain ⟨q1, q2, q3⟩ := ecc_writepq_spec address data 52 43 86 88 (data + 2060 + 0xAC)
    (ecc_writepq address data 86 24 2 86 (data + 2060) sector) hQ (by omega)
  simp only [ecc_writesector]
  refine ⟨by omega, ?_, ?_⟩
  · intro i hi
    rw [q2 i (by omega), p2 i (by omega)]
  · simp only [ecc_checksector, Bool.and_eq_true, ecc_checkpq_iff, getD_drop]
    constructor
    · intro j hj
      have hv := p3 j hj
      rw [q2 (data + 2060 + j) (by omega), q2 (data + 2060 + (j + 86)) (by omega)]
      have hc : ecc_major address1
          (fun k => (ecc_writepq address data 52 43 86 88 (data + 2060 + 0xAC)
            (ecc_writepq address data 86 24 2 86 (data + 2060) sector)).getD (data + k) 0)
          86 24 2 86 j
          = ecc_major address (fun k => sector.getD (data + k) 0) 86 24 2 86 j := by
        apply ecc_major_congr _ _ _ _ _ _ _ _ _ hP.hinc (hP.hidx j hj)
          (fun i hi => (haddr i hi).symm)
        intro k hk
        rw [q2 (data + k) (by omega), p2 (data + k) (by omega)]
      rw [hc]
      exact hv
    · intro j hj
      have hv := q3 j hj
      have e1 : data + 2060 + (172 + j) = data + 2060 + 0xAC + j := by omega
      have e2 : data + 2060 + (172 + (j + 52)) = data + 2060 + 0xAC + (j + 52) := by omega
      rw [e1, e2]
      have hc : ecc_major address1
          (fun k => (ecc_writepq address data 52 43 86 88 (data + 2060 + 0xAC)
            (ecc_writepq address data 86 24 2 86 (data + 2060) sector)).getD (data + k) 0)
          52 43 86 88 j
          = ecc_major address
            (fun k => (ecc_writepq address data 86 24 2 86 (data + 2060) sector).getD
              (data + k) 0) 52 43 86 88 j := by
        apply ecc_major_congr _ _ _ _ _ _ _ _ _ hQ.hinc (hQ.hidx j hj)
          (fun i hi => (haddr i hi).symm)
        intro k hk
        rw [q2 (data + k) (by omega)]
      rw [hc]
      exact hv

theorem ecc_unique (X Y address address1 : List Nat) (data : Nat)
    (hX : ecc_checksector address (X.drop data) (X.drop (data + 2060)) = true)
    (hY : ecc_checksector address1 (Y.drop data) (Y.drop (data + 2060)) = true)
    (haddr : ∀ i, i < 4 → address.getD i 0 = address1.getD i 0)
    (hdata : ∀ i, data ≤ i → i < data + 2060 → X.getD i 0 = Y.getD i 0) :
    ∀ i, data + 2060 ≤ i → i < data + 2060 + 276 → X.getD i 0 = Y.getD i 0 := by
  simp only [ecc_checksector, Bool.and_eq_true, ecc_checkpq_iff, getD_drop] at hX hY
  have hP := pqparams_P data (data + 2060) (le_refl _)
  have hQ := pqparams_Q data (data + 2060 + 0xAC) (by omega)
  have hPeq : ∀ i, data + 2060 ≤ i → i < data + 2060 + 172 → X.getD i 0 = Y.getD i 0 := by
    intro i h1 h2
    have hc : ∀ j, j < 86 →
        ecc_major address (fun k => X.getD (data + k) 0) 86 24 2 86 j
          = ecc_major address1 (fun k => Y.getD (data + k) 0) 86 24 2 86 j := by
      intro j hj
      apply ecc_major_congr _ _ _ _ _ _ _ _ _ hP.hinc (hP.hidx j hj) haddr
      intro k hk
      exact hdata _ (by omega) (by omega)
    by_cases hlt : i < data + 2060 + 86
    · have hx := (hX.1 (i - (data + 2060)) (by omega)).1
      have hy := (hY.1 (i - (data + 2060)) (by omega)).1
      have e : data + 2060 + (i - (data + 2060)) = i := by omega
      rw [e] at hx hy
      rw [hx, hy, hc _ (by omega)]
    · have hx := (hX.1 (i - (data + 2060) - 86) (by omega)).2
      have hy := (hY.1 (i - (data + 2060) - 86) (by omega)).2
      have e : data + 2060 + (i - (data + 2060) - 86 + 86) = i := by omega
      rw [e] at hx hy
      rw [hx, hy, hc _ (by omega)]
  intro i h1 h2
  by_cases h172 : i < data + 2060 + 172
  · exact hPeq i h1 h172
  · have hc : ∀ j, j < 52 →
        ecc_major address (fun k => X.getD (data + k) 0) 52 43 86 88 j
          = ecc_major address1 (fun k => Y.getD (data + k) 0) 52 43 86 88 j := by
      intro j hj
      apply ecc_major_congr _ _ _ _ _ _ _ _ _ hQ.hinc (hQ.hidx j hj) haddr
      intro k hk
      by_cases hk2 : k < 2060
      · exact hdata _ (by omega) (by omega)
      · exact hPeq _ (by omega) (by omega)
    by_cases hlt : i < data + 2060 + 172 + 52
    · have hx := (hX.2 (i - (data + 2060 + 172)) (by omega)).1
      have hy := (hY.2 (i - (data + 2060 + 172)) (by omega)).1
      have e : data + 2060 + (172 + (i - (data + 2060 + 172))) = i := by omega
      rw [e] at hx hy
      rw [hx, hy, hc _ (by omega)]
    · have hx := (hX.2 (i - (data + 2060 + 172) - 52) (by omega)).2
      have hy := (hY.2 (i - (data + 2060 + 172) - 52) (by omega)).2
      have e : data + 2060 + (172 + (i - (data + 2060 + 172) - 52 + 52)) = i := by omega
      rw [e] at hx hy
      rw [hx, hy, hc _ (by omega)]

theorem get32lsb_inj (X Y : List Nat) (hX : ∀ k, k < 4 → X.getD k 0 < 256)
    (hY : ∀ k, k < 4 → Y.getD k 0 < 256) (h : get32lsb X = get32lsb Y) :
    ∀ k, k < 4 → X.getD k 0 = Y.getD k 0 := by
  rw [get32lsb, get32lsb, get32lsb_eq _ _ _ _ (hX 0 (by omega)) (hX 1 (by omega))
    (hX 2 (by omega)), get32lsb_eq _ _ _ _ (hY 0 (by omega)) (hY 1 (by omega))
    (hY 2 (by omega))] at h
  have x0 := hX 0 (by omega)
  have x1 := hX 1 (by omega)
  have x2 := hX 2 (by omega)
  have x3 := hX 3 (by omega)
  have y0 := hY 0 (by omega)
  have y1 := hY 1 (by omega)
  have y2 := hY 2 (by omega)
  have y3 := hY 3 (by omega)
  intro k hk
  interval_cases k <;> omega

theorem edc_unique (X Y : List Nat) (ofs n : Nat)
    (hX : edc_compute 0 (X.drop ofs) n = get32lsb (X.drop (ofs + n)))
    (hY : edc_compute 0 (Y.drop ofs) n = get32lsb (Y.drop (ofs + n)))
    (hbX : ∀ k, k < 4 → X.getD (ofs + n + k) 0 < 256)
    (hbY : ∀ k, k < 4 → Y.getD (ofs + n + k) 0 < 256)
    (hdata : ∀ i, ofs ≤ i → i < ofs + n → X.getD i 0 = Y.getD i 0) :
    ∀ i, ofs + n ≤ i → i < ofs + n + 4 → X.getD i 0 = Y.getD i 0 := by
  have he : edc_compute 0 (X.drop ofs) n = edc_compute 0 (Y.drop ofs) n := by
    apply edc_compute_congr
    intro i hi
    rw [getD_drop, getD_drop]
    exact hdata _ (by omega) (by omega)
  have hg : get32lsb (X.drop (ofs + n)) = get32lsb (Y.drop (ofs + n)) := by
    rw [← hX, ← hY, he]
  have := get32lsb_inj _ _ (fun k hk => by rw [getD_drop]; exact hbX k hk)
    (fun k hk => by rw [getD_drop]; exact hbY k hk) hg
  intro i h1 h2
  have h3 := this (i - (ofs + n)) (by omega)
  rw [getD_drop, getD_drop] at h3
  have e : ofs + n + (i - (ofs + n)) = i := by omega
  rw [e] at h3
  exact h3

end Ecm
namespace Ecm

/-! ## Detection of a sector -/

theorem mode1_shape_iff (s : List Nat) (a : Nat) :
    mode1_shape s a = true ↔
      2352 ≤ a ∧ s.getD 0 0 = 0 ∧ (∀ i, 1 ≤ i → i < 11 → s.getD i 0 = 0xFF) ∧
      s.getD 11 0 = 0 ∧ s.getD 0xF 0 = 1 ∧ (∀ i, 0x814 ≤ i → i < 0x81C → s.getD i 0 = 0) := by
  simp only [mode1_shape, Bool.and_eq_true, beq_iff_eq, decide_eq_true_eq]
  constructor
  · intro h
    refine ⟨by tauto, by tauto, ?_, by tauto, by tauto, ?_⟩
    · intro i h1 h2
      interval_cases i <;> tauto
    · intro i h1 h2
      interval_cases i <;> tauto
  · rintro ⟨h1, h2, h3, h4, h5, h6⟩
    have a1 := h3 1 (by omega) (by omega)
    have a2 := h3 2 (by omega) (by omega)
    have a3 := h3 3 (by omega) (by omega)
    have a4 := h3 4 (by omega) (by omega)
    have a5 := h3 5 (by omega) (by omega)
    have a6 := h3 6 (by omega) (by omega)
    have a7 := h3 7 (by omega) (by omega)
    have a8 := h3 8 (by omega) (by omega)
    have a9 := h3 9 (by omega) (by omega)
    have a10 := h3 10 (by omega) (by omega)
    have b0 := h6 0x814 (by omega) (by omega)
    have b1 := h6 0x815 (by omega) (by omega)
    have b2 := h6 0x816 (by omega) (by omega)
    have b3 := h6 0x817 (by omega) (by omega)
    have b4 := h6 0x818 (by omega) (by omega)
    have b5 := h6 0x819 (by omega) (by omega)
    have b6 := h6 0x81A (by omega) (by omega)
    have b7 := h6 0x81B (by omega) (by omega)
    tauto

theorem mode2_shape_iff (s : List Nat) (a : Nat) :
    mode2_shape s a = true ↔ 2336 ≤ a ∧ ∀ k, k < 4 → s.getD k 0 = s.getD (k + 4) 0 := by
  simp only [mode2_shape, Bool.and_eq_true, beq_iff_eq, decide_eq_true_eq]
  constructor
  · intro h
    refine ⟨by tauto, ?_⟩
    intro k hk
    interval_cases k <;> tauto
  · rintro ⟨h1, h2⟩
    have a0 := h2 0 (by omega)
    have a1 := h2 1 (by omega)
    have a2 := h2 2 (by omega)
    have a3 := h2 3 (by omega)
    tauto

theorem detect_sector_eq_1 (s : List Nat) (a : Nat) :
    detect_sector s a = 1 ↔
      mode1_shape s a = true ∧
      ecc_checksector (s.drop 0xC) (s.drop 0x10) (s.drop 0x81C) = true ∧
      edc_compute 0 s 0x810 = get32lsb (s.drop 0x810) := by
  simp only [detect_sector]
  split_ifs <;> simp_all

theorem detect_sector_eq_2 (s : List Nat) (a : Nat) :
    detect_sector s a = 2 ↔
      mode1_shape s a = false ∧ mode2_shape s a = true ∧
      ecc_checksector zeroaddress s (s.drop 0x80C) = true ∧
      edc_compute 0 s 0x808 = get32lsb (s.drop 0x808) := by
  simp only [detect_sector]
  split_ifs <;> simp_all

theorem detect_sector_eq_3 (s : List Nat) (a : Nat) :
    detect_sector s a = 3 ↔
      mode1_shape s a = false ∧ mode2_shape s a = true ∧
      ¬ (ecc_checksector zeroaddress s (s.drop 0x80C) = true ∧
        edc_compute 0 s 0x808 = get32lsb (s.drop 0x808)) ∧
      edc_compute 0 s 0x91C = get32lsb (s.drop 0x91C) := by
  simp only [detect_sector]
  split_ifs <;> simp_all

theorem detect_sector_lt (s : List Nat) (a : Nat) : detect_sector s a < 4 := by
  simp only [detect_sector]
  split_ifs <;> omega

theorem get32lsb_congr (X Y : List Nat) (h : ∀ k, k < 4 → X.getD k 0 = Y.getD k 0) :
    get32lsb X = get32lsb Y := by
  simp only [get32lsb, h 0 (by omega), h 1 (by omega), h 2 (by omega), h 3 (by omega)]

/-- What `reconstruct_sector(sector, 1)` builds from a 2352-byte scratch buffer. -/
theorem reconstruct_1_spec (buf : List Nat) (hlen : buf.length = 2352) :
    (reconstruct_sector buf 1).length = 2352 ∧
    (∀ i, ((0xC ≤ i ∧ i < 0xF) ∨ (0x10 ≤ i ∧ i < 0x810)) →
      (reconstruct_sector buf 1).getD i 0 = buf.getD i 0) ∧
    (∀ k, k < 4 → (reconstruct_sector buf 1).getD (0x810 + k) 0 < 256) ∧
    (∀ a, 2352 ≤ a → detect_sector (reconstruct_sector buf 1) a = 1) := by
  have hl1 : (reconstruct_sync buf).length = 2352 := by rw [length_reconstruct_sync, hlen]
  have hl2 : (reconstruct_mode (reconstruct_sync buf) 1).length = 2352 := by
    rw [length_reconstruct_mode, hl1]
  have hb2 : ∀ i, (reconstruct_mode (reconstruct_sync buf) 1).getD i 0 =
      if i = 0xF then 1 else if 0x814 ≤ i ∧ i < 0x81C then 0 else
        if i = 0 then 0 else if i < 11 then 0xFF else if i = 11 then 0 else buf.getD i 0 := by
    intro i
    rw [getD_reconstruct_mode_1 _ (by omega), getD_reconstruct_sync _ (by omega)]
  generalize hb2def : reconstruct_mode (reconstruct_sync buf) 1 = b2 at hl2 hb2
  have hv : edc_compute 0 b2 0x810 < 2 ^ 32 := edc_compute_lt _ _ _ (by norm_num)
  have hb3 : ∀ i, (put32lsb b2 0x810 (edc_compute 0 b2 0x810)).getD i 0 =
      if i = 0x810 then edc_compute 0 b2 0x810 % 256
      else if i = 0x810 + 1 then (edc_compute 0 b2 0x810 >>> 8) % 256
      else if i = 0x810 + 2 then (edc_compute 0 b2 0x810 >>> 16) % 256
      else if i = 0x810 + 3 then (edc_compute 0 b2 0x810 >>> 24) % 256
      else b2.getD i 0 := fun i => getD_put32lsb _ _ _ _ (by omega)
  have hg3 : get32lsb ((put32lsb b2 0x810 (edc_compute 0 b2 0x810)).drop 0x810)
      = edc_compute 0 b2 0x810 := get32lsb_put32lsb _ _ _ (by omega) hv
  have hl3 : (put32lsb b2 0x810 (edc_compute 0 b2 0x810)).length = 2352 := by
    rw [length_put32lsb, hl2]
  generalize hb3def : put32lsb b2 0x810 (edc_compute 0 b2 0x810) = b3 at hl3 hb3 hg3
  have hR : reconstruct_sector buf 1 = ecc_writesector (b3.drop 0xC) 0x10 (0x10 + 2060) b3 := by
    simp only [reconstruct_sector, reconstruct_ecc, reconstruct_edc, if_true, hb2def, hb3def]
  have hspec := ecc_writesector_spec (b3.drop 0xC)
    ((ecc_writesector (b3.drop 0xC) 0x10 (0x10 + 2060) b3).drop 0xC) 0x10 b3
  rw [← hR] at hspec
  have hfr : ∀ i, i < 0x81C → (reconstruct_sector buf 1).getD i 0 = b3.getD i 0 := by
    intro i hi
    have := ecc_writesector_spec (b3.drop 0xC) (b3.drop 0xC) 0x10 b3 (fun _ _ => rfl)
      (by omega)
    rw [← hR] at this
    exact this.2.1 i (by omega)
  obtain ⟨hRlen, _, hRecc⟩ := hspec
    (by intro i hi; rw [getD_drop, getD_drop, hfr _ (by omega)]) (by omega)
  refine ⟨by omega, ?_, ?_, ?_⟩
  · intro i hi
    rw [hfr i (by omega), hb3, hb2]
    rcases hi with hi | hi
    · repeat rw [if_neg (by omega)]
    · repeat rw [if_neg (by omega)]
  · intro k hk
    rw [hfr _ (by omega), hb3]
    split_ifs <;> omega
  · intro a ha
    rw [detect_sector_eq_1]
    refine ⟨?_, hRecc, ?_⟩
    · rw [mode1_shape_iff]
      refine ⟨ha, ?_, ?_, ?_, ?_, ?_⟩
      · rw [hfr _ (by omega), hb3, hb2]; rfl
      · intro i h1 h2
        rw [hfr _ (by omega), hb3, hb2]
        repeat rw [if_neg (by omega)]
        rw [if_pos (by omega)]
      · rw [hfr _ (by omega), hb3, hb2]; rfl
      · rw [hfr _ (by omega), hb3, hb2]; rfl
      · intro i h1 h2
        rw [hfr _ (by omega), hb3, hb2]
        repeat rw [if_neg (by omega)]
        rw [if_pos (by omega)]
    · have e1 : edc_compute 0 (reconstruct_sector buf 1) 0x810 = edc_compute 0 b2 0x810 := by
        apply edc_compute_congr
        intro i hi
        rw [hfr _ (by omega), hb3]
        rw [if_neg (by omega), if_neg (by omega), if_neg (by omega), if_neg (by omega)]
      have e2 : get32lsb ((reconstruct_sector buf 1).drop 0x810) = get32lsb (b3.drop 0x810) := by
        apply get32lsb_congr
        intro k hk
        rw [getD_drop, getD_drop, hfr _ (by omega)]
      rw [e1, e2, hg3]

/-- What `reconstruct_sector(sector, 2)` builds from a 2352-byte scratch buffer. -/
theorem reconstruct_2_spec (buf : List Nat) (hlen : buf.length = 2352) :
    (reconstruct_sector buf 2).length = 2352 ∧
    (∀ i, 0x14 ≤ i → i < 0x818 → (reconstruct_sector buf 2).getD i 0 = buf.getD i 0) ∧
    (∀ k, k < 4 → (reconstruct_sector buf 2).getD (0x818 + k) 0 < 256) ∧
    (∀ a, 2336 ≤ a → detect_sector ((reconstruct_sector buf 2).drop 0x10) a = 2) := by
  have hl1 : (reconstruct_sync buf).length = 2352 := by rw [length_reconstruct_sync, hlen]
  have hl2 : (reconstruct_mode (reconstruct_sync buf) 2).length = 2352 := by
    rw [length_reconstruct_mode, hl1]
  have hb2 : ∀ i, 0x10 ≤ i → (reconstruct_mode (reconstruct_sync buf) 2).getD i 0 =
      if i < 0x14 then buf.getD (i + 4) 0 else buf.getD i 0 := by
    intro i hi
    rw [getD_reconstruct_mode_23 _ 2 (by omega) (by omega), getD_reconstruct_sync _ (by omega),
      getD_reconstruct_sync _ (by omega)]
    rw [if_neg (by omega)]
    by_cases h14 : i < 0x14
    · rw [if_pos (by omega), if_pos h14, if_neg (by omega), if_neg (by omega),
        if_neg (by omega)]
    · rw [if_neg (by omega), if_neg h14, if_neg (by omega), if_neg (by omega),
        if_neg (by omega)]
  generalize hb2def : reconstruct_mode (reconstruct_sync buf) 2 = b2 at hl2 hb2
  have hv : edc_compute 0 (b2.drop 0x10) 0x808 < 2 ^ 32 := edc_compute_lt _ _ _ (by norm_num)
  have hb3 : ∀ i, (put32lsb b2 0x818 (edc_compute 0 (b2.drop 0x10) 0x808)).getD i 0 =
      if i = 0x818 then edc_compute 0 (b2.drop 0x10) 0x808 % 256
      else if i = 0x818 + 1 then (edc_compute 0 (b2.drop 0x10) 0x808 >>> 8) % 256
      else if i = 0x818 + 2 then (edc_compute 0 (b2.drop 0x10) 0x808 >>> 16) % 256
      else if i = 0x818 + 3 then (edc_compute 0 (b2.drop 0x10) 0x808 >>> 24) % 256
      else b2.getD i 0 := fun i => getD_put32lsb _ _ _ _ (by omega)
  have hg3 : get32lsb ((put32lsb b2 0x818 (edc_compute 0 (b2.drop 0x10) 0x808)).drop 0x818)
      = edc_compute 0 (b2.drop 0x10) 0x808 := get32lsb_put32lsb _ _ _ (by omega) hv
  have hl3 : (put32lsb b2 0x818 (edc_compute 0 (b2.drop 0x10) 0x808)).length = 2352 := by
    rw [length_put32lsb, hl2]
  generalize hb3def : put32lsb b2 0x818 (edc_compute 0 (b2.drop 0x10) 0x808) = b3
    at hl3 hb3 hg3
  have hR : reconstruct_sector buf 2 = ecc_writesector zeroaddress 0x10 (0x10 + 2060) b3 := by
    simp [reconstruct_sector, reconstruct_ecc, reconstruct_edc, hb2def, hb3def]
  obtain ⟨hRlen, hfr0, hRecc⟩ := ecc_writesector_spec zeroaddress zeroaddress 0x10 b3
    (fun _ _ => rfl) (by omega)
  rw [← hR] at hRlen hfr0 hRecc
  have hfr : ∀ i, i < 0x81C → (reconstruct_sector buf 2).getD i 0 = b3.getD i 0 :=
    fun i hi => hfr0 i (by omega)
  refine ⟨by omega, ?_, ?_, ?_⟩
  · intro i h1 h2
    rw [hfr i (by omega), hb3, hb2 _ (by omega)]
    repeat rw [if_neg (by omega)]
  · intro k hk
    rw [hfr _ (by omega), hb3]
    split_ifs <;> omega
  · intro a ha
    have hflag : ∀ k, k < 4 → ((reconstruct_sector buf 2).drop 0x10).getD k 0
        = ((reconstruct_sector buf 2).drop 0x10).getD (k + 4) 0 := by
      intro k hk
      rw [getD_drop, getD_drop, hfr _ (by omega), hfr _ (by omega), hb3, hb3,
        hb2 _ (by omega), hb2 _ (by omega)]
      repeat rw [if_neg (by omega)]
      rw [if_pos (by omega)]
      repeat rw [if_neg (by omega)]
      have e : 0x10 + k + 4 = 0x10 + (k + 4) := by omega
      rw [e]
    rw [detect_sector_eq_2]
    refine ⟨?_, ?_, ?_, ?_⟩
    · rw [Bool.eq_false_iff]
      intro hm
      rw [mode1_shape_iff] at hm
      have h0 := hm.2.1
      have h4 := hm.2.2.1 4 (by omega) (by omega)
      have := hflag 0 (by omega)
      simp only [Nat.zero_add] at this
      omega
    · rw [mode2_shape_iff]
      exact ⟨ha, hflag⟩
    · have e : ((reconstruct_sector buf 2).drop 0x10).drop 0x80C
          = (reconstruct_sector buf 2).drop (0x10 + 2060) := by
        rw [List.drop_drop]
      rw [e]
      exact hRecc
    · have e1 : edc_compute 0 ((reconstruct_sector buf 2).drop 0x10) 0x808
          = edc_compute 0 (b2.drop 0x10) 0x808 := by
        apply edc_compute_congr
        intro i hi
        rw [getD_drop, getD_drop, hfr _ (by omega), hb3]
        rw [if_neg (by omega), if_neg (by omega), if_neg (by omega), if_neg (by omega)]
      have e2 : get32lsb (((reconstruct_sector buf 2).drop 0x10).drop 0x808)
          = get32lsb (b3.drop 0x818) := by
        apply get32lsb_congr
        intro k hk
        rw [getD_drop, getD_drop, getD_drop, hfr _ (by omega)]
        have e : 0x10 + (0x808 + k) = 0x818 + k := by omega
        rw [e]
      rw [e1, e2, hg3]

/-- What `reconstruct_sector(sector, 3)` builds from a 2352-byte scratch buffer. -/
theorem reconstruct_3_spec (buf : List Nat) (hlen : buf.length = 2352) :
    (reconstruct_sector buf 3).length = 2352 ∧
    (∀ i, 0x14 ≤ i → i < 0x92C → (reconstruct_sector buf 3).getD i 0 = buf.getD i 0) ∧
    (∀ k, k < 4 → (reconstruct_sector buf 3).getD (0x92C + k) 0 < 256) ∧
    (∀ k, k < 4 → (reconstruct_sector buf 3).getD (0x10 + k) 0
      = (reconstruct_sector buf 3).getD (0x14 + k) 0) ∧
    edc_compute 0 ((reconstruct_sector buf 3).drop 0x10) 0x91C
      = get32lsb ((reconstruct_sector buf 3).drop 0x92C) := by
  have hl1 : (reconstruct_sync buf).length = 2352 := by rw [length_reconstruct_sync, hlen]
  have hl2 : (reconstruct_mode (reconstruct_sync buf) 3).length = 2352 := by
    rw [length_reconstruct_mode, hl1]
  have hb2 : ∀ i, 0x10 ≤ i → (reconstruct_mode (reconstruct_sync buf) 3).getD i 0 =
      if i < 0x14 then buf.getD (i + 4) 0 else buf.getD i 0 := by
    intro i hi
    rw [getD_reconstruct_mode_23 _ 3 (by omega) (by omega), getD_reconstruct_sync _ (by omega),
      getD_reconstruct_sync _ (by omega)]
    rw [if_neg (by omega)]
    by_cases h14 : i < 0x14
    · rw [if_pos (by omega), if_pos h14, if_neg (by omega), if_neg (by omega),
        if_neg (by omega)]
    · rw [if_neg (by omega), if_neg h14, if_neg (by omega), if_neg (by omega),
        if_neg (by omega)]
  generalize hb2def : reconstruct_mode (reconstruct_sync buf) 3 = b2 at hl2 hb2
  have hv : edc_compute 0 (b2.drop 0x10) 0x91C < 2 ^ 32 := edc_compute_lt _ _ _ (by norm_num)
  have hb3 : ∀ i, (put32lsb b2 0x92C (edc_compute 0 (b2.drop 0x10) 0x91C)).getD i 0 =
      if i = 0x92C then edc_compute 0 (b2.drop 0x10) 0x91C % 256
      else if i = 0x92C + 1 then (edc_compute 0 (b2.drop 0x10) 0x91C >>> 8) % 256
      else if i = 0x92C + 2 then (edc_compute 0 (b2.drop 0x10) 0x91C >>> 16) % 256
      else if i = 0x92C + 3 then (edc_compute 0 (b2.drop 0x10) 0x91C >>> 24) % 256
      else b2.getD i 0 := fun i => getD_put32lsb _ _ _ _ (by omega)
  have hg3 : get32lsb ((put32lsb b2 0x92C (edc_compute 0 (b2.drop 0x10) 0x91C)).drop 0x92C)
      = edc_compute 0 (b2.drop 0x10) 0x91C := get32lsb_put32lsb _ _ _ (by omega) hv
  have hl3 : (put32lsb b2 0x92C (edc_compute 0 (b2.drop 0x10) 0x91C)).length = 2352 := by
    rw [length_put32lsb, hl2]
  have hR : reconstruct_sector buf 3
      = put32lsb b2 0x92C (edc_compute 0 (b2.drop 0x10) 0x91C) := by
    simp [reconstruct_sector, reconstruct_ecc, reconstruct_edc, hb2def]
  rw [hR]
  refine ⟨hl3, ?_, ?_, ?_, ?_⟩
  · intro i h1 h2
    rw [hb3, hb2 _ (by omega)]
    repeat rw [if_neg (by omega)]
  · intro k hk
    rw [hb3]
    split_ifs <;> omega
  · intro k hk
    rw [hb3, hb3, hb2 _ (by omega), hb2 _ (by omega)]
    repeat rw [if_neg (by omega)]
    rw [if_pos (by omega)]
    repeat rw [if_neg (by omega)]
    have e : 0x10 + k + 4 = 0x14 + k := by omega
    rw [e]
  · rw [hg3]
    apply edc_compute_congr
    intro i hi
    rw [getD_drop, getD_drop, hb3]
    rw [if_neg (by omega), if_neg (by omega), if_neg (by omega), if_neg (by omega)]

end Ecm
namespace Ecm

/-! ## A sector is determined by its payload -/

theorem mode1_unique (X Y : List Nat) (a b : Nat)
    (hX : detect_sector X a = 1) (hY : detect_sector Y b = 1)
    (hbX : ∀ k, k < 4 → X.getD (0x810 + k) 0 < 256)
    (hbY : ∀ k, k < 4 → Y.getD (0x810 + k) 0 < 256)
    (hpay : ∀ i, ((0xC ≤ i ∧ i < 0xF) ∨ (0x10 ≤ i ∧ i < 0x810)) → X.getD i 0 = Y.getD i 0) :
    ∀ i, i < 2352 → X.getD i 0 = Y.getD i 0 := by
  rw [detect_sector_eq_1, mode1_shape_iff] at hX hY
  obtain ⟨⟨_, x0, x1, x11, xF, xr⟩, xecc, xedc⟩ := hX
  obtain ⟨⟨_, y0, y1, y11, yF, yr⟩, yecc, yedc⟩ := hY
  have h810 : ∀ i, i < 0x810 → X.getD i 0 = Y.getD i 0 := by
    intro i hi
    by_cases c0 : i = 0
    · subst c0; rw [x0, y0]
    by_cases c1 : i < 11
    · rw [x1 i (by omega) c1, y1 i (by omega) c1]
    by_cases c11 : i = 11
    · subst c11; rw [x11, y11]
    by_cases cF : i = 0xF
    · subst cF; rw [xF, yF]
    exact hpay i (by omega)
  have h814 : ∀ i, 0x810 ≤ i → i < 0x814 → X.getD i 0 = Y.getD i 0 := by
    have := edc_unique X Y 0 0x810 (by simpa using xedc) (by simpa using yedc)
      (by simpa using hbX) (by simpa using hbY) (fun i _ hi => h810 i (by omega))
    intro i h1 h2
    exact this i (by omega) (by omega)
  have h81C : ∀ i, i < 0x81C → X.getD i 0 = Y.getD i 0 := by
    intro i hi
    by_cases c1 : i < 0x810
    · exact h810 i c1
    by_cases c2 : i < 0x814
    · exact h814 i (by omega) c2
    rw [xr i (by omega) hi, yr i (by omega) hi]
  have hecc := ecc_unique X Y (X.drop 0xC) (Y.drop 0xC) 0x10 xecc yecc
    (by intro i hi; rw [getD_drop, getD_drop]; exact h81C _ (by omega))
    (fun i _ hi => h81C i (by omega))
  intro i hi
  by_cases c : i < 0x81C
  · exact h81C i c
  · exact hecc i (by omega) (by omega)

theorem mode2_unique (X Y : List Nat) (hfX : ∀ k, k < 4 → X.getD k 0 = X.getD (k + 4) 0)
    (hfY : ∀ k, k < 4 → Y.getD k 0 = Y.getD (k + 4) 0)
    (xecc : ecc_checksector zeroaddress X (X.drop 0x80C) = true)
    (yecc : ecc_checksector zeroaddress Y (Y.drop 0x80C) = true)
    (xedc : edc_compute 0 X 0x808 = get32lsb (X.drop 0x808))
    (yedc : edc_compute 0 Y 0x808 = get32lsb (Y.drop 0x808))
    (hbX : ∀ k, k < 4 → X.getD (0x808 + k) 0 < 256)
    (hbY : ∀ k, k < 4 → Y.getD (0x808 + k) 0 < 256)
    (hpay : ∀ i, 4 ≤ i → i < 0x808 → X.getD i 0 = Y.getD i 0) :
    ∀ i, i < 2336 → X.getD i 0 = Y.getD i 0 := by
  have h808 : ∀ i, i < 0x808 → X.getD i 0 = Y.getD i 0 := by
    intro i hi
    by_cases c : i < 4
    · rw [hfX i c, hfY i c]
      exact hpay _ (by omega) (by omega)
    · exact hpay i (by omega) hi
  have h80C : ∀ i, i < 0x80C → X.getD i 0 = Y.getD i 0 := by
    have := edc_unique X Y 0 0x808 (by simpa using xedc) (by simpa using yedc)
      (by simpa using hbX) (by simpa using hbY) (fun i _ hi => h808 i (by omega))
    intro i hi
    by_cases c : i < 0x808
    · exact h808 i c
    · exact this i (by omega) (by omega)
  have hecc := ecc_unique X Y zeroaddress zeroaddress 0 (by simpa using xecc)
    (by simpa using yecc) (fun _ _ => rfl) (fun i _ hi => h80C i (by omega))
  intro i hi
  by_cases c : i < 0x80C
  · exact h80C i c
  · exact hecc i (by omega) (by omega)

theorem mode3_unique (X Y : List Nat) (hfX : ∀ k, k < 4 → X.getD k 0 = X.getD (k + 4) 0)
    (hfY : ∀ k, k < 4 → Y.getD k 0 = Y.getD (k + 4) 0)
    (xedc : edc_compute 0 X 0x91C = get32lsb (X.drop 0x91C))
    (yedc : edc_compute 0 Y 0x91C = get32lsb (Y.drop 0x91C))
    (hbX : ∀ k, k < 4 → X.getD (0x91C + k) 0 < 256)
    (hbY : ∀ k, k < 4 → Y.getD (0x91C + k) 0 < 256)
    (hpay : ∀ i, 4 ≤ i → i < 0x91C → X.getD i 0 = Y.getD i 0) :
    ∀ i, i < 2336 → X.getD i 0 = Y.getD i 0 := by
  have h91C : ∀ i, i < 0x91C → X.getD i 0 = Y.getD i 0 := by
    intro i hi
    by_cases c : i < 4
    · rw [hfX i c, hfY i c]
      exact hpay _ (by omega) (by omega)
    · exact hpay i (by omega) hi
  have := edc_unique X Y 0 0x91C (by simpa using xedc) (by simpa using yedc)
    (by simpa using hbX) (by simpa using hbY) (fun i _ hi => h91C i (by omega))
  intro i hi
  by_cases c : i < 0x91C
  · exact h91C i c
  · exact this i (by omega) (by omega)

/-! ## Reads and writes on files -/

theorem fread_some (buf : List Nat) (ofs n : Nat) (inp : List Nat) (h : n ≤ inp.length) :
    fread buf ofs n inp
      = some (buf.take ofs ++ (inp.take n ++ buf.drop (ofs + n)), inp.drop n) := by
  simp [fread, h]

theorem fread_append (buf : List Nat) (ofs n : Nat) (X tail : List Nat) (h : X.length = n) :
    fread buf ofs n (X ++ tail) = some (buf.take ofs ++ (X ++ buf.drop (ofs + n)), tail) := by
  subst h
  rw [fread_some _ _ _ _ (by simp)]
  simp

theorem length_splice (buf X : List Nat) (ofs n : Nat) (hn : X.length = n)
    (h : ofs + n ≤ buf.length) :
    (buf.take ofs ++ (X ++ buf.drop (ofs + n))).length = buf.length := by
  simp
  omega

theorem getD_splice (buf X : List Nat) (ofs n i : Nat) (hn : X.length = n)
    (h : ofs + n ≤ buf.length) :
    (buf.take ofs ++ (X ++ buf.drop (ofs + n))).getD i 0 =
      if ofs ≤ i ∧ i < ofs + n then X.getD (i - ofs) 0 else buf.getD i 0 := by
  have hl : (buf.take ofs).length = ofs := by simp; omega
  by_cases c1 : i < ofs
  · rw [getD_append_left _ _ _ (by omega), getD_take _ _ _ c1, if_neg (by omega)]
  · rw [getD_append_right _ _ _ (by omega), hl]
    by_cases c2 : i < ofs + n
    · rw [getD_append_left _ _ _ (by omega), if_pos (by omega)]
    · rw [getD_append_right _ _ _ (by omega), getD_drop, if_neg (by omega)]
      congr 1
      omega

theorem take_drop_ext (X Y : List Nat) (k n : Nat) (hX : k + n ≤ X.length)
    (hY : k + n ≤ Y.length) (h : ∀ i, k ≤ i → i < k + n → X.getD i 0 = Y.getD i 0) :
    (X.drop k).take n = (Y.drop k).take n := by
  apply ext_getD
  · simp; omega
  · intro i hi
    have hi' : i < n := by simp at hi; omega
    rw [getD_take _ _ _ hi', getD_take _ _ _ hi', getD_drop, getD_drop]
    exact h _ (by omega) (by omega)

theorem getD_take_drop (X : List Nat) (k n i : Nat) (hi : i < n) :
    ((X.drop k).take n).getD i 0 = X.getD (k + i) 0 := by
  rw [getD_take _ _ _ hi, getD_drop]

theorem take_eq_of_getD (R s : List Nat) (n : Nat) (hR : R.length = n) (hs : n ≤ s.length)
    (h : ∀ i, i < n → R.getD i 0 = s.getD i 0) : R = s.take n := by
  apply ext_getD
  · simp; omega
  · intro i hi
    rw [getD_take _ _ _ (by omega)]
    exact h i (by omega)

end Ecm
namespace Ecm

/-! ## Stripping and rebuilding one sector -/

theorem write_sector_1 (s out ebuf : List Nat) (hs : 2352 ≤ s.length)
    (hb : ebuf.length = 2352) :
    write_sector 1 ⟨s, out, ebuf⟩
      = .ok ⟨s.drop 2352, out ++ ((s.drop 0xC).take 3 ++ (s.drop 0x10).take 0x800),
          ebuf.take 0 ++ (s.take 2352 ++ ebuf.drop (0 + 2352))⟩ := by
  have e1 : (((ebuf.take 0 ++ (s.take 2352 ++ ebuf.drop (0 + 2352))).drop 0xC).take 3)
      = (s.drop 0xC).take 3 := by
    apply take_drop_ext _ _ _ _ (by simp; omega) (by omega)
    intro i h1 h2
    rw [getD_splice _ _ _ _ _ (by simp; omega) (by omega), if_pos (by omega),
      getD_take _ _ _ (by omega)]
    rfl
  have e2 : (((ebuf.take 0 ++ (s.take 2352 ++ ebuf.drop (0 + 2352))).drop 0x10).take 0x800)
      = (s.drop 0x10).take 0x800 := by
    apply take_drop_ext _ _ _ _ (by simp; omega) (by omega)
    intro i h1 h2
    rw [getD_splice _ _ _ _ _ (by simp; omega) (by omega), if_pos (by omega),
      getD_take _ _ _ (by omega)]
    rfl
  simp only [write_sector, if_true, fread_some _ _ _ _ hs, fwrite, e1, e2, List.append_assoc]

theorem write_sector_2 (s out ebuf : List Nat) (hs : 2336 ≤ s.length)
    (hb : ebuf.length = 2352) :
    write_sector 2 ⟨s, out, ebuf⟩
      = .ok ⟨s.drop 2336, out ++ (s.drop 4).take 0x804,
          ebuf.take 0 ++ (s.take 2336 ++ ebuf.drop (0 + 2336))⟩ := by
  have e1 : (((ebuf.take 0 ++ (s.take 2336 ++ ebuf.drop (0 + 2336))).drop 4).take 0x804)
      = (s.drop 4).take 0x804 := by
    apply take_drop_ext _ _ _ _ (by simp; omega) (by omega)
    intro i h1 h2
    rw [getD_splice _ _ _ _ _ (by simp; omega) (by omega), if_pos (by omega),
      getD_take _ _ _ (by omega)]
    rfl
  rw [write_sector, if_neg (by decide), if_pos rfl]
  simp only [fread_some _ _ _ _ hs, fwrite, e1]

theorem write_sector_3 (s out ebuf : List Nat) (hs : 2336 ≤ s.length)
    (hb : ebuf.length = 2352) :
    write_sector 3 ⟨s, out, ebuf⟩
      = .ok ⟨s.drop 2336, out ++ (s.drop 4).take 0x918,
          ebuf.take 0 ++ (s.take 2336 ++ ebuf.drop (0 + 2336))⟩ := by
  have e1 : (((ebuf.take 0 ++ (s.take 2336 ++ ebuf.drop (0 + 2336))).drop 4).take 0x918)
      = (s.drop 4).take 0x918 := by
    apply take_drop_ext _ _ _ _ (by simp; omega) (by omega)
    intro i h1 h2
    rw [getD_splice _ _ _ _ _ (by simp; omega) (by omega), if_pos (by omega),
      getD_take _ _ _ (by omega)]
    rfl
  rw [write_sector, if_neg (by decide), if_neg (by decide), if_pos rfl]
  simp only [fread_some _ _ _ _ hs, fwrite, e1]

theorem unecmify_sector_1 (s tail dout dbuf : List Nat) (edc a : Nat)
    (hbytes : ∀ b ∈ s, b < 256) (hs : 2352 ≤ s.length) (hd : detect_sector s a = 1)
    (hb : dbuf.length = 2352) :
    ∃ dbuf1, dbuf1.length = 2352 ∧
      unecmify_sector 1
          ⟨((s.drop 0xC).take 3 ++ (s.drop 0x10).take 0x800) ++ tail, dout, edc, dbuf⟩
        = .ok ⟨tail, dout ++ s.take 2352, edc_compute edc (s.take 2352) 2352, dbuf1⟩ := by
  have hl1 : ((s.drop 0xC).take 3).length = 3 := by simp; omega
  have hl2 : ((s.drop 0x10).take 0x800).length = 0x800 := by simp; omega
  have hla : (dbuf.take 0xC ++ ((s.drop 0xC).take 3 ++ dbuf.drop (0xC + 3))).length = 2352 := by
    rw [length_splice _ _ _ _ hl1 (by omega), hb]
  generalize hbuf1 : dbuf.take 0xC ++ ((s.drop 0xC).take 3 ++ dbuf.drop (0xC + 3)) = buf1 at hla
  have hlb : (buf1.take 0x10 ++ ((s.drop 0x10).take 0x800 ++ buf1.drop (0x10 + 0x800))).length
      = 2352 := by
    rw [length_splice _ _ _ _ hl2 (by omega), hla]
  have hg : ∀ i, ((0xC ≤ i ∧ i < 0xF) ∨ (0x10 ≤ i ∧ i < 0x810)) →
      (buf1.take 0x10 ++ ((s.drop 0x10).take 0x800 ++ buf1.drop (0x10 + 0x800))).getD i 0
        = s.getD i 0 := by
    intro i hi
    rw [getD_splice _ _ _ _ _ hl2 (by omega)]
    rcases hi with hi | hi
    · rw [if_neg (by omega), ← hbuf1, getD_splice _ _ _ _ _ hl1 (by omega), if_pos (by omega),
        getD_take_drop _ _ _ _ (by omega)]
      congr 1
      omega
    · rw [if_pos (by omega), getD_take_drop _ _ _ _ (by omega)]
      congr 1
      omega
  generalize hbuf2 : buf1.take 0x10 ++ ((s.drop 0x10).take 0x800 ++ buf1.drop (0x10 + 0x800))
    = buf2 at hlb hg
  obtain ⟨r1, r2, r3, r4⟩ := reconstruct_1_spec buf2 hlb
  have hagree : ∀ i, i < 2352 → (reconstruct_sector buf2 1).getD i 0 = s.getD i 0 := by
    apply mode1_unique _ _ 2352 a (r4 2352 (le_refl _)) hd r3
      (fun k _ => getD_lt_of_forall s hbytes _)
    intro i hi
    rw [r2 i hi, hg i hi]
  have hR : reconstruct_sector buf2 1 = s.take 2352 := take_eq_of_getD _ _ _ r1 hs hagree
  refine ⟨s.take 2352, by simp; omega, ?_⟩
  simp only [unecmify_sector, if_true, List.append_assoc]
  rw [fread_append _ _ _ _ _ hl1]
  simp only [hbuf1]
  rw [fread_append _ _ _ _ _ hl2]
  simp only [hbuf2, hR, fwrite, List.drop_zero, List.take_take, min_self]

theorem unecmify_sector_2 (s tail dout dbuf : List Nat) (edc a : Nat)
    (hbytes : ∀ b ∈ s, b < 256) (hs : 2336 ≤ s.length) (hd : detect_sector s a = 2)
    (hb : dbuf.length = 2352) :
    ∃ dbuf1, dbuf1.length = 2352 ∧
      unecmify_sector 2 ⟨(s.drop 4).take 0x804 ++ tail, dout, edc, dbuf⟩
        = .ok ⟨tail, dout ++ s.take 2336, edc_compute edc (s.take 2336) 2336, dbuf1⟩ := by
  have hl1 : ((s.drop 4).take 0x804).length = 0x804 := by simp; omega
  have hla : (dbuf.take 0x14 ++ ((s.drop 4).take 0x804 ++ dbuf.drop (0x14 + 0x804))).length
      = 2352 := by
    rw [length_splice _ _ _ _ hl1 (by omega), hb]
  have hg : ∀ i, 0x14 ≤ i → i < 0x818 →
      (dbuf.take 0x14 ++ ((s.drop 4).take 0x804 ++ dbuf.drop (0x14 + 0x804))).getD i 0
        = s.getD (i - 0x10) 0 := by
    intro i h1 h2
    rw [getD_splice _ _ _ _ _ hl1 (by omega), if_pos (by omega),
      getD_take_drop _ _ _ _ (by omega)]
    congr 1
    omega
  generalize hbuf2 : dbuf.take 0x14 ++ ((s.drop 4).take 0x804 ++ dbuf.drop (0x14 + 0x804))
    = buf2 at hla hg
  obtain ⟨r1, r2, r3, r4⟩ := reconstruct_2_spec buf2 hla
  have hR := r4 2336 (le_refl _)
  rw [detect_sector_eq_2, mode2_shape_iff] at hR hd
  have hVlen : ((reconstruct_sector buf2 2).drop 0x10).length = 2336 := by simp; omega
  have hagree : ∀ i, i < 2336 → ((reconstruct_sector buf2 2).drop 0x10).getD i 0
      = s.getD i 0 := by
    apply mode2_unique _ _ hR.2.1.2 hd.2.1.2 hR.2.2.1 hd.2.2.1 hR.2.2.2 hd.2.2.2
    · intro k hk
      rw [getD_drop]
      have := r3 k hk
      have e : 0x10 + (0x808 + k) = 0x818 + k := by omega
      rw [e]
      exact this
    · exact fun k _ => getD_lt_of_forall s hbytes _
    · intro i h1 h2
      rw [getD_drop, r2 _ (by omega) (by omega), hg _ (by omega) (by omega)]
      have e : 0x10 + i - 0x10 = i := by omega
      rw [e]
  have hV : (reconstruct_sector buf2 2).drop 0x10 = s.take 2336 :=
    take_eq_of_getD _ _ _ hVlen hs hagree
  refine ⟨reconstruct_sector buf2 2, r1, ?_⟩
  rw [unecmify_sector, if_neg (by decide), if_pos rfl]
  simp only []
  rw [fread_append _ _ _ _ _ hl1]
  simp only [hbuf2, hV, fwrite, List.take_take, min_self]

theorem unecmify_sector_3 (s tail dout dbuf : List Nat) (edc a : Nat)
    (hbytes : ∀ b ∈ s, b < 256) (hs : 2336 ≤ s.length) (hd : detect_sector s a = 3)
    (hb : dbuf.length = 2352) :
    ∃ dbuf1, dbuf1.length = 2352 ∧
      unecmify_sector 3 ⟨(s.drop 4).take 0x918 ++ tail, dout, edc, dbuf⟩
        = .ok ⟨tail, dout ++ s.take 2336, edc_compute edc (s.take 2336) 2336, dbuf1⟩ := by
  have hl1 : ((s.drop 4).take 0x918).length = 0x918 := by simp; omega
  have hla : (dbuf.take 0x14 ++ ((s.drop 4).take 0x918 ++ dbuf.drop (0x14 + 0x918))).length
      = 2352 := by
    rw [length_splice _ _ _ _ hl1 (by omega), hb]
  have hg : ∀ i, 0x14 ≤ i → i < 0x92C →
      (dbuf.take 0x14 ++ ((s.drop 4).take 0x918 ++ dbuf.drop (0x14 + 0x918))).getD i 0
        = s.getD (i - 0x10) 0 := by
    intro i h1 h2
    rw [getD_splice _ _ _ _ _ hl1 (by omega), if_pos (by omega),
      getD_take_drop _ _ _ _ (by omega)]
    congr 1
    omega
  generalize hbuf2 : dbuf.take 0x14 ++ ((s.drop 4).take 0x918 ++ dbuf.drop (0x14 + 0x918))
    = buf2 at hla hg
  obtain ⟨r1, r2, r3, r4, r5⟩ := reconstruct_3_spec buf2 hla
  rw [detect_sector_eq_3, mode2_shape_iff] at hd
  have hVlen : ((reconstruct_sector buf2 3).drop 0x10).length = 2336 := by simp; omega
  have hagree : ∀ i, i < 2336 → ((reconstruct_sector buf2 3).drop 0x10).getD i 0
      = s.getD i 0 := by
    apply mode3_unique _ _ _ hd.2.1.2 _ hd.2.2.2
    · intro k hk
      rw [getD_drop]
      have := r3 k hk
      have e : 0x10 + (0x91C + k) = 0x92C + k := by omega
      rw [e]
      exact this
    · exact fun k _ => getD_lt_of_forall s hbytes _
    · intro i h1 h2
      rw [getD_drop, r2 _ (by omega) (by omega), hg _ (by omega) (by omega)]
      have e : 0x10 + i - 0x10 = i := by omega
      rw [e]
    · intro k hk
      rw [getD_drop, getD_drop, r4 k hk]
      have e : 0x10 + (k + 4) = 0x14 + k := by omega
      rw [e]
    · rw [r5, List.drop_drop]
  have hV : (reconstruct_sector buf2 3).drop 0x10 = s.take 2336 :=
    take_eq_of_getD _ _ _ hVlen hs hagree
  refine ⟨reconstruct_sector buf2 3, r1, ?_⟩
  rw [unecmify_sector, if_neg (by decide), if_neg (by decide), if_pos rfl]
  simp only []
  rw [fread_append _ _ _ _ _ hl1]
  simp only [hbuf2, hV, fwrite, List.take_take, min_self]

theorem sectorsize_0 : sectorsize.getD 0 0 = 1 := rfl

theorem sectorsize_1 : sectorsize.getD 1 0 = 2352 := rfl

theorem sectorsize_2 : sectorsize.getD 2 0 = 2336 := rfl

theorem sectorsize_3 : sectorsize.getD 3 0 = 2336 := rfl

/-- Every sector that `detect_sector` classifies as type 1, 2 or 3 survives the codec. -/
theorem sector_roundtrip (t a : Nat) (s : List Nat) (hbytes : ∀ b ∈ s, b < 256)
    (ha : a ≤ s.length) (hd : detect_sector s a = t) (ht : 1 ≤ t) :
    SectorRoundTrips t s := by
  have ht4 : t < 4 := by rw [← hd]; exact detect_sector_lt s a
  have h123 : t = 1 ∨ t = 2 ∨ t = 3 := by omega
  unfold SectorRoundTrips
  rcases h123 with rfl | rfl | rfl
  · have h2352 : 2352 ≤ a := ((mode1_shape_iff s a).1 ((detect_sector_eq_1 s a).1 hd).1).1
    rw [sectorsize_1]
    refine ⟨by omega, (s.drop 0xC).take 3 ++ (s.drop 0x10).take 0x800, ?_, ?_⟩
    · intro out ebuf hb
      exact ⟨_, by rw [length_splice _ _ _ _ (by simp; omega) (by omega), hb],
        write_sector_1 s out ebuf (by omega) hb⟩
    · intro tail dout edc dbuf hb
      exact unecmify_sector_1 s tail dout dbuf edc a hbytes (by omega) hd hb
  · have h2336 : 2336 ≤ a := ((mode2_shape_iff s a).1 ((detect_sector_eq_2 s a).1 hd).2.1).1
    rw [sectorsize_2]
    refine ⟨by omega, (s.drop 4).take 0x804, ?_, ?_⟩
    · intro out ebuf hb
      exact ⟨_, by rw [length_splice _ _ _ _ (by simp; omega) (by omega), hb],
        write_sector_2 s out ebuf (by omega) hb⟩
    · intro tail dout edc dbuf hb
      exact unecmify_sector_2 s tail dout dbuf edc a hbytes (by omega) hd hb
  · have h2336 : 2336 ≤ a := ((mode2_shape_iff s a).1 ((detect_sector_eq_3 s a).1 hd).2.1).1
    rw [sectorsize_3]
    refine ⟨by omega, (s.drop 4).take 0x918, ?_, ?_⟩
    · intro out ebuf hb
      exact ⟨_, by rw [length_splice _ _ _ _ (by simp; omega) (by omega), hb],
        write_sector_3 s out ebuf (by omega) hb⟩
    · intro tail dout edc dbuf hb
      exact unecmify_sector_3 s tail dout dbuf edc a hbytes (by omega) hd hb

end Ecm
namespace Ecm

/-! ## Runs -/

theorem edc_compute_add (n : Nat) : ∀ (a : Nat) (src : List Nat) (m : Nat),
    edc_compute a src (n + m) = edc_compute (edc_compute a src n) (src.drop n) m := by
  induction n with
  | zero => intro a src m; simp [edc_compute]
  | succ n ih =>
    intro a src m
    have e : n + 1 + m = (n + m) + 1 := by omega
    rw [e]
    simp only [edc_compute]
    rw [ih]
    simp [List.drop_drop, Nat.add_comm]

theorem edc_compute_length_append (a : Nat) (X Y : List Nat) :
    edc_compute a (X ++ Y) (X ++ Y).length
      = edc_compute (edc_compute a X X.length) Y Y.length := by
  rw [List.length_append, edc_compute_append]

theorem write_literals_spec (fuel : Nat) : ∀ (count : Nat) (inp out buf : List Nat),
    count ≤ fuel → count ≤ inp.length → buf.length = 2352 →
    ∃ buf1, buf1.length = 2352 ∧
      write_literals fuel count ⟨inp, out, buf⟩
        = .ok ⟨inp.drop count, out ++ inp.take count, buf1⟩ := by
  induction fuel with
  | zero =>
    intro count inp out buf hf _ hb
    have h0 : count = 0 := by omega
    subst h0
    exact ⟨buf, hb, by simp [write_literals]⟩
  | succ fuel ih =>
    intro count inp out buf hf hc hb
    by_cases h0 : count = 0
    · subst h0
      exact ⟨buf, hb, by simp [write_literals]⟩
    · simp only [write_literals, ne_eq, h0, not_false_eq_true, if_true, sector_buffer_size]
      generalize hbdef : (if count > 2352 then 2352 else count) = b
      have hb1 : 1 ≤ b ∧ b ≤ count ∧ b ≤ 2352 := by
        rw [← hbdef]; split <;> omega
      rw [fread_some _ _ _ _ (by omega)]
      simp only []
      have hl : (buf.take 0 ++ (inp.take b ++ buf.drop (0 + b))).length = 2352 := by
        rw [length_splice _ _ _ _ (by simp; omega) (by omega), hb]
      obtain ⟨buf1, hbl, heq⟩ := ih (count - b) (inp.drop b)
        (fwrite (buf.take 0 ++ (inp.take b ++ buf.drop (0 + b))) 0 b out)
        (buf.take 0 ++ (inp.take b ++ buf.drop (0 + b))) (by omega) (by simp; omega) hl
      refine ⟨buf1, hbl, ?_⟩
      rw [heq]
      have e1 : (inp.drop b).drop (count - b) = inp.drop count := by
        rw [List.drop_drop]; congr 1; omega
      have e2 : fwrite (buf.take 0 ++ (inp.take b ++ buf.drop (0 + b))) 0 b out
          ++ (inp.drop b).take (count - b) = out ++ inp.take count := by
        simp only [fwrite, List.take_zero, List.nil_append, List.drop_zero, List.append_assoc]
        have : (inp.take b ++ buf.drop (0 + b)).take b = inp.take b := by
          rw [List.take_append_of_le_length (by simp; omega), List.take_take, min_self]
        rw [this]
        have hc2 : count = b + (count - b) := by omega
        conv_rhs => rw [hc2, List.take_add]
      rw [e1, e2]

theorem unecmify_literals_spec (fuel : Nat) : ∀ (X tail dout : List Nat) (edc : Nat)
    (dbuf : List Nat), X.length ≤ fuel → dbuf.length = 2352 →
    ∃ dbuf1, dbuf1.length = 2352 ∧
      unecmify_literals fuel X.length ⟨X ++ tail, dout, edc, dbuf⟩
        = .ok ⟨tail, dout ++ X, edc_compute edc X X.length, dbuf1⟩ := by
  induction fuel with
  | zero =>
    intro X tail dout edc dbuf hf hb
    have h0 : X = [] := List.eq_nil_of_length_eq_zero (by omega)
    subst h0
    exact ⟨dbuf, hb, by simp [unecmify_literals, edc_compute]⟩
  | succ fuel ih =>
    intro X tail dout edc dbuf hf hb
    by_cases h0 : X.length = 0
    · have h0' : X = [] := List.eq_nil_of_length_eq_zero h0
      subst h0'
      exact ⟨dbuf, hb, by simp [unecmify_literals, edc_compute]⟩
    · simp only [unecmify_literals, ne_eq, h0, not_false_eq_true, if_true, sector_buffer_size]
      generalize hbdef : (if X.length > 2352 then 2352 else X.length) = b
      have hb1 : 1 ≤ b ∧ b ≤ X.length ∧ b ≤ 2352 := by
        rw [← hbdef]; split <;> omega
      have hX : X ++ tail = X.take b ++ (X.drop b ++ tail) := by
        rw [← List.append_assoc, List.take_append_drop]
      have hlt : (X.take b).length = b := by simp; omega
      rw [hX, fread_append _ _ _ _ _ hlt]
      simp only []
      have hl : (dbuf.take 0 ++ (X.take b ++ dbuf.drop (0 + b))).length = 2352 := by
        rw [length_splice _ _ _ _ hlt (by omega), hb]
      have hld : (X.drop b).length ≤ fuel := by simp; omega
      obtain ⟨dbuf1, hbl, heq⟩ := ih (X.drop b) tail
        (fwrite (dbuf.take 0 ++ (X.take b ++ dbuf.drop (0 + b))) 0 b dout)
        (edc_compute edc (dbuf.take 0 ++ (X.take b ++ dbuf.drop (0 + b))) b)
        (dbuf.take 0 ++ (X.take b ++ dbuf.drop (0 + b))) hld hl
      have hlen : X.length - b = (X.drop b).length := by simp
      refine ⟨dbuf1, hbl, ?_⟩
      rw [hlen, heq]
      have e2 : fwrite (dbuf.take 0 ++ (X.take b ++ dbuf.drop (0 + b))) 0 b dout ++ X.drop b
          = dout ++ X := by
        simp only [fwrite, List.take_zero, List.nil_append, List.drop_zero, List.append_assoc]
        have : (X.take b ++ dbuf.drop (0 + b)).take b = X.take b := by
          rw [List.take_append_of_le_length (by omega), List.take_take, min_self]
        rw [this, List.take_append_drop]
      have e3 : edc_compute (edc_compute edc
            (dbuf.take 0 ++ (X.take b ++ dbuf.drop (0 + b))) b) (X.drop b) (X.drop b).length
          = edc_compute edc X X.length := by
        have c1 : edc_compute edc (dbuf.take 0 ++ (X.take b ++ dbuf.drop (0 + b))) b
            = edc_compute edc X b := by
          apply edc_compute_congr
          intro i hi
          rw [getD_splice _ _ _ _ _ hlt (by omega), if_pos (by omega),
            getD_take _ _ _ (by omega)]
          rfl
        rw [c1, ← hlen, ← edc_compute_add]
        congr 1
        omega
      rw [e2, e3]

theorem run_roundtrip (t : Nat) (count : Nat) : ∀ (s : List Nat),
    (∀ i, i < count → SectorRoundTrips t (s.drop (i * sectorsize.getD t 0))) →
    count * sectorsize.getD t 0 ≤ s.length ∧
    ∃ P : List Nat,
      (∀ out ebuf, ebuf.length = 2352 →
        ∃ ebuf1, ebuf1.length = 2352 ∧
          write_sector_loop t count ⟨s, out, ebuf⟩
            = .ok ⟨s.drop (count * sectorsize.getD t 0), out ++ P, ebuf1⟩) ∧
      (∀ tail dout edc dbuf, dbuf.length = 2352 →
        ∃ dbuf1, dbuf1.length = 2352 ∧
          unecmify_sectors t count ⟨P ++ tail, dout, edc, dbuf⟩
            = .ok ⟨tail, dout ++ s.take (count * sectorsize.getD t 0),
                edc_compute edc s (count * sectorsize.getD t 0), dbuf1⟩) := by
  generalize hsz : sectorsize.getD t 0 = size
  induction count with
  | zero =>
    intro s _
    refine ⟨by omega, [], ?_, ?_⟩
    · intro out ebuf hb
      exact ⟨ebuf, hb, by simp [write_sector_loop]⟩
    · intro tail dout edc dbuf hb
      exact ⟨dbuf, hb, by simp [unecmify_sectors, edc_compute]⟩
  | succ count ih =>
    intro s h
    have h0 := h 0 (by omega)
    simp only [Nat.zero_mul, List.drop_zero] at h0
    obtain ⟨hlen0, P0, hw0, hd0⟩ := h0
    rw [hsz] at hlen0 hw0 hd0
    have hrest : ∀ i, i < count → SectorRoundTrips t ((s.drop size).drop (i * size)) := by
      intro i hi
      have := h (i + 1) (by omega)
      rw [List.drop_drop]
      have e : size + i * size = (i + 1) * size := by ring
      rw [e]
      exact this
    obtain ⟨hlen1, P1, hw1, hd1⟩ := ih (s.drop size) hrest
    have hl : (s.drop size).length = s.length - size := by simp
    have e1 : (count + 1) * size = size + count * size := by ring
    refine ⟨by rw [e1]; omega, P0 ++ P1, ?_, ?_⟩
    · intro out ebuf hb
      obtain ⟨ebuf1, hb1, q1⟩ := hw0 out ebuf hb
      obtain ⟨ebuf2, hb2, q2⟩ := hw1 (out ++ P0) ebuf1 hb1
      refine ⟨ebuf2, hb2, ?_⟩
      simp only [write_sector_loop, q1, q2, List.drop_drop, List.append_assoc, e1]
    · intro tail dout edc dbuf hb
      obtain ⟨dbuf1, hb1, q1⟩ := hd0 (P1 ++ tail) dout edc dbuf hb
      obtain ⟨dbuf2, hb2, q2⟩ := hd1 tail (dout ++ s.take size)
        (edc_compute edc (s.take size) size) dbuf1 hb1
      refine ⟨dbuf2, hb2, ?_⟩
      simp only [unecmify_sectors, List.append_assoc, q1, q2]
      rw [e1, List.take_add, ← edc_compute_take, ← edc_compute_add]

theorem decodes_nil : Decodes 0 [] [] := by
  refine ⟨by simp, ?_⟩
  intro fuel tail dout edc dbuf hb
  exact ⟨dbuf, hb, by simp [edc_compute]⟩

theorem decodes_append (k1 k2 : Nat) (b1 b2 r1 r2 : List Nat)
    (h1 : Decodes k1 b1 r1) (h2 : Decodes k2 b2 r2) :
    Decodes (k1 + k2) (b1 ++ b2) (r1 ++ r2) := by
  refine ⟨by simp; have := h1.1; have := h2.1; omega, ?_⟩
  intro fuel tail dout edc dbuf hb
  obtain ⟨dbuf1, hb1, q1⟩ := h1.2 (fuel + k2) (b2 ++ tail) dout edc dbuf hb
  obtain ⟨dbuf2, hb2, q2⟩ := h2.2 fuel tail (dout ++ r1) (edc_compute edc r1 r1.length) dbuf1 hb1
  refine ⟨dbuf2, hb2, ?_⟩
  have e : fuel + (k1 + k2) = fuel + k2 + k1 := by omega
  rw [e, List.append_assoc, q1, q2, List.append_assoc, edc_compute_length_append]

theorem unecmify_loop_succ (fuel : Nat) (st : UnecmState) :
    unecmify_loop (fuel + 1) st =
      match read_type_count st.inp with
      | .error e => .error (e, st)
      | .ok (type, num, rest) =>
        if num = 0xFFFFFFFF then
          .ok { st with inp := rest }
        else
          match (if type = 0 then
              unecmify_literals ((num + 1) % 2 ^ 32) ((num + 1) % 2 ^ 32) { st with inp := rest }
            else unecmify_sectors type ((num + 1) % 2 ^ 32) { st with inp := rest }) with
          | .error e => .error e
          | .ok st => unecmify_loop fuel st := rfl

theorem unecmify_loop_record (fuel : Nat) (st : UnecmState) (type num : Nat) (rest : List Nat)
    (h : read_type_count st.inp = .ok (type, num, rest)) (hn : ¬ num = 0xFFFFFFFF) :
    unecmify_loop (fuel + 1) st =
      match (if type = 0 then
          unecmify_literals ((num + 1) % 2 ^ 32) ((num + 1) % 2 ^ 32) { st with inp := rest }
        else unecmify_sectors type ((num + 1) % 2 ^ 32) { st with inp := rest }) with
      | .error e => .error e
      | .ok st => unecmify_loop fuel st := by
  rw [unecmify_loop_succ, h]
  simp only [if_neg hn]

theorem unecmify_loop_end (fuel : Nat) (st : UnecmState) (type : Nat) (rest : List Nat)
    (h : read_type_count st.inp = .ok (type, 0xFFFFFFFF, rest)) :
    unecmify_loop (fuel + 1) st = .ok { st with inp := rest } := by
  rw [unecmify_loop_succ, h]
  simp only [if_true]

/-- The record that `write_sectors` writes for a run is decoded by one round
of the main loop of `unecmify` to the bytes of the run. -/
theorem write_sectors_decodes (t count : Nat) (s : List Nat) (ht : t ≤ 3) (hc1 : 1 ≤ count)
    (hc2 : count < 2 ^ 32) (hlen : count * sectorsize.getD t 0 ≤ s.length)
    (hsec : 1 ≤ t → ∀ i, i < count → SectorRoundTrips t (s.drop (i * sectorsize.getD t 0))) :
    ∃ record : List Nat,
      (∀ out ebuf, ebuf.length = 2352 →
        ∃ inp1 ebuf1, ebuf1.length = 2352 ∧
          write_sectors t count ⟨s, out, ebuf⟩ = .ok ⟨inp1, out ++ record, ebuf1⟩) ∧
      Decodes 1 record (s.take (count * sectorsize.getD t 0)) := by
  have hwtc : write_type_count t count = write_type_count t ((count - 1 + 1) % 2 ^ 32) := by
    congr 1
    omega
  have hread : ∀ rest, read_type_count (write_type_count t count ++ rest)
      = .ok (t, count - 1, rest) := by
    intro rest
    rw [hwtc]
    exact read_write_type_count t (count - 1) rest (by omega) (by omega)
  have hne : write_type_count t count ≠ [] := by simp [write_type_count]
  have hlen1 : 1 ≤ (write_type_count t count).length :=
    Nat.pos_of_ne_zero (fun h => hne (List.eq_nil_of_length_eq_zero h))
  have hnum : (count - 1 + 1) % 2 ^ 32 = count := by omega
  have hnum2 : ¬ (count - 1 = 0xFFFFFFFF) := by omega
  by_cases h0 : t = 0
  · subst h0
    rw [sectorsize_0, Nat.mul_one] at hlen ⊢
    refine ⟨write_type_count 0 count ++ s.take count, ?_, ?_⟩
    · intro out ebuf hb
      obtain ⟨buf1, hb1, q⟩ := write_literals_spec count count s
        (out ++ write_type_count 0 count) ebuf (le_refl _) hlen hb
      refine ⟨s.drop count, buf1, hb1, ?_⟩
      simp only [write_sectors, if_true, q, List.append_assoc]
    · refine ⟨by simp; omega, ?_⟩
      intro fuel tail dout edc dbuf hb
      have hl : (s.take count).length = count := by simp; omega
      obtain ⟨dbuf1, hb1, q⟩ := unecmify_literals_spec count (s.take count) tail dout edc dbuf
        (by omega) hb
      rw [hl] at q
      refine ⟨dbuf1, hb1, ?_⟩
      rw [unecmify_loop_record fuel _ 0 (count - 1) (s.take count ++ tail)
        (by rw [List.append_assoc]; exact hread _) hnum2, hnum, if_pos rfl]
      simp only []
      rw [q, hl]
  · obtain ⟨_, P, hw, hd⟩ := run_roundtrip t count s (hsec (by omega))
    refine ⟨write_type_count t count ++ P, ?_, ?_⟩
    · intro out ebuf hb
      obtain ⟨buf1, hb1, q⟩ := hw (out ++ write_type_count t count) ebuf hb
      refine ⟨s.drop (count * sectorsize.getD t 0), buf1, hb1, ?_⟩
      simp only [write_sectors, if_neg h0, q, List.append_assoc]
    · refine ⟨by simp; omega, ?_⟩
      intro fuel tail dout edc dbuf hb
      obtain ⟨dbuf1, hb1, q⟩ := hd tail dout edc dbuf hb
      have hl : (s.take (count * sectorsize.getD t 0)).length = count * sectorsize.getD t 0 := by
        rw [List.length_take]; omega
      refine ⟨dbuf1, hb1, ?_⟩
      rw [unecmify_loop_record fuel _ t (count - 1) (P ++ tail)
        (by rw [List.append_assoc]; exact hread _) hnum2, hnum, if_neg h0]
      simp only []
      rw [q, hl, ← edc_compute_take]

end Ecm
namespace Ecm

/-! ## The header test of the decoder -/

theorem header_missing_iff (inp : List Nat) :
    (header_missing inp).1 = true ↔ inp.take 4 ≠ [0x45, 0x43, 0x4D, 0x00] := by
  rcases inp with _ | ⟨a, _ | ⟨b, _ | ⟨c, _ | ⟨d, rest⟩⟩⟩⟩
  · simp [header_missing, fgetc]
  · by_cases ha : a = 0x45 <;> (simp [header_missing, fgetc, ha] <;> split_ifs <;> first | rfl | omega)
  · by_cases ha : a = 0x45 <;> by_cases hb : b = 0x43 <;> (simp [header_missing, fgetc, ha, hb] <;> split_ifs <;> first | rfl | omega)
  · by_cases ha : a = 0x45 <;> by_cases hb : b = 0x43 <;> by_cases hc : c = 0x4D <;>
      (simp [header_missing, fgetc, ha, hb, hc] <;> split_ifs <;> first | rfl | omega)
  · by_cases ha : a = 0x45 <;> by_cases hb : b = 0x43 <;> by_cases hc : c = 0x4D <;>
      by_cases hd : d = 0 <;> (simp [header_missing, fgetc, ha, hb, hc, hd] <;> split_ifs <;> first | rfl | omega)

theorem header_missing_magic (rest : List Nat) :
    header_missing ([0x45, 0x43, 0x4D, 0x00] ++ rest) = (false, rest) := by
  simp [header_missing, fgetc]

end Ecm
namespace Ecm

/-! ## The all-zero sector -/

set_option maxRecDepth 100000 in
theorem ecc_f_lut_zero : ecc_f_lut.getD 0 0 = 0 := by decide!

set_option maxRecDepth 100000 in
theorem ecc_b_lut_zero : ecc_b_lut.getD 0 0 = 0 := by decide!

set_option maxRecDepth 100000 in
theorem edc_lut_zero : edc_lut.getD 0 0 = 0 := by decide!

theorem ecc_minor_loop_zero (address : List Nat) (rd : Nat → Nat) (size minor_inc : Nat)
    (haddr : ∀ i, address.getD i 0 = 0) (hrd : ∀ k, rd k = 0) :
    ∀ (n index : Nat), ecc_minor_loop address rd size minor_inc n index 0 0 = (0, 0) := by
  intro n
  induction n with
  | zero => intro index; rfl
  | succ n ih =>
    intro index
    simp only [ecc_minor_loop]
    have ht : (if index < 4 then address.getD index 0 else rd (index - 4)) = 0 := by
      split
      · exact haddr _
      · exact hrd _
    rw [ht]
    simp only [Nat.xor_self, ecc_f_lut_zero]
    exact ih _

theorem ecc_major_zero (address : List Nat) (rd : Nat → Nat)
    (major_count minor_count major_mult minor_inc major : Nat)
    (haddr : ∀ i, address.getD i 0 = 0) (hrd : ∀ k, rd k = 0) :
    ecc_major address rd major_count minor_count major_mult minor_inc major = (0, 0) := by
  simp only [ecc_major, ecc_minor_loop_zero address rd _ _ haddr hrd, ecc_f_lut_zero,
    Nat.xor_self, ecc_b_lut_zero]

theorem edc_compute_zero (n : Nat) : ∀ (src : List Nat), (∀ i, i < n → src.getD i 0 = 0) →
    edc_compute 0 src n = 0 := by
  induction n with
  | zero => intro src _; rfl
  | succ n ih =>
    intro src h
    simp only [edc_compute]
    rw [h 0 (by omega)]
    have e : ((0 >>> 8) ^^^ edc_lut.getD ((0 ^^^ 0) &&& 0xFF) 0) % 2 ^ 32 = 0 := by
      have e0 : (0 ^^^ 0) &&& 0xFF = 0 := by decide
      rw [e0, edc_lut_zero]
      decide
    rw [e]
    apply ih
    intro i hi
    rw [getD_drop]
    exact h _ (by omega)

theorem zeroaddress_getD (i : Nat) : zeroaddress.getD i 0 = 0 := by
  rcases i with _ | _ | _ | _ | _ | i <;> rfl

/-- A buffer that starts with 2336 zero bytes is a Mode 2 Form 1 sector. -/
theorem detect_sector_zero (s : List Nat) (a : Nat) (ha : 2336 ≤ a)
    (hz : ∀ i, i < 2336 → s.getD i 0 = 0) : detect_sector s a = 2 := by
  rw [detect_sector_eq_2]
  refine ⟨?_, ?_, ?_, ?_⟩
  · rw [Bool.eq_false_iff]
    intro hm
    rw [mode1_shape_iff] at hm
    have h1 := hm.2.2.1 1 (by omega) (by omega)
    rw [hz 1 (by omega)] at h1
    omega
  · rw [mode2_shape_iff]
    refine ⟨ha, ?_⟩
    intro k hk
    rw [hz k (by omega), hz (k + 4) (by omega)]
  · have hP := pqparams_P 0 2060 (by omega)
    have hQ := pqparams_Q 0 (2060 + 0xAC) (by omega)
    simp only [ecc_checksector, Bool.and_eq_true, ecc_checkpq_iff, getD_drop]
    constructor
    · intro j hj
      have hc : ecc_major zeroaddress (fun k => s.getD k 0) 86 24 2 86 j = (0, 0) := by
        rw [ecc_major_congr zeroaddress zeroaddress (fun k => s.getD k 0) (fun _ => 0)
          86 24 2 86 j hP.hinc (hP.hidx j hj) (fun _ _ => rfl)
          (fun k hk => hz k (by omega))]
        exact ecc_major_zero _ _ _ _ _ _ _ zeroaddress_getD (fun _ => rfl)
      rw [hc, hz _ (by omega), hz _ (by omega)]
      exact ⟨rfl, rfl⟩
    · intro j hj
      have hc : ecc_major zeroaddress (fun k => s.getD k 0) 52 43 86 88 j = (0, 0) := by
        rw [ecc_major_congr zeroaddress zeroaddress (fun k => s.getD k 0) (fun _ => 0)
          52 43 86 88 j hQ.hinc (hQ.hidx j hj) (fun _ _ => rfl)
          (fun k hk => hz k (by omega))]
        exact ecc_major_zero _ _ _ _ _ _ _ zeroaddress_getD (fun _ => rfl)
      rw [hc, hz _ (by omega), hz _ (by omega)]
      exact ⟨rfl, rfl⟩
  · rw [edc_compute_zero _ _ (fun i hi => hz i (by omega))]
    simp only [get32lsb, getD_drop]
    rw [hz _ (by omega), hz _ (by omega), hz _ (by omega), hz _ (by omega)]
    rfl

theorem getD_replicate_zero (n i : Nat) : (List.replicate n 0).getD i 0 = 0 := by
  by_cases h : i < n
  · simp [List.getD_eq_getElem?_getD, List.getElem?_replicate, h]
  · simp [List.getD_eq_getElem?_getD, List.getElem?_replicate, h]

end Ecm
namespace Ecm

/-! ## More on detection and reconstruction -/

theorem reconstruct_3_frame (buf : List Nat) (hlen : buf.length = 2352) (i : Nat)
    (h12 : 12 ≤ i) (hF : i ≠ 0xF) (hflags : i < 0x10 ∨ 0x14 ≤ i)
    (hedc : i < 0x92C ∨ 0x930 ≤ i) :
    (reconstruct_sector buf 3).getD i 0 = buf.getD i 0 := by
  have hl1 : (reconstruct_sync buf).length = 2352 := by rw [length_reconstruct_sync, hlen]
  have hl2 : (reconstruct_mode (reconstruct_sync buf) 3).length = 2352 := by
    rw [length_reconstruct_mode, hl1]
  have hR : reconstruct_sector buf 3
      = put32lsb (reconstruct_mode (reconstruct_sync buf) 3) 0x92C
          (edc_compute 0 ((reconstruct_mode (reconstruct_sync buf) 3).drop 0x10) 0x91C) := by
    simp [reconstruct_sector, reconstruct_ecc, reconstruct_edc]
  rw [hR, getD_put32lsb _ _ _ _ (by omega)]
  repeat rw [if_neg (by omega)]
  rw [getD_reconstruct_mode_23 _ 3 (by omega) (by omega)]
  repeat rw [if_neg (by omega)]
  rw [getD_reconstruct_sync _ (by omega)]
  repeat rw [if_neg (by omega)]

theorem detect_sector_small (s : List Nat) (a : Nat) (ha : a < 2336) :
    detect_sector s a = 0 := by
  have h1 : mode1_shape s a = false := by
    rw [Bool.eq_false_iff]
    intro hm
    have := ((mode1_shape_iff s a).1 hm).1
    omega
  have h2 : mode2_shape s a = false := by
    rw [Bool.eq_false_iff]
    intro hm
    have := ((mode2_shape_iff s a).1 hm).1
    omega
  simp [detect_sector, h1, h2]

theorem detect_sector_eq_0_of_shape (s : List Nat) (a : Nat) (hs : mode1_shape s a = true)
    (hbad : ¬ (ecc_checksector (s.drop 0xC) (s.drop 0x10) (s.drop 0x81C) = true ∧
      edc_compute 0 s 0x810 = get32lsb (s.drop 0x810))) :
    detect_sector s a = 0 := by
  simp only [detect_sector, hs, if_true]
  rw [if_neg]
  simpa using hbad

theorem detect_sector_form2 (s : List Nat) (a : Nat) (h1 : mode1_shape s a = false)
    (h2 : mode2_shape s a = true)
    (hedc : ¬ edc_compute 0 s 0x808 = get32lsb (s.drop 0x808)) :
    detect_sector s a ≠ 2 ∧
    (edc_compute 0 s 0x91C = get32lsb (s.drop 0x91C) → detect_sector s a = 3) ∧
    (¬ edc_compute 0 s 0x91C = get32lsb (s.drop 0x91C) → detect_sector s a = 0) := by
  refine ⟨?_, ?_, ?_⟩
  · intro h
    exact hedc ((detect_sector_eq_2 s a).1 h).2.2.2
  · intro h3
    rw [detect_sector_eq_3]
    exact ⟨h1, h2, fun h => hedc h.2, h3⟩
  · intro h3
    simp [detect_sector, h1, h2, hedc, h3]

end Ecm
namespace Ecm

/-! ## Facts about the sample buffers -/

theorem zero_sector_length : zero_sector.length = 2336 :=
  List.length_replicate ..

theorem zero_sector_bytes : ∀ b ∈ zero_sector, b < 256 := by
  intro b hb
  rw [List.eq_of_mem_replicate hb]
  decide

theorem zero_sector_getD (i : Nat) : zero_sector.getD i 0 = 0 :=
  getD_replicate_zero 2336 i

theorem zero_sector_detect : detect_sector zero_sector 2336 = 2 :=
  detect_sector_zero zero_sector 2336 (le_refl _) (fun i _ => zero_sector_getD i)

theorem zero_buffer_length : zero_buffer.length = 2352 :=
  List.length_replicate ..

set_option maxRecDepth 100000 in
theorem mode1_unchecked_shape : mode1_shape mode1_unchecked_sector 2352 = true := by decide!

set_option maxRecDepth 100000 in
theorem mode1_unchecked_ecc :
    ecc_checksector (mode1_unchecked_sector.drop 0xC) (mode1_unchecked_sector.drop 0x10)
      (mode1_unchecked_sector.drop 0x81C) = false := by decide!

set_option maxRecDepth 100000 in
theorem form1_bad_edc_shape1 : mode1_shape form1_bad_edc_sector 2336 = false := by decide!

set_option maxRecDepth 100000 in
theorem form1_bad_edc_shape2 : mode2_shape form1_bad_edc_sector 2336 = true := by decide!

set_option maxRecDepth 100000 in
theorem form1_bad_edc_field : get32lsb (form1_bad_edc_sector.drop 0x808) = 1 := by decide!

theorem form1_bad_edc_edc :
    edc_compute 0 form1_bad_edc_sector 0x808 ≠ get32lsb (form1_bad_edc_sector.drop 0x808) := by
  rw [form1_bad_edc_field, edc_compute_zero]
  · decide
  · intro i hi
    rw [form1_bad_edc_sector, getD_set, if_neg (by omega)]
    exact getD_replicate_zero 2336 i

end Ecm
namespace Ecm

/-! ## The EDC table and the bit-serial CRC -/

theorem crc_shift_lt (e : Nat) (h : e < 2 ^ 32) : crc_shift e < 2 ^ 32 := by
  unfold crc_shift
  apply Nat.xor_lt_two_pow
  · rw [Nat.shiftRight_eq_div_pow]; omega
  · split <;> norm_num

theorem crc_shift_iterate_lt (n : Nat) : ∀ e, e < 2 ^ 32 → crc_shift^[n] e < 2 ^ 32 := by
  induction n with
  | zero => intro e h; exact h
  | succ n ih =>
    intro e h
    rw [Function.iterate_succ_apply]
    exact ih _ (crc_shift_lt e h)

theorem edc_init_bits_eq (n : Nat) : ∀ e, e < 2 ^ 32 → edc_init_bits n e = crc_shift^[n] e := by
  induction n with
  | zero => intro e _; rfl
  | succ n ih =>
    intro e h
    have hs : ((e >>> 1) ^^^ (if e &&& 1 ≠ 0 then 0xD8018001 else 0)) = crc_shift e := by
      unfold crc_shift
      rw [Nat.and_one_is_mod]
      have : e % 2 = 0 ∨ e % 2 = 1 := by omega
      rcases this with h0 | h1
      · simp [h0]
      · simp [h1]
    rw [edc_init_bits, hs, Nat.mod_eq_of_lt (crc_shift_lt e h), Function.iterate_succ_apply]
    exact ih _ (crc_shift_lt e h)

theorem xor_mod_two (x y : Nat) : (x ^^^ y) % 2 = (x % 2 + y % 2) % 2 := by
  have hx := Nat.mod_two_eq_zero_or_one x
  have hy := Nat.mod_two_eq_zero_or_one y
  have h := Nat.testBit_xor x y 0
  simp only [Nat.testBit_zero] at h
  rcases hx with hx | hx <;> rcases hy with hy | hy <;> simp [hx, hy] at h ⊢ <;> omega

theorem shiftRight_xor (x y k : Nat) : (x ^^^ y) >>> k = (x >>> k) ^^^ (y >>> k) := by
  apply Nat.eq_of_testBit_eq
  intro i
  simp only [Nat.testBit_xor, Nat.testBit_shiftRight]

theorem crc_shift_xor (x y : Nat) : crc_shift (x ^^^ y) = crc_shift x ^^^ crc_shift y := by
  unfold crc_shift
  rw [shiftRight_xor, xor_mod_two]
  have hx := Nat.mod_two_eq_zero_or_one x
  have hy := Nat.mod_two_eq_zero_or_one y
  rcases hx with hx | hx <;> rcases hy with hy | hy <;>
    simp only [hx, hy, Nat.add_zero, Nat.zero_add, Nat.reduceMod, Nat.reduceAdd,
      Nat.zero_ne_one, if_true, if_false] <;>
    apply Nat.eq_of_testBit_eq <;> intro i <;> simp only [Nat.testBit_xor, Nat.zero_testBit] <;>
    cases Nat.testBit (x >>> 1) i <;> cases Nat.testBit (y >>> 1) i <;>
    cases Nat.testBit 3623976961 i <;> rfl

theorem crc_shift_iterate_xor (n : Nat) : ∀ x y,
    crc_shift^[n] (x ^^^ y) = crc_shift^[n] x ^^^ crc_shift^[n] y := by
  induction n with
  | zero => intro x y; rfl
  | succ n ih =>
    intro x y
    rw [Function.iterate_succ_apply, Function.iterate_succ_apply, Function.iterate_succ_apply,
      crc_shift_xor, ih]

theorem crc_shift_iterate_shiftLeft (n : Nat) : ∀ h, crc_shift^[n] (h <<< n) = h := by
  induction n with
  | zero => intro h; rfl
  | succ n ih =>
    intro h
    have e : crc_shift (h <<< (n + 1)) = h <<< n := by
      unfold crc_shift
      have h2 : h <<< (n + 1) = 2 * (h <<< n) := by
        rw [Nat.shiftLeft_eq, Nat.shiftLeft_eq, pow_succ]; ring
      rw [h2, Nat.shiftRight_eq_div_pow]
      have : 2 * (h <<< n) % 2 = 0 := by omega
      simp [this]
    rw [Function.iterate_succ_apply, e, ih]

theorem split_low_byte (e : Nat) : e = ((e >>> 8) <<< 8) ^^^ (e &&& 0xFF) := by
  apply Nat.eq_of_testBit_eq
  intro i
  have h255 : (255 : Nat) = 2 ^ 8 - 1 := by norm_num
  rw [Nat.testBit_xor, Nat.testBit_shiftLeft, Nat.testBit_shiftRight, Nat.testBit_and, h255,
    Nat.testBit_two_pow_sub_one]
  by_cases h : i < 8
  · have : ¬ i ≥ 8 := by omega
    simp [h, this]
  · have h8 : i ≥ 8 := by omega
    have e8 : 8 + (i - 8) = i := by omega
    simp [h, h8, e8]

set_option maxRecDepth 100000 in
theorem edc_lut_eq : ∀ i, i < 256 → edc_lut.getD i 0 = edc_init_bits 8 i := by decide!

/-- The table-driven EDC step is the bit-serial CRC step. -/
theorem edc_table_step (a b : Nat) (hb : b < 256) :
    (a >>> 8) ^^^ edc_lut.getD ((a ^^^ b) &&& 0xFF) 0 = edc_bit_serial a b := by
  have hlow : (a ^^^ b) &&& 0xFF < 256 := by
    have := @Nat.and_le_right (a ^^^ b) 0xFF
    omega
  have hhi : (a ^^^ b) >>> 8 = a >>> 8 := by
    rw [shiftRight_xor]
    have : b >>> 8 = 0 := by rw [Nat.shiftRight_eq_div_pow]; omega
    rw [this, Nat.xor_zero]
  unfold edc_bit_serial
  conv_rhs => rw [split_low_byte (a ^^^ b)]
  rw [crc_shift_iterate_xor, crc_shift_iterate_shiftLeft, hhi, edc_lut_eq _ hlow,
    edc_init_bits_eq 8 _ (by omega)]

/-! ## The ECC tables -/

set_option maxRecDepth 100000 in
theorem ecc_f_lut_eq : ∀ i, i < 256 →
    ecc_f_lut.getD i 0 = ((i <<< 1) ^^^ (if i &&& 0x80 ≠ 0 then 0x11D else 0)) ∧
    ecc_f_lut.getD i 0 = ((i <<< 1) ^^^ (if i ≥ 0x80 then 0x11D else 0)) := by decide!

set_option maxRecDepth 100000 in
theorem ecc_b_lut_eq : ∀ i, i < 256 →
    i ^^^ ecc_f_lut.getD i 0 < 256 ∧ ecc_b_lut.getD (i ^^^ ecc_f_lut.getD i 0) 0 = i := by
  decide!

set_option maxRecDepth 100000 in
theorem ecc_b_lut_onto : ∀ k, k < 256 →
    ecc_b_lut.getD k 0 < 256 ∧
    ecc_b_lut.getD k 0 ^^^ ecc_f_lut.getD (ecc_b_lut.getD k 0) 0 = k := by
  decide!

/-! ## The indices read by the ECC loops -/

theorem ecc_minor_loop_trace (address : List Nat) (rd : Nat → Nat) (size minor_inc : Nat) :
    ∀ (n index a b : Nat),
      ecc_minor_loop address rd size minor_inc n index a b
        = (ecc_index_trace size minor_inc n index).foldl (ecc_minor_step address rd) (a, b) := by
  intro n
  induction n with
  | zero => intro index a b; rfl
  | succ n ih =>
    intro index a b
    simp only [ecc_minor_loop, ecc_index_trace, List.foldl_cons, ecc_minor_step]
    rw [ih]

theorem ecc_indices_P : ∀ major, major < 86 →
    ecc_major_indices 86 24 2 86 major
      = (List.range 24).map (fun k => (major + k * 86) % 2064) := by decide!

theorem ecc_indices_Q : ∀ major, major < 52 →
    ecc_major_indices 52 43 86 88 major
      = (List.range 43).map (fun k => ((major / 2) * 86 + major % 2 + k * 88) % 2236) := by
  decide!

theorem q_index_inj (m k m1 k1 : Nat) (hm : m < 52) (hk : k < 43) (hm1 : m1 < 52) (hk1 : k1 < 43)
    (h : ((m / 2) * 86 + m % 2 + k * 88) % 2236 = ((m1 / 2) * 86 + m1 % 2 + k1 * 88) % 2236) :
    m = m1 ∧ k = k1 := by
  have hpar : m % 2 = m1 % 2 := by omega
  have h43 : (2 * k) % 43 = (2 * k1) % 43 := by omega
  have hkk : k = k1 := by omega
  subst hkk
  have hj : m / 2 = m1 / 2 := by omega
  exact ⟨by omega, rfl⟩

theorem getD_map_range (f : Nat → Nat) (n k : Nat) (hk : k < n) :
    ((List.range n).map f).getD k 0 = f k := by
  simp [List.getD_eq_getElem?_getD, List.getElem?_map, List.getElem?_range hk]

theorem mem_map_range (f : Nat → Nat) (n i : Nat) (h : i ∈ (List.range n).map f) :
    ∃ k, k < n ∧ i = f k := by
  rw [List.mem_map] at h
  obtain ⟨k, hk, e⟩ := h
  exact ⟨k, List.mem_range.1 hk, e.symm⟩

set_option maxRecDepth 100000 in
theorem q_index_onto : ∀ i, i < 2236 →
    (((i - i % 2 + 4472 - 88 * (((i - i % 2) * 22) % 43)) / 86) % 26) * 86 + i % 2
      + (((i - i % 2) * 22) % 43) * 88 ≡ i [MOD 2236] := by
  unfold Nat.ModEq
  decide!

end Ecm
namespace Ecm

theorem group_lt (b k : Nat) (hk : k ≤ 25) : (b &&& 0x7F) <<< k < 2 ^ 32 := by
  have h1 : b &&& 0x7F ≤ 0x7F := Nat.and_le_right
  rw [Nat.shiftLeft_eq]
  calc (b &&& 0x7F) * 2 ^ k ≤ 0x7F * 2 ^ 25 :=
        Nat.mul_le_mul h1 (Nat.pow_le_pow_right (by norm_num) hk)
    _ < 2 ^ 32 := by norm_num

theorem group_last_lt (b : Nat) (h : b &&& 0x7F < 0x40) : (b &&& 0x7F) <<< 26 < 2 ^ 32 := by
  rw [Nat.shiftLeft_eq]
  omega

theorem group_first_lt (b : Nat) : (b >>> 2) &&& 0x1F < 2 ^ 32 := by
  have h1 : (b >>> 2) &&& 0x1F ≤ 0x1F := Nat.and_le_right
  omega

theorem or_mod (x y : Nat) (hx : x < 2 ^ 32) (hy : y < 2 ^ 32) : (x ||| y) % 2 ^ 32 = x ||| y :=
  Nat.mod_eq_of_lt (Nat.or_lt_two_pow hx hy)

theorem read_count_loop_more (c1 : Nat) (rest : List Nat) (c bits num : Nat)
    (hc : c &&& 0x80 ≠ 0) (hb : bits ≤ 31) (hv : (c1 &&& 0x7F) < (0x80000000 >>> (bits - 1))) :
    read_count_loop (c1 :: rest) c bits num
      = read_count_loop rest c1 (bits + 7) ((num ||| ((c1 &&& 0x7F) <<< bits)) % 2 ^ 32) := by
  rw [read_count_loop, if_pos hc, if_neg (by omega)]

theorem read_count_loop_bad (c1 : Nat) (rest : List Nat) (c bits num : Nat)
    (hc : c &&& 0x80 ≠ 0) (hv : bits > 31 ∨ (c1 &&& 0x7F) ≥ (0x80000000 >>> (bits - 1))) :
    read_count_loop (c1 :: rest) c bits num = .error .corrupt_count := by
  rw [read_count_loop, if_pos hc, if_pos hv]

theorem read_count_loop_done (c1 : Nat) (rest : List Nat) (c bits num : Nat)
    (hc : ¬ c &&& 0x80 ≠ 0) :
    read_count_loop (c1 :: rest) c bits num = .ok (num, c1 :: rest) := by
  rw [read_count_loop, if_neg hc]

theorem group_small (b k : Nat) (hk : 7 ≤ k) : (b &&& 0x7F) < 2 ^ k := by
  have h1 : b &&& 0x7F ≤ 0x7F := Nat.and_le_right
  calc b &&& 0x7F < 2 ^ 7 := by omega
    _ ≤ 2 ^ k := Nat.pow_le_pow_right (by norm_num) hk

/-- The record parser on six or more bytes. -/
theorem read_type_count_six (b1 b2 b3 b4 b5 b6 : Nat) (tail : List Nat) :
    (read_type_count (b1 :: b2 :: b3 :: b4 :: b5 :: b6 :: tail) = .error .corrupt_count ↔
      (b1 &&& 0x80 ≠ 0 ∧ b2 &&& 0x80 ≠ 0 ∧ b3 &&& 0x80 ≠ 0 ∧ b4 &&& 0x80 ≠ 0 ∧
        ((b5 &&& 0x7F) ≥ 0x40 ∨ b5 &&& 0x80 ≠ 0))) ∧
    (¬ (b1 &&& 0x80 ≠ 0 ∧ b2 &&& 0x80 ≠ 0 ∧ b3 &&& 0x80 ≠ 0 ∧ b4 &&& 0x80 ≠ 0 ∧
        ((b5 &&& 0x7F) ≥ 0x40 ∨ b5 &&& 0x80 ≠ 0)) →
      ∃ n rest, read_type_count (b1 :: b2 :: b3 :: b4 :: b5 :: b6 :: tail)
          = .ok (b1 &&& 3, n, rest) ∧ n < 2 ^ 32 ∧
        n = (((b1 >>> 2) &&& 0x1F) |||
          (if b1 &&& 0x80 ≠ 0 then ((b2 &&& 0x7F) <<< 5) |||
            (if b2 &&& 0x80 ≠ 0 then ((b3 &&& 0x7F) <<< 12) |||
              (if b3 &&& 0x80 ≠ 0 then ((b4 &&& 0x7F) <<< 19) |||
                (if b4 &&& 0x80 ≠ 0 then (b5 &&& 0x7F) <<< 26 else 0) else 0) else 0) else 0)) ∧
        rest = (if b1 &&& 0x80 ≠ 0 then
            (if b2 &&& 0x80 ≠ 0 then
              (if b3 &&& 0x80 ≠ 0 then
                (if b4 &&& 0x80 ≠ 0 then b6 :: tail else b5 :: b6 :: tail)
                else b4 :: b5 :: b6 :: tail)
              else b3 :: b4 :: b5 :: b6 :: tail)
            else b2 :: b3 :: b4 :: b5 :: b6 :: tail)) := by
  have g0 := group_first_lt b1
  have g1 := group_lt b2 5 (by norm_num)
  have g2 := group_lt b3 12 (by norm_num)
  have g3 := group_lt b4 19 (by norm_num)
  have s1 : (0x80000000 : Nat) >>> (5 - 1) = 2 ^ 27 := by decide
  have s2 : (0x80000000 : Nat) >>> (5 + 7 - 1) = 2 ^ 20 := by decide
  have s3 : (0x80000000 : Nat) >>> (5 + 7 + 7 - 1) = 2 ^ 13 := by decide
  have s4 : (0x80000000 : Nat) >>> (5 + 7 + 7 + 7 - 1) = 0x40 := by decide
  have v1 : (b2 &&& 0x7F) < (0x80000000 >>> (5 - 1)) := by rw [s1]; exact group_small b2 27 (by norm_num)
  have v2 : (b3 &&& 0x7F) < (0x80000000 >>> (5 + 7 - 1)) := by
    rw [s2]; exact group_small b3 20 (by norm_num)
  have v3 : (b4 &&& 0x7F) < (0x80000000 >>> (5 + 7 + 7 - 1)) := by
    rw [s3]; exact group_small b4 13 (by norm_num)
  by_cases c1 : b1 &&& 0x80 ≠ 0
  swap
  · have hr : read_type_count (b1 :: b2 :: b3 :: b4 :: b5 :: b6 :: tail)
        = .ok (b1 &&& 3, (b1 >>> 2) &&& 0x1F, b2 :: b3 :: b4 :: b5 :: b6 :: tail) := by
      simp only [read_type_count, read_count_loop_done _ _ _ _ _ c1]
    rw [hr]
    refine ⟨⟨fun h => by simp at h, fun h => absurd h.1 c1⟩, fun _ => ⟨_, _, rfl, g0, ?_, ?_⟩⟩
    · simp only [if_neg c1, Nat.or_zero]
    · simp only [if_neg c1]
  by_cases c2 : b2 &&& 0x80 ≠ 0
  swap
  · have hr : read_type_count (b1 :: b2 :: b3 :: b4 :: b5 :: b6 :: tail)
        = .ok (b1 &&& 3, ((b1 >>> 2) &&& 0x1F) ||| ((b2 &&& 0x7F) <<< 5),
            b3 :: b4 :: b5 :: b6 :: tail) := by
      simp only [read_type_count, read_count_loop_more _ _ _ _ _ c1 (by norm_num) v1,
        read_count_loop_done _ _ _ _ _ c2, or_mod _ _ g0 g1]
    rw [hr]
    refine ⟨⟨fun h => by simp at h, fun h => absurd h.2.1 c2⟩,
      fun _ => ⟨_, _, rfl, Nat.or_lt_two_pow g0 g1, ?_, ?_⟩⟩
    · simp only [if_pos c1, if_neg c2, Nat.or_zero]
    · simp only [if_pos c1, if_neg c2]
  by_cases c3 : b3 &&& 0x80 ≠ 0
  swap
  · have hr : read_type_count (b1 :: b2 :: b3 :: b4 :: b5 :: b6 :: tail)
        = .ok (b1 &&& 3,
            (((b1 >>> 2) &&& 0x1F) ||| ((b2 &&& 0x7F) <<< 5)) ||| ((b3 &&& 0x7F) <<< 12),
            b4 :: b5 :: b6 :: tail) := by
      simp only [read_type_count, read_count_loop_more _ _ _ _ _ c1 (by norm_num) v1,
        read_count_loop_more _ _ _ _ _ c2 (by norm_num) v2,
        read_count_loop_done _ _ _ _ _ c3, or_mod _ _ g0 g1,
        or_mod _ _ (Nat.or_lt_two_pow g0 g1) g2]
    rw [hr]
    refine ⟨⟨fun h => by simp at h, fun h => absurd h.2.2.1 c3⟩,
      fun _ => ⟨_, _, rfl, Nat.or_lt_two_pow (Nat.or_lt_two_pow g0 g1) g2, ?_, ?_⟩⟩
    · simp only [if_pos c1, if_pos c2, if_neg c3, Nat.or_zero, Nat.lor_assoc]
    · simp only [if_pos c1, if_pos c2, if_neg c3]
  by_cases c4 : b4 &&& 0x80 ≠ 0
  swap
  · have hr : read_type_count (b1 :: b2 :: b3 :: b4 :: b5 :: b6 :: tail)
        = .ok (b1 &&& 3,
            ((((b1 >>> 2) &&& 0x1F) ||| ((b2 &&& 0x7F) <<< 5)) ||| ((b3 &&& 0x7F) <<< 12)) |||
              ((b4 &&& 0x7F) <<< 19),
            b5 :: b6 :: tail) := by
      simp only [read_type_count, read_count_loop_more _ _ _ _ _ c1 (by norm_num) v1,
        read_count_loop_more _ _ _ _ _ c2 (by norm_num) v2,
        read_count_loop_more _ _ _ _ _ c3 (by norm_num) v3,
        read_count_loop_done _ _ _ _ _ c4, or_mod _ _ g0 g1,
        or_mod _ _ (Nat.or_lt_two_pow g0 g1) g2,
        or_mod _ _ (Nat.or_lt_two_pow (Nat.or_lt_two_pow g0 g1) g2) g3]
    rw [hr]
    refine ⟨⟨fun h => by simp at h, fun h => absurd h.2.2.2.1 c4⟩,
      fun _ => ⟨_, _, rfl,
        Nat.or_lt_two_pow (Nat.or_lt_two_pow (Nat.or_lt_two_pow g0 g1) g2) g3, ?_, ?_⟩⟩
    · simp only [if_pos c1, if_pos c2, if_pos c3, if_neg c4, Nat.or_zero, Nat.lor_assoc]
    · simp only [if_pos c1, if_pos c2, if_pos c3, if_neg c4]
  by_cases v4 : (b5 &&& 0x7F) ≥ 0x40
  · have hbad : read_count_loop (b5 :: b6 :: tail) b4 (5 + 7 + 7 + 7)
        (((((b1 >>> 2 &&& 0x1F) ||| (b2 &&& 0x7F) <<< 5) ||| (b3 &&& 0x7F) <<< 12) |||
          (b4 &&& 0x7F) <<< 19)) = .error .corrupt_count :=
      read_count_loop_bad _ _ _ _ _ c4 (Or.inr (by rw [s4]; exact v4))
    have hr : read_type_count (b1 :: b2 :: b3 :: b4 :: b5 :: b6 :: tail)
        = .error .corrupt_count := by
      simp only [read_type_count, read_count_loop_more _ _ _ _ _ c1 (by norm_num) v1,
        read_count_loop_more _ _ _ _ _ c2 (by norm_num) v2,
        read_count_loop_more _ _ _ _ _ c3 (by norm_num) v3, or_mod _ _ g0 g1,
        or_mod _ _ (Nat.or_lt_two_pow g0 g1) g2,
        or_mod _ _ (Nat.or_lt_two_pow (Nat.or_lt_two_pow g0 g1) g2) g3, hbad]
    rw [hr]
    exact ⟨⟨fun _ => ⟨c1, c2, c3, c4, Or.inl v4⟩, fun _ => rfl⟩,
      fun h => absurd ⟨c1, c2, c3, c4, Or.inl v4⟩ h⟩
  have v4lt : (b5 &&& 0x7F) < (0x80000000 >>> (5 + 7 + 7 + 7 - 1)) := by rw [s4]; omega
  have g4 := group_last_lt b5 (by omega)
  by_cases c5 : b5 &&& 0x80 ≠ 0
  · have hbad : read_count_loop (b6 :: tail) b5 (5 + 7 + 7 + 7 + 7)
        ((((((b1 >>> 2 &&& 0x1F) ||| (b2 &&& 0x7F) <<< 5) ||| (b3 &&& 0x7F) <<< 12) |||
          (b4 &&& 0x7F) <<< 19) ||| (b5 &&& 0x7F) <<< 26)) = .error .corrupt_count :=
      read_count_loop_bad _ _ _ _ _ c5 (Or.inl (by norm_num))
    have hr : read_type_count (b1 :: b2 :: b3 :: b4 :: b5 :: b6 :: tail)
        = .error .corrupt_count := by
      simp only [read_type_count, read_count_loop_more _ _ _ _ _ c1 (by norm_num) v1,
        read_count_loop_more _ _ _ _ _ c2 (by norm_num) v2,
        read_count_loop_more _ _ _ _ _ c3 (by norm_num) v3,
        read_count_loop_more _ _ _ _ _ c4 (by norm_num) v4lt, or_mod _ _ g0 g1,
        or_mod _ _ (Nat.or_lt_two_pow g0 g1) g2,
        or_mod _ _ (Nat.or_lt_two_pow (Nat.or_lt_two_pow g0 g1) g2) g3,
        or_mod _ _ (Nat.or_lt_two_pow (Nat.or_lt_two_pow (Nat.or_lt_two_pow g0 g1) g2) g3) g4,
        hbad]
    rw [hr]
    exact ⟨⟨fun _ => ⟨c1, c2, c3, c4, Or.inr c5⟩, fun _ => rfl⟩,
      fun h => absurd ⟨c1, c2, c3, c4, Or.inr c5⟩ h⟩
  · have hr : read_type_count (b1 :: b2 :: b3 :: b4 :: b5 :: b6 :: tail)
        = .ok (b1 &&& 3,
            (((((b1 >>> 2) &&& 0x1F) ||| ((b2 &&& 0x7F) <<< 5)) ||| ((b3 &&& 0x7F) <<< 12)) |||
              ((b4 &&& 0x7F) <<< 19)) ||| ((b5 &&& 0x7F) <<< 26),
            b6 :: tail) := by
      simp only [read_type_count, read_count_loop_more _ _ _ _ _ c1 (by norm_num) v1,
        read_count_loop_more _ _ _ _ _ c2 (by norm_num) v2,
        read_count_loop_more _ _ _ _ _ c3 (by norm_num) v3,
        read_count_loop_more _ _ _ _ _ c4 (by norm_num) v4lt, or_mod _ _ g0 g1,
        or_mod _ _ (Nat.or_lt_two_pow g0 g1) g2,
        or_mod _ _ (Nat.or_lt_two_pow (Nat.or_lt_two_pow g0 g1) g2) g3,
        or_mod _ _ (Nat.or_lt_two_pow (Nat.or_lt_two_pow (Nat.or_lt_two_pow g0 g1) g2) g3) g4,
        read_count_loop_done _ _ _ _ _ c5]
    rw [hr]
    refine ⟨⟨fun h => by simp at h, fun h => ?_⟩, fun _ => ⟨_, _, rfl,
      Nat.or_lt_two_pow (Nat.or_lt_two_pow (Nat.or_lt_two_pow (Nat.or_lt_two_pow g0 g1) g2) g3)
        g4, ?_, ?_⟩⟩
    · rcases h.2.2.2.2 with h5 | h5
      · exact absurd h5 v4
      · exact absurd h5 c5
    · simp only [if_pos c1, if_pos c2, if_pos c3, if_pos c4, Nat.lor_assoc]
    · simp only [if_pos c1, if_pos c2, if_pos c3, if_pos c4]

end Ecm
namespace Ecm

/-! ## What `detect_sector` reads -/

theorem ecc_checksector_congr (address address1 data data1 ecc ecc1 : List Nat)
    (ha : ∀ i, i < 4 → address.getD i 0 = address1.getD i 0)
    (hd : ∀ k, k < 2232 → data.getD k 0 = data1.getD k 0)
    (he : ∀ j, j < 276 → ecc.getD j 0 = ecc1.getD j 0) :
    ecc_checksector address data ecc = ecc_checksector address1 data1 ecc1 := by
  have hP := pqparams_P 0 2060 (by norm_num)
  have hQ := pqparams_Q 0 2232 (by norm_num)
  have eP : ∀ j, j < 86 → ecc_major address (fun k => data.getD k 0) 86 24 2 86 j
      = ecc_major address1 (fun k => data1.getD k 0) 86 24 2 86 j := fun j hj =>
    ecc_major_congr _ _ _ _ 86 24 2 86 j hP.hinc (hP.hidx j hj) ha (fun k hk => hd k (by omega))
  have eQ : ∀ j, j < 52 → ecc_major address (fun k => data.getD k 0) 52 43 86 88 j
      = ecc_major address1 (fun k => data1.getD k 0) 52 43 86 88 j := fun j hj =>
    ecc_major_congr _ _ _ _ 52 43 86 88 j hQ.hinc (hQ.hidx j hj) ha (fun k hk => hd k (by omega))
  rw [Bool.eq_iff_iff]
  simp only [ecc_checksector, Bool.and_eq_true, ecc_checkpq_iff, getD_drop]
  constructor
  · rintro ⟨h1, h2⟩
    refine ⟨fun j hj => ?_, fun j hj => ?_⟩
    · rw [← eP j hj, ← he j (by omega), ← he (j + 86) (by omega)]
      exact h1 j hj
    · rw [← eQ j hj, ← he (0xAC + j) (by omega), ← he (0xAC + (j + 52)) (by omega)]
      exact h2 j hj
  · rintro ⟨h1, h2⟩
    refine ⟨fun j hj => ?_, fun j hj => ?_⟩
    · rw [eP j hj, he j (by omega), he (j + 86) (by omega)]
      exact h1 j hj
    · rw [eQ j hj, he (0xAC + j) (by omega), he (0xAC + (j + 52)) (by omega)]
      exact h2 j hj

theorem mode1_shape_congr (X Y : List Nat) (a : Nat)
    (h : ∀ i, i < 2352 → X.getD i 0 = Y.getD i 0) : mode1_shape X a = mode1_shape Y a := by
  rw [Bool.eq_iff_iff, mode1_shape_iff, mode1_shape_iff, h 0 (by omega), h 11 (by omega),
    h 0xF (by omega)]
  constructor
  · rintro ⟨h1, h2, h3, h4, h5, h6⟩
    exact ⟨h1, h2, fun i a b => by rw [← h i (by omega)]; exact h3 i a b, h4, h5,
      fun i a b => by rw [← h i (by omega)]; exact h6 i a b⟩
  · rintro ⟨h1, h2, h3, h4, h5, h6⟩
    exact ⟨h1, h2, fun i a b => by rw [h i (by omega)]; exact h3 i a b, h4, h5,
      fun i a b => by rw [h i (by omega)]; exact h6 i a b⟩

theorem mode2_shape_congr (X Y : List Nat) (a : Nat)
    (h : ∀ i, i < 8 → X.getD i 0 = Y.getD i 0) : mode2_shape X a = mode2_shape Y a := by
  rw [Bool.eq_iff_iff, mode2_shape_iff, mode2_shape_iff]
  constructor
  · rintro ⟨h1, h2⟩
    exact ⟨h1, fun k hk => by rw [← h k (by omega), ← h (k + 4) (by omega)]; exact h2 k hk⟩
  · rintro ⟨h1, h2⟩
    exact ⟨h1, fun k hk => by rw [h k (by omega), h (k + 4) (by omega)]; exact h2 k hk⟩

theorem detect_sector_mode2_congr (X Y : List Nat) (a : Nat)
    (h : ∀ i, i < 2336 → X.getD i 0 = Y.getD i 0)
    (h1 : mode1_shape X a = false) (h2 : mode1_shape Y a = false) :
    detect_sector X a = detect_sector Y a := by
  have m2 := mode2_shape_congr X Y a (fun i hi => h i (by omega))
  have e2 : ecc_checksector zeroaddress X (X.drop 0x80C)
      = ecc_checksector zeroaddress Y (Y.drop 0x80C) :=
    ecc_checksector_congr _ _ _ _ _ _ (fun _ _ => rfl) (fun k hk => h k (by omega))
      (fun j hj => by rw [getD_drop, getD_drop]; exact h _ (by omega))
  have c2 := edc_compute_congr 0x808 0 X Y (fun i hi => h i (by omega))
  have g2 : get32lsb (X.drop 0x808) = get32lsb (Y.drop 0x808) :=
    get32lsb_congr _ _ (fun k hk => by rw [getD_drop, getD_drop]; exact h _ (by omega))
  have c3 := edc_compute_congr 0x91C 0 X Y (fun i hi => h i (by omega))
  have g3 : get32lsb (X.drop 0x91C) = get32lsb (Y.drop 0x91C) :=
    get32lsb_congr _ _ (fun k hk => by rw [getD_drop, getD_drop]; exact h _ (by omega))
  unfold detect_sector
  rw [h1, h2, m2, e2, c2, g2, c3, g3]
  simp only [Bool.false_eq_true, reduceIte]

/-- The result of `detect_sector(sector, size_available)` depends only on the first
`size_available` bytes of the buffer. -/
theorem detect_sector_congr (X Y : List Nat) (a : Nat)
    (h : ∀ i, i < a → X.getD i 0 = Y.getD i 0) : detect_sector X a = detect_sector Y a := by
  by_cases ha : a < 2336
  · rw [detect_sector_small X a ha, detect_sector_small Y a ha]
  by_cases hb : a < 2352
  · have f1 : ∀ Z : List Nat, mode1_shape Z a = false := by
      intro Z
      rw [Bool.eq_false_iff]
      intro hm
      have := ((mode1_shape_iff Z a).1 hm).1
      omega
    exact detect_sector_mode2_congr X Y a (fun i hi => h i (by omega)) (f1 X) (f1 Y)
  have hx : ∀ i, i < 2352 → X.getD i 0 = Y.getD i 0 := fun i hi => h i (by omega)
  have m1 := mode1_shape_congr X Y a hx
  by_cases hm : mode1_shape X a = true
  · have hm2 : mode1_shape Y a = true := by rw [← m1]; exact hm
    have e1 : ecc_checksector (X.drop 0xC) (X.drop 0x10) (X.drop 0x81C)
        = ecc_checksector (Y.drop 0xC) (Y.drop 0x10) (Y.drop 0x81C) :=
      ecc_checksector_congr _ _ _ _ _ _
        (fun i hi => by rw [getD_drop, getD_drop]; exact hx _ (by omega))
        (fun k hk => by rw [getD_drop, getD_drop]; exact hx _ (by omega))
        (fun j hj => by rw [getD_drop, getD_drop]; exact hx _ (by omega))
    have c1 := edc_compute_congr 0x810 0 X Y (fun i hi => hx i (by omega))
    have g1 : get32lsb (X.drop 0x810) = get32lsb (Y.drop 0x810) :=
      get32lsb_congr _ _ (fun k hk => by rw [getD_drop, getD_drop]; exact hx _ (by omega))
    unfold detect_sector
    rw [hm, hm2, e1, c1, g1]
    simp only [reduceIte]
  · have hf : mode1_shape X a = false := by simpa using hm
    have hf2 : mode1_shape Y a = false := by rw [← m1]; exact hf
    exact detect_sector_mode2_congr X Y a (fun i hi => hx i (by omega)) hf hf2

/-! ## The refill step -/

theorem getD_splice_le (buf X : List Nat) (ofs i : Nat) (h : ofs ≤ buf.length)
    (hi : i < ofs + X.length) :
    (buf.take ofs ++ (X ++ buf.drop (ofs + X.length))).getD i 0 =
      if i < ofs then buf.getD i 0 else X.getD (i - ofs) 0 := by
  have hl : (buf.take ofs).length = ofs := by simp; omega
  by_cases c1 : i < ofs
  · rw [getD_append_left _ _ _ (by omega), getD_take _ _ _ c1, if_pos c1]
  · rw [getD_append_right _ _ _ (by omega), hl, getD_append_left _ _ _ (by omega), if_neg c1]

theorem length_splice_ge (buf X : List Nat) (ofs : Nat) (h : ofs ≤ buf.length) :
    ofs + X.length ≤ (buf.take ofs ++ (X ++ buf.drop (ofs + X.length))).length := by
  simp
  omega

end Ecm
namespace Ecm

theorem ecmify_refill_skip (S : List Nat) (st : EcmState)
    (hc : ¬ (st.queue_bytes_available < 2352 ∧
      st.queue_bytes_available < S.length - st.input_bytes_queued)) :
    ecmify_refill S st = .ok st := by
  unfold ecmify_refill
  rw [if_neg hc]

theorem ecmify_refill_read (S : List Nat) (st : EcmState)
    (hc : st.queue_bytes_available < 2352 ∧
      st.queue_bytes_available < S.length - st.input_bytes_queued) :
    ecmify_refill S st = .ok { st with
      queue := ((if st.queue_start_ofs > 0 then
            (st.queue.drop st.queue_start_ofs).take st.queue_bytes_available
          else st.queue).take st.queue_bytes_available ++
          ((S.drop st.input_bytes_queued).take
              (min (S.length - st.input_bytes_queued) (queue_size - st.queue_bytes_available)) ++
            (if st.queue_start_ofs > 0 then
              (st.queue.drop st.queue_start_ofs).take st.queue_bytes_available
            else st.queue).drop (st.queue_bytes_available +
              min (S.length - st.input_bytes_queued) (queue_size - st.queue_bytes_available)))).take
        (st.queue_bytes_available +
          min (S.length - st.input_bytes_queued) (queue_size - st.queue_bytes_available))
      queue_start_ofs := 0
      input_edc := edc_compute st.input_edc
        (((if st.queue_start_ofs > 0 then
            (st.queue.drop st.queue_start_ofs).take st.queue_bytes_available
          else st.queue).take st.queue_bytes_available ++
          ((S.drop st.input_bytes_queued).take
              (min (S.length - st.input_bytes_queued) (queue_size - st.queue_bytes_available)) ++
            (if st.queue_start_ofs > 0 then
              (st.queue.drop st.queue_start_ofs).take st.queue_bytes_available
            else st.queue).drop (st.queue_bytes_available +
              min (S.length - st.input_bytes_queued)
                (queue_size - st.queue_bytes_available)))).drop st.queue_bytes_available)
        (min (S.length - st.input_bytes_queued) (queue_size - st.queue_bytes_available))
      input_bytes_queued := st.input_bytes_queued +
        min (S.length - st.input_bytes_queued) (queue_size - st.queue_bytes_available)
      queue_bytes_available := st.queue_bytes_available +
        min (S.length - st.input_bytes_queued) (queue_size - st.queue_bytes_available) } := by
  have hw : (if S.length - st.input_bytes_queued > queue_size - st.queue_bytes_available then
      queue_size - st.queue_bytes_available else S.length - st.input_bytes_queued)
      = min (S.length - st.input_bytes_queued) (queue_size - st.queue_bytes_available) := by
    split <;> omega
  have hqs : queue_size = 0x40000 := rfl
  have hpos : min (S.length - st.input_bytes_queued) (queue_size - st.queue_bytes_available)
      ≠ 0 := by omega
  have hle : min (S.length - st.input_bytes_queued) (queue_size - st.queue_bytes_available)
      ≤ (S.drop st.input_bytes_queued).length := by
    rw [List.length_drop]; omega
  unfold ecmify_refill
  rw [if_pos hc]
  simp only [hw, if_pos hpos, fread_some _ _ _ _ hle]

/-- The refill step when it reads: the queue then starts at offset 0 and holds the
input from `input_bytes_checked` on. -/
theorem ecmify_refill_read_spec (S : List Nat) (st : EcmState) (h : EcmInv S st)
    (hc : st.queue_bytes_available < 2352 ∧
      st.queue_bytes_available < S.length - st.input_bytes_queued) :
    ∃ q : List Nat,
      ecmify_refill S st = .ok { st with
        queue := q
        queue_start_ofs := 0
        input_edc := edc_compute 0 S (st.input_bytes_queued +
          min (S.length - st.input_bytes_queued) (queue_size - st.queue_bytes_available))
        input_bytes_queued := st.input_bytes_queued +
          min (S.length - st.input_bytes_queued) (queue_size - st.queue_bytes_available)
        queue_bytes_available := st.queue_bytes_available +
          min (S.length - st.input_bytes_queued) (queue_size - st.queue_bytes_available) } ∧
      st.queue_bytes_available +
        min (S.length - st.input_bytes_queued) (queue_size - st.queue_bytes_available)
          ≤ q.length ∧
      ∀ i, i < st.queue_bytes_available +
          min (S.length - st.input_bytes_queued) (queue_size - st.queue_bytes_available) →
        q.getD i 0 = S.getD (st.input_bytes_checked + i) 0 := by
  have hqs : queue_size = 0x40000 := rfl
  generalize hw : min (S.length - st.input_bytes_queued)
    (queue_size - st.queue_bytes_available) = w
  have hwle : w ≤ S.length - st.input_bytes_queued := by omega
  have hq := h.queued_le
  have hXlen : ((S.drop st.input_bytes_queued).take w).length = w := by
    rw [List.length_take, List.length_drop]; omega
  -- the queue after the move to the front
  generalize hQ : (if st.queue_start_ofs > 0 then
      (st.queue.drop st.queue_start_ofs).take st.queue_bytes_available else st.queue) = Q
  have hQlen : st.queue_bytes_available ≤ Q.length := by
    have := h.queue_len
    rw [← hQ]
    split
    · rw [List.length_take, List.length_drop]; omega
    · omega
  have hQget : ∀ i, i < st.queue_bytes_available →
      Q.getD i 0 = S.getD (st.input_bytes_checked + i) 0 := by
    intro i hi
    rw [← hQ, ← h.queue_ok i hi]
    split
    · rw [getD_take _ _ _ hi, getD_drop]
    · rename_i h0
      have : st.queue_start_ofs = 0 := by omega
      rw [this, Nat.zero_add]
  have hsp : ∀ i, i < st.queue_bytes_available + w →
      (Q.take st.queue_bytes_available ++ ((S.drop st.input_bytes_queued).take w ++
        Q.drop (st.queue_bytes_available + w))).getD i 0
        = S.getD (st.input_bytes_checked + i) 0 := by
    intro i hi
    have := getD_splice_le Q ((S.drop st.input_bytes_queued).take w) st.queue_bytes_available i
      hQlen (by rw [hXlen]; exact hi)
    rw [hXlen] at this
    rw [this]
    split
    · rename_i hlt
      exact hQget i hlt
    · rename_i hge
      rw [getD_take _ _ _ (by omega), getD_drop]
      have := h.queued_eq
      congr 1
      omega
  have hspl : st.queue_bytes_available + w ≤
      (Q.take st.queue_bytes_available ++ ((S.drop st.input_bytes_queued).take w ++
        Q.drop (st.queue_bytes_available + w))).length := by
    have := length_splice_ge Q ((S.drop st.input_bytes_queued).take w) st.queue_bytes_available
      hQlen
    rw [hXlen] at this
    exact this
  refine ⟨(Q.take st.queue_bytes_available ++ ((S.drop st.input_bytes_queued).take w ++
        Q.drop (st.queue_bytes_available + w))).take (st.queue_bytes_available + w), ?_, ?_, ?_⟩
  · rw [ecmify_refill_read S st hc, hw, hQ]
    have hedc : edc_compute st.input_edc
        ((Q.take st.queue_bytes_available ++ ((S.drop st.input_bytes_queued).take w ++
          Q.drop (st.queue_bytes_available + w))).drop st.queue_bytes_available) w
        = edc_compute 0 S (st.input_bytes_queued + w) := by
      rw [edc_compute_add, ← h.edc_ok]
      apply edc_compute_congr
      intro i hi
      rw [getD_drop, hsp _ (by omega), getD_drop]
      have := h.queued_eq
      congr 1
      omega
    rw [hedc]
  · rw [List.length_take]
    omega
  · intro i hi
    rw [getD_take _ _ _ hi]
    exact hsp i hi

/-- The refill step keeps the invariant, and after it either 2352 bytes are
available or no more bytes are left in the file than are available. -/
theorem ecmify_refill_spec (S : List Nat) (st : EcmState) (h : EcmInv S st) :
    ∃ st1, ecmify_refill S st = .ok st1 ∧ EcmInv S st1 ∧
      st1.curtype = st.curtype ∧ st1.curtype_count = st.curtype_count ∧
      st1.curtype_in_start = st.curtype_in_start ∧ st1.literal_skip = st.literal_skip ∧
      st1.input_bytes_checked = st.input_bytes_checked ∧ st1.out = st.out ∧
      st1.sector_buffer = st.sector_buffer ∧ st1.flushed = st.flushed ∧
      (2352 ≤ st1.queue_bytes_available ∨
        S.length - st1.input_bytes_queued ≤ st1.queue_bytes_available) ∧
      st1.queue_bytes_available = st.queue_bytes_available +
        (if st.queue_bytes_available < 2352 ∧
            st.queue_bytes_available < S.length - st.input_bytes_queued then
          min (S.length - st.input_bytes_queued) (queue_size - st.queue_bytes_available)
        else 0) ∧
      st1.input_bytes_queued = st.input_bytes_queued +
        (if st.queue_bytes_available < 2352 ∧
            st.queue_bytes_available < S.length - st.input_bytes_queued then
          min (S.length - st.input_bytes_queued) (queue_size - st.queue_bytes_available)
        else 0) := by
  have hqs : queue_size = 0x40000 := rfl
  by_cases hc : st.queue_bytes_available < 2352 ∧
      st.queue_bytes_available < S.length - st.input_bytes_queued
  · obtain ⟨q, hr, hlen, hget⟩ := ecmify_refill_read_spec S st h hc
    have e1 := h.queued_eq
    have e2 := h.queued_le
    rw [if_pos hc]
    refine ⟨_, hr, ?_, rfl, rfl, rfl, rfl, rfl, rfl, rfl, rfl, ?_, rfl, rfl⟩
    · exact {
        queue_ok := fun i hi => by simpa using hget i hi
        queue_len := by simpa using hlen
        queue_cap := by simp only []; omega
        queued_eq := by simp only []; omega
        queued_le := by simp only []; omega
        edc_ok := rfl
        buf_len := h.buf_len
        skip_le := h.skip_le
        skip_run := h.skip_run
        run_ok := h.run_ok
        runs_ok := h.runs_ok
        tile_ok := h.tile_ok
        adj_ok := h.adj_ok
        out_ok := h.out_ok }
    · simp only []
      omega
  · rw [if_neg hc]
    exact ⟨st, ecmify_refill_skip S st hc, h, rfl, rfl, rfl, rfl, rfl, rfl, rfl, rfl,
      by omega, rfl, rfl⟩

/-! ## The run-aggregation step -/

theorem ecmify_aggregate_same (S : List Nat) (d : Int) (st : EcmState)
    (h1 : d = st.curtype) (h2 : st.curtype_count ≤ 0x7FFFFFFF) :
    ecmify_aggregate S d st = .ok { st with curtype_count := st.curtype_count + 1 } := by
  unfold ecmify_aggregate
  rw [if_pos ⟨h1, h2⟩]
  have e : (st.curtype_count + 1) % 2 ^ 32 = st.curtype_count + 1 := by omega
  rw [e]

theorem ecmify_aggregate_first (S : List Nat) (d : Int) (st : EcmState)
    (h1 : ¬ (d = st.curtype ∧ st.curtype_count ≤ 0x7FFFFFFF)) (h0 : st.curtype_count = 0) :
    ecmify_aggregate S d st = .ok { st with
      curtype := d
      curtype_in_start := st.input_bytes_checked
      curtype_count := 1 } := by
  unfold ecmify_aggregate
  rw [if_neg h1]
  simp only [h0, gt_iff_lt, Nat.lt_irrefl, if_false]

theorem ecmify_aggregate_flush (S : List Nat) (d : Int) (st : EcmState)
    (h1 : ¬ (d = st.curtype ∧ st.curtype_count ≤ 0x7FFFFFFF)) (h0 : 0 < st.curtype_count)
    (io : Files)
    (hw : write_sectors st.curtype.toNat st.curtype_count
      ⟨S.drop st.curtype_in_start, st.out, st.sector_buffer⟩ = .ok io) :
    ecmify_aggregate S d st = .ok { st with
      out := io.out
      sector_buffer := io.sector_buffer
      flushed := st.flushed ++ [(st.curtype.toNat, st.curtype_count, st.curtype_in_start)]
      curtype := d
      curtype_in_start := st.input_bytes_checked
      curtype_count := 1 } := by
  unfold ecmify_aggregate
  rw [if_neg h1]
  simp only [gt_iff_lt, h0, if_true, hw]

end Ecm
namespace Ecm

/-! ## Lists of runs -/

theorem runs_bytes_append (S : List Nat) (a b : List (Nat × Nat × Nat)) :
    runs_bytes S (a ++ b) = runs_bytes S a ++ runs_bytes S b := by
  induction a with
  | nil => rfl
  | cons r a ih => rw [List.cons_append, runs_bytes, runs_bytes, ih, List.append_assoc]

theorem runs_bytes_single (S : List Nat) (r : Nat × Nat × Nat) :
    runs_bytes S [r] = run_bytes S r := by
  simp only [runs_bytes, List.append_nil]

theorem runs_size_append (a b : List (Nat × Nat × Nat)) :
    runs_size (a ++ b) = runs_size a + runs_size b := by
  induction a with
  | nil => simp [runs_size]
  | cons r a ih => rw [List.cons_append, runs_size, runs_size, ih, Nat.add_assoc]

theorem runs_size_single (r : Nat × Nat × Nat) : runs_size [r] = run_size r := by
  simp only [runs_size, Nat.add_zero]

theorem getD_snoc_lt (l : List (Nat × Nat × Nat)) (r d : Nat × Nat × Nat) (i : Nat)
    (h : i < l.length) : (l ++ [r]).getD i d = l.getD i d := by
  simp [List.getD_eq_getElem?_getD, List.getElem?_append_left h]

theorem getD_snoc_eq (l : List (Nat × Nat × Nat)) (r d : Nat × Nat × Nat) :
    (l ++ [r]).getD l.length d = r := by
  simp [List.getD_eq_getElem?_getD]

theorem getD_getLast (l : List (Nat × Nat × Nat)) (d : Nat × Nat × Nat) (h : 0 < l.length) :
    l.getLast? = some (l.getD (l.length - 1) d) := by
  rw [List.getLast?_eq_getElem?]
  simp [List.getD_eq_getElem?_getD, List.getElem?_eq_getElem (show l.length - 1 < l.length by omega)]

/-- A run the encoder has counted is a run `write_sectors` can encode. -/
theorem runOk_of_run (S : List Nat) (t count start : Nat) (ht : t ≤ 3) (hc1 : 1 ≤ count)
    (hc2 : count ≤ 2 ^ 31) (hlen : start + count * sectorsize.getD t 0 ≤ S.length)
    (hsec : 1 ≤ t → ∀ i, i < count →
      SectorRoundTrips t (S.drop (start + i * sectorsize.getD t 0))) :
    RunOk S (t, count, start) := by
  obtain ⟨record, hw, hd⟩ := write_sectors_decodes t count (S.drop start) ht hc1
    (by omega) (by rw [List.length_drop]; omega)
    (fun h1 i hi => by
      rw [List.drop_drop]
      have := hsec h1 i hi
      rw [Nat.add_comm] at this
      first | exact this | (rw [Nat.add_comm]; exact this))
  have hrb : run_bytes S (t, count, start) = record := by
    obtain ⟨inp1, ebuf1, _, e⟩ := hw [] sector_buffer_init (List.length_replicate ..)
    simp only [run_bytes, e, List.nil_append]
  refine ⟨ht, hc1, hc2, hlen, ?_, ?_⟩
  · intro out ebuf hb
    rw [hrb]
    exact hw out ebuf hb
  · rw [hrb]
    exact hd

/-- The records of runs that tile a prefix of the input are decoded to that prefix. -/
theorem decodes_runs (S : List Nat) (rs : List (Nat × Nat × Nat)) :
    (∀ r ∈ rs, RunOk S r) →
    (∀ i, i < rs.length → (rs.getD i (0, 0, 0)).2.2 = runs_size (rs.take i)) →
    Decodes rs.length (runs_bytes S rs) (S.take (runs_size rs)) := by
  induction rs using List.reverseRecOn with
  | nil =>
    intro _ _
    simpa [runs_bytes, runs_size] using decodes_nil
  | append_singleton l r ih =>
    intro hok htile
    have h1 := ih (fun x hx => hok x (List.mem_append_left _ hx)) (fun i hi => by
      have := htile i (by simp; omega)
      rw [getD_snoc_lt _ _ _ _ hi, List.take_append_of_le_length (by omega)] at this
      exact this)
    have hr := hok r (by simp)
    have hst : r.2.2 = runs_size l := by
      have := htile l.length (by simp)
      rw [getD_snoc_eq, List.take_left'] at this
      · exact this
      · rfl
    have h2 := hr.2.2.2.2.2
    rw [hst] at h2
    have := decodes_append l.length 1 _ _ _ _ h1 h2
    rw [runs_bytes_append, runs_bytes_single, runs_size_append, runs_size_single,
      List.length_append, List.length_singleton, List.take_add]
    exact this

end Ecm
namespace Ecm

/-! ## The classification step -/

theorem ecmify_detect_empty (st : EcmState) (h0 : st.queue_bytes_available = 0) :
    ecmify_detect st = (-1, st.literal_skip) := by
  unfold ecmify_detect
  rw [if_pos h0]

theorem detect_sector_size (X : List Nat) (a : Nat) (h : 1 ≤ detect_sector X a) :
    sectorsize.getD (detect_sector X a) 0 ≤ a := by
  have h4 := detect_sector_lt X a
  generalize ht : detect_sector X a = t at h h4
  have h123 : t = 1 ∨ t = 2 ∨ t = 3 := by omega
  rcases h123 with rfl | rfl | rfl
  · rw [sectorsize_1]
    exact ((mode1_shape_iff X a).1 ((detect_sector_eq_1 X a).1 ht).1).1
  · rw [sectorsize_2]
    exact ((mode2_shape_iff X a).1 ((detect_sector_eq_2 X a).1 ht).2.1).1
  · rw [sectorsize_3]
    exact ((mode2_shape_iff X a).1 ((detect_sector_eq_3 X a).1 ht).2.1).1

theorem sectorsize_pos (t : Nat) (ht : t ≤ 3) : 1 ≤ sectorsize.getD t 0 := by
  have h : t = 0 ∨ t = 1 ∨ t = 2 ∨ t = 3 := by omega
  rcases h with rfl | rfl | rfl | rfl <;> decide

/-- The classification step on a non-empty queue: a type in 0..3 whose unit
fits in the queue and, for a sector type, a sector of the input that survives
the codec. -/
theorem ecmify_detect_spec (S : List Nat) (st : EcmState) (hb : ∀ b ∈ S, b < 256)
    (h : EcmInv S st) (h0 : st.queue_bytes_available ≠ 0) :
    ∃ t : Nat, (ecmify_detect st).1 = (t : Int) ∧ t ≤ 3 ∧
      sectorsize.getD t 0 ≤ st.queue_bytes_available ∧ (ecmify_detect st).2 ≤ 15 ∧
      (0 < (ecmify_detect st).2 → t = 0) ∧
      (1 ≤ t → SectorRoundTrips t (S.drop st.input_bytes_checked)) := by
  have hskip := h.skip_le
  unfold ecmify_detect
  rw [if_neg h0]
  split_ifs with h1 h2
  · exact ⟨0, rfl, by omega, by rw [sectorsize_0]; omega, by simp only []; omega,
      fun _ => rfl, fun h => absurd h (by omega)⟩
  · exact ⟨0, rfl, by omega, by rw [sectorsize_0]; omega, le_refl _,
      fun _ => rfl, fun h => absurd h (by omega)⟩
  · have h4 := detect_sector_lt (st.queue.drop st.queue_start_ofs) st.queue_bytes_available
    refine ⟨detect_sector (st.queue.drop st.queue_start_ofs) st.queue_bytes_available, rfl,
      by omega, ?_, hskip, fun hpos => absurd hpos h1, ?_⟩
    · by_cases hz : 1 ≤ detect_sector (st.queue.drop st.queue_start_ofs)
          st.queue_bytes_available
      · exact detect_sector_size _ _ hz
      · have : detect_sector (st.queue.drop st.queue_start_ofs) st.queue_bytes_available = 0 := by
          omega
        rw [this, sectorsize_0]
        omega
    · intro ht
      have hc : detect_sector (S.drop st.input_bytes_checked) st.queue_bytes_available
          = detect_sector (st.queue.drop st.queue_start_ofs) st.queue_bytes_available :=
        detect_sector_congr _ _ _ (fun i hi => by
          rw [getD_drop, getD_drop]
          exact (h.queue_ok i hi).symm)
      have e1 := h.queued_eq
      have e2 := h.queued_le
      exact sector_roundtrip _ st.queue_bytes_available (S.drop st.input_bytes_checked)
        (fun b hb1 => hb b (List.mem_of_mem_drop hb1))
        (by rw [List.length_drop]; omega) hc ht

/-! ## Flushing a run -/

/-- The run-aggregation step when it flushes: the state it produces. -/
theorem ecmify_flush_spec (S : List Nat) (st : EcmState) (d : Int) (skip : Nat)
    (h : EcmInv S st)
    (hn : ¬ (d = st.curtype ∧ st.curtype_count ≤ 0x7FFFFFFF)) :
    ∃ (buf2 : List Nat) (F : List (Nat × Nat × Nat)),
      buf2.length = 2352 ∧
      F = st.flushed ++
        (if 0 < st.curtype_count then
          [(st.curtype.toNat, st.curtype_count, st.curtype_in_start)] else []) ∧
      ecmify_aggregate S d { st with literal_skip := skip } = .ok { st with
        literal_skip := skip
        out := [0x45, 0x43, 0x4D, 0x00] ++ runs_bytes S F
        sector_buffer := buf2
        flushed := F
        curtype := d
        curtype_in_start := st.input_bytes_checked
        curtype_count := 1 } ∧
      (∀ r ∈ F, RunOk S r) ∧
      (∀ i, i < F.length → (F.getD i (0, 0, 0)).2.2 = runs_size (F.take i)) ∧
      st.input_bytes_checked = runs_size F ∧
      (∀ i, i + 1 < F.length →
        (F.getD i (0, 0, 0)).1 ≠ (F.getD (i + 1) (0, 0, 0)).1 ∨
        (F.getD i (0, 0, 0)).2.1 = 2 ^ 31) ∧
      (∀ r, F.getLast? = some r → ((r.1 : Nat) : Int) ≠ d ∨ r.2.1 = 2 ^ 31) := by
  rcases h.run_ok with ⟨hc, hcnt, hchk, hstart, hfl⟩ | ⟨t, hc, ht, hc1, hc2, hchk, hsec⟩
  · -- nothing to flush
    refine ⟨st.sector_buffer, st.flushed, h.buf_len, by rw [hcnt]; simp, ?_, h.runs_ok,
      h.tile_ok.1, by rw [hchk, hfl]; rfl, h.adj_ok.1, ?_⟩
    · rw [ecmify_aggregate_first S d { st with literal_skip := skip } hn hcnt, ← h.out_ok]
    · intro r hr
      rw [hfl] at hr
      simp at hr
  · have e1 := h.queued_eq
    have e2 := h.queued_le
    have hrun : RunOk S (t, st.curtype_count, st.curtype_in_start) :=
      runOk_of_run S t _ _ ht hc1 hc2 (by omega) hsec
    obtain ⟨inp1, ebuf1, hb1, hw⟩ := hrun.2.2.2.2.1 st.out st.sector_buffer h.buf_len
    have htn : st.curtype.toNat = t := by rw [hc]; exact Int.toNat_ofNat t
    have hF : st.flushed ++ (if 0 < st.curtype_count then
        [(st.curtype.toNat, st.curtype_count, st.curtype_in_start)] else [])
        = st.flushed ++ [(t, st.curtype_count, st.curtype_in_start)] := by
      rw [if_pos (by omega), htn]
    refine ⟨ebuf1, _, hb1, hF.symm, ?_, ?_, ?_, ?_, ?_, ?_⟩
    · have hw2 : write_sectors st.curtype.toNat st.curtype_count
          ⟨S.drop st.curtype_in_start, st.out, st.sector_buffer⟩
          = .ok ⟨inp1, st.out ++ run_bytes S (t, st.curtype_count, st.curtype_in_start),
              ebuf1⟩ := by
        rw [htn]
        exact hw
      rw [ecmify_aggregate_flush S d { st with literal_skip := skip } hn
        (show 0 < st.curtype_count by omega) _ hw2]
      simp only [htn, h.out_ok, runs_bytes_append, runs_bytes_single, List.append_assoc]
    · intro r hr
      rcases List.mem_append.1 hr with hr | hr
      · exact h.runs_ok r hr
      · simp only [List.mem_singleton] at hr
        rw [hr]
        exact hrun
    · intro i hi
      rw [List.length_append, List.length_singleton] at hi
      by_cases hl : i < st.flushed.length
      · rw [getD_snoc_lt _ _ _ _ hl, List.take_append_of_le_length (by omega)]
        exact h.tile_ok.1 i hl
      · have : i = st.flushed.length := by omega
        rw [this, getD_snoc_eq, List.take_left']
        · exact h.tile_ok.2
        · rfl
    · rw [runs_size_append, runs_size_single, ← h.tile_ok.2, hchk]
      rfl
    · intro i hi
      rw [List.length_append, List.length_singleton] at hi
      by_cases hl : i + 1 < st.flushed.length
      · rw [getD_snoc_lt _ _ _ _ hl, getD_snoc_lt _ _ _ _ (by omega)]
        exact h.adj_ok.1 i hl
      · have hi1 : i + 1 = st.flushed.length := by omega
        rw [hi1, getD_snoc_eq, getD_snoc_lt _ _ _ _ (by omega)]
        have hlast := h.adj_ok.2 _ (getD_getLast st.flushed (0, 0, 0) (by omega))
        have hidx : st.flushed.length - 1 = i := by omega
        rw [hidx, hc] at hlast
        rcases hlast with hl1 | hl1
        · left
          intro heq
          apply hl1
          simp only at heq
          rw [heq]
        · right
          exact hl1
    · intro r hr
      simp at hr
      rw [← hr]
      simp only
      by_cases hd : d = st.curtype
      · right
        have : ¬ st.curtype_count ≤ 0x7FFFFFFF := fun hle => hn ⟨hd, hle⟩
        omega
      · left
        rw [← hc]
        exact fun heq => hd heq.symm

end Ecm
namespace Ecm

/-! ## One round of the main loop of `ecmify` -/

theorem ecmify_iter_of_refill (S : List Nat) (st st1 st2 : EcmState)
    (hr : ecmify_refill S st = .ok st1)
    (ha : ecmify_aggregate S (ecmify_detect st1).1
      { st1 with literal_skip := (ecmify_detect st1).2 } = .ok st2) :
    ecmify_iter S st =
      if st2.curtype < 0 then .ok (st2, true)
      else .ok ({ st2 with
        input_bytes_checked := st2.input_bytes_checked + sectorsize.getD st2.curtype.toNat 0
        queue_start_ofs := st2.queue_start_ofs + sectorsize.getD st2.curtype.toNat 0
        queue_bytes_available :=
          st2.queue_bytes_available - sectorsize.getD st2.curtype.toNat 0 }, false) := by
  unfold ecmify_iter
  rw [hr]
  simp only [ha]

/-- The last round: the queue is empty after the refill step, the current run is
flushed and the loop is left. -/
theorem ecmify_round_break (S : List Nat) (st : EcmState) (h : EcmInv S st)
    (h0 : st.queue_bytes_available = 0)
    (hfull : 2352 ≤ st.queue_bytes_available ∨
      S.length - st.input_bytes_queued ≤ st.queue_bytes_available) (skip : Nat) :
    ∃ st2, ecmify_aggregate S (-1) { st with literal_skip := skip } = .ok st2 ∧
      st2.curtype = -1 ∧ EcmPost S st2 ∧
      st2.flushed = st.flushed ++
        (if 0 < st.curtype_count then
          [(st.curtype.toNat, st.curtype_count, st.curtype_in_start)] else []) := by
  have e1 := h.queued_eq
  have e2 := h.queued_le
  have hchk : st.input_bytes_checked = S.length := by omega
  have hq : st.input_bytes_queued = S.length := by omega
  by_cases hsame : (-1 : Int) = st.curtype ∧ st.curtype_count ≤ 0x7FFFFFFF
  · rcases h.run_ok with ⟨hc, hcnt, hchk0, hstart, hfl⟩ | ⟨t, hc, _⟩
    · refine ⟨_, ecmify_aggregate_same S (-1) { st with literal_skip := skip } hsame.1 hsame.2,
        hc, ?_, by rw [hcnt]; simp⟩
      exact {
        runs_ok := h.runs_ok
        tile_ok := ⟨h.tile_ok.1, by
          show runs_size st.flushed = S.length
          rw [hfl, ← hchk, hchk0]; rfl⟩
        adj_ok := h.adj_ok.1
        out_ok := h.out_ok
        edc_ok := by
          show st.input_edc = edc_compute 0 S S.length
          rw [h.edc_ok, hq]
        buf_len := h.buf_len
        checked_eq := hchk }
    · have := hsame.1
      rw [hc] at this
      omega
  · obtain ⟨buf2, F, hb2, hF, hagg, hruns, htile, htot, hadj, _⟩ :=
      ecmify_flush_spec S st (-1) skip h hsame
    refine ⟨_, hagg, rfl, ?_, hF⟩
    exact {
      runs_ok := hruns
      tile_ok := ⟨htile, by
        show runs_size F = S.length
        rw [← htot, hchk]⟩
      adj_ok := hadj
      out_ok := rfl
      edc_ok := by
        show st.input_edc = edc_compute 0 S S.length
        rw [h.edc_ok, hq]
      buf_len := hb2
      checked_eq := hchk }

/-- A round that classifies a unit of type `t`: the unit is counted in the current
run, or the current run is flushed and a new one started, and the queue advances by
the size of the unit. -/
theorem ecmify_round_step (S : List Nat) (st : EcmState) (t skip : Nat) (h : EcmInv S st)
    (ht : t ≤ 3) (hsz : sectorsize.getD t 0 ≤ st.queue_bytes_available) (hskip : skip ≤ 15)
    (hsk : 0 < skip → t = 0)
    (hsec : 1 ≤ t → SectorRoundTrips t (S.drop st.input_bytes_checked)) :
    ∃ st2, ecmify_aggregate S (t : Int) { st with literal_skip := skip } = .ok st2 ∧
      st2.curtype = (t : Int) ∧
      st2.queue = st.queue ∧ st2.queue_start_ofs = st.queue_start_ofs ∧
      st2.queue_bytes_available = st.queue_bytes_available ∧
      st2.input_bytes_checked = st.input_bytes_checked ∧
      st2.input_bytes_queued = st.input_bytes_queued ∧ st2.literal_skip = skip ∧
      (((t : Int) = st.curtype ∧ st.curtype_count ≤ 0x7FFFFFFF ∧
          st2.curtype_count = st.curtype_count + 1 ∧
          st2.curtype_in_start = st.curtype_in_start ∧ st2.flushed = st.flushed) ∨
        (¬ ((t : Int) = st.curtype ∧ st.curtype_count ≤ 0x7FFFFFFF) ∧
          st2.curtype_count = 1 ∧ st2.curtype_in_start = st.input_bytes_checked ∧
          st2.flushed = st.flushed ++
            (if 0 < st.curtype_count then
              [(st.curtype.toNat, st.curtype_count, st.curtype_in_start)] else []))) ∧
      EcmInv S { st2 with
        input_bytes_checked := st2.input_bytes_checked + sectorsize.getD t 0
        queue_start_ofs := st2.queue_start_ofs + sectorsize.getD t 0
        queue_bytes_available := st2.queue_bytes_available - sectorsize.getD t 0 } := by
  have e1 := h.queued_eq
  have e2 := h.queued_le
  have hql := h.queue_len
  have hqc := h.queue_cap
  have hqok : ∀ i, i < st.queue_bytes_available - sectorsize.getD t 0 →
      st.queue.getD (st.queue_start_ofs + sectorsize.getD t 0 + i) 0
        = S.getD (st.input_bytes_checked + sectorsize.getD t 0 + i) 0 := by
    intro i hi
    have := h.queue_ok (sectorsize.getD t 0 + i) (by omega)
    rw [← Nat.add_assoc, ← Nat.add_assoc] at this
    exact this
  by_cases hsame : (t : Int) = st.curtype ∧ st.curtype_count ≤ 0x7FFFFFFF
  · rcases h.run_ok with ⟨hc, _⟩ | ⟨t0, hc, ht0, hc1, hc2, hchk, hsec0⟩
    · have := hsame.1
      rw [hc] at this
      omega
    · have htt : t0 = t := by
        have := hsame.1
        rw [hc] at this
        omega
      subst htt
      refine ⟨_, ecmify_aggregate_same S _ { st with literal_skip := skip } hsame.1 hsame.2,
        hc, rfl, rfl, rfl, rfl, rfl, rfl, Or.inl ⟨hsame.1, hsame.2, rfl, rfl, rfl⟩, ?_⟩
      exact {
        queue_ok := fun i hi => hqok i hi
        queue_len := by simp only []; omega
        queue_cap := by simp only []; omega
        queued_eq := by simp only []; omega
        queued_le := e2
        edc_ok := h.edc_ok
        buf_len := h.buf_len
        skip_le := hskip
        skip_run := fun hpos => by
          show st.curtype = 0
          rw [hc, hsk hpos]
          rfl
        run_ok := Or.inr ⟨t0, hc, ht0, by simp only []; omega, by simp only []; omega, by
            simp only []
            rw [hchk, Nat.add_mul, Nat.one_mul, Nat.add_assoc], by
            intro h1 i hi
            simp only [] at hi ⊢
            by_cases hlt : i < st.curtype_count
            · exact hsec0 h1 i hlt
            · have : i = st.curtype_count := by omega
              rw [this, ← hchk]
              exact hsec h1⟩
        runs_ok := h.runs_ok
        tile_ok := h.tile_ok
        adj_ok := h.adj_ok
        out_ok := h.out_ok }
  · obtain ⟨buf2, F, hb2, hF, hagg, hruns, htile, htot, hadj, hlast⟩ :=
      ecmify_flush_spec S st (t : Int) skip h hsame
    refine ⟨_, hagg, rfl, rfl, rfl, rfl, rfl, rfl, rfl, Or.inr ⟨hsame, rfl, rfl, hF⟩, ?_⟩
    exact {
      queue_ok := fun i hi => hqok i hi
      queue_len := by simp only []; omega
      queue_cap := by simp only []; omega
      queued_eq := by simp only []; omega
      queued_le := e2
      edc_ok := h.edc_ok
      buf_len := hb2
      skip_le := hskip
      skip_run := fun hpos => by
        show (t : Int) = 0
        rw [hsk hpos]
        rfl
      run_ok := Or.inr ⟨t, rfl, ht, le_refl _, by norm_num, by simp only []; omega, by
          intro h1 i hi
          simp only [] at hi ⊢
          have : i = 0 := by omega
          rw [this, Nat.zero_mul, Nat.add_zero]
          exact hsec h1⟩
      runs_ok := hruns
      tile_ok := ⟨htile, htot⟩
      adj_ok := ⟨hadj, hlast⟩
      out_ok := rfl }

end Ecm
namespace Ecm

/-! ## The main loop of `ecmify` -/

theorem ecmify_init_inv (S : List Nat) : EcmInv S ecmify_init where
  queue_ok := fun i hi => absurd hi (Nat.not_lt_zero _)
  queue_len := Nat.zero_le _
  queue_cap := Nat.zero_le _
  queued_eq := rfl
  queued_le := Nat.zero_le _
  edc_ok := rfl
  buf_len := List.length_replicate ..
  skip_le := Nat.zero_le _
  skip_run := fun h => absurd h (Nat.lt_irrefl 0)
  run_ok := Or.inl ⟨rfl, rfl, rfl, rfl, rfl⟩
  runs_ok := fun r hr => absurd hr (List.not_mem_nil r)
  tile_ok := ⟨fun i hi => absurd hi (Nat.not_lt_zero _), rfl⟩
  adj_ok := ⟨fun i hi => absurd hi (Nat.not_lt_zero _), fun r hr => by simp [ecmify_init] at hr⟩
  out_ok := rfl

/-- One round of the main loop from a state that satisfies the invariant: after
the refill step either the queue is empty, and the round leaves the loop in a
state that satisfies the postcondition, or a unit of a type `t` is classified, and
the round ends in a state that satisfies the invariant, `sectorsize[t]` bytes
further in the input. -/
theorem ecmify_iter_spec (S : List Nat) (st : EcmState) (hb : ∀ b ∈ S, b < 256)
    (h : EcmInv S st) :
    ∃ st1, ecmify_refill S st = .ok st1 ∧ EcmInv S st1 ∧
      st1.input_bytes_checked = st.input_bytes_checked ∧
      ((st1.queue_bytes_available = 0 ∧ st.input_bytes_checked = S.length ∧
          ∃ st2, ecmify_iter S st = .ok (st2, true) ∧ st2.curtype = -1 ∧ EcmPost S st2 ∧
            st2.flushed = st.flushed ++
              (if 0 < st.curtype_count then
                [(st.curtype.toNat, st.curtype_count, st.curtype_in_start)] else [])) ∨
        (st1.queue_bytes_available ≠ 0 ∧ st.input_bytes_checked < S.length ∧
          ∃ (st2 : EcmState) (t : Nat), t ≤ 3 ∧ (ecmify_detect st1).1 = (t : Int) ∧
            ecmify_iter S st = .ok (st2, false) ∧ EcmInv S st2 ∧
            st2.curtype = (t : Int) ∧ st2.literal_skip = (ecmify_detect st1).2 ∧
            st2.input_bytes_checked = st.input_bytes_checked + sectorsize.getD t 0 ∧
            sectorsize.getD t 0 ≤ st1.queue_bytes_available ∧
            st2.queue_bytes_available = st1.queue_bytes_available - sectorsize.getD t 0 ∧
            st2.queue_start_ofs = st1.queue_start_ofs + sectorsize.getD t 0 ∧
            st2.queue = st1.queue ∧ st2.input_bytes_queued = st1.input_bytes_queued ∧
            (((t : Int) = st.curtype ∧ st.curtype_count ≤ 0x7FFFFFFF ∧
                st2.curtype_count = st.curtype_count + 1 ∧
                st2.curtype_in_start = st.curtype_in_start ∧ st2.flushed = st.flushed) ∨
              (¬ ((t : Int) = st.curtype ∧ st.curtype_count ≤ 0x7FFFFFFF) ∧
                st2.curtype_count = 1 ∧ st2.curtype_in_start = st.input_bytes_checked ∧
                st2.flushed = st.flushed ++
                  (if 0 < st.curtype_count then
                    [(st.curtype.toNat, st.curtype_count, st.curtype_in_start)]
                  else []))))) := by
  obtain ⟨st1, hr, h1, c1, c2, c3, c4, c5, c6, c7, c8, hfull, _, _⟩ := ecmify_refill_spec S st h
  have e1 := h1.queued_eq
  have e2 := h1.queued_le
  refine ⟨st1, hr, h1, c5, ?_⟩
  by_cases h0 : st1.queue_bytes_available = 0
  · left
    obtain ⟨st2, hagg, hcur, hpost, hfl⟩ :=
      ecmify_round_break S st1 h1 h0 hfull (ecmify_detect st1).2
    refine ⟨h0, by omega, st2, ?_, hcur, hpost, by rw [hfl, c1, c2, c3, c8]⟩
    have hd : (ecmify_detect st1).1 = -1 := by rw [ecmify_detect_empty st1 h0]
    rw [ecmify_iter_of_refill S st st1 st2 hr (by rw [hd]; exact hagg), hcur]
    rfl
  · right
    obtain ⟨t, hd, ht, hsz, hskip, hsk, hsec⟩ := ecmify_detect_spec S st1 hb h1 h0
    obtain ⟨st2, hagg, hcur, q1, q2, q3, q4, q5, q6, hcase, hinv⟩ :=
      ecmify_round_step S st1 t (ecmify_detect st1).2 h1 ht hsz hskip hsk hsec
    have hiter := ecmify_iter_of_refill S st st1 st2 hr (by rw [hd]; exact hagg)
    have hnn : ¬ (st2.curtype < 0) := by rw [hcur]; omega
    have htn : st2.curtype.toNat = t := by rw [hcur]; exact Int.toNat_ofNat t
    rw [if_neg hnn, htn] at hiter
    refine ⟨h0, by omega, _, t, ht, hd, hiter, hinv, hcur, q6, ?_, hsz, ?_, ?_, q1, q5, ?_⟩
    · show st2.input_bytes_checked + sectorsize.getD t 0 = _
      rw [q4, c5]
    · show st2.queue_bytes_available - sectorsize.getD t 0 = _
      rw [q3]
    · show st2.queue_start_ofs + sectorsize.getD t 0 = _
      rw [q2]
    · rw [c1, c2, c3, c5, c8] at hcase
      exact hcase

/-- The main loop of `ecmify` ends, within as many rounds as bytes are left to
check plus one, in a state that satisfies the postcondition. -/
theorem ecmify_loop_spec (S : List Nat) (hb : ∀ b ∈ S, b < 256) :
    ∀ (fuel : Nat) (st : EcmState), EcmInv S st → S.length - st.input_bytes_checked < fuel →
      ∃ st1, ecmify_loop S fuel st = .ok st1 ∧ EcmPost S st1 := by
  intro fuel
  induction fuel with
  | zero => intro st _ hf; omega
  | succ fuel ih =>
    intro st h hf
    obtain ⟨st1, _, _, _, hcase⟩ := ecmify_iter_spec S st hb h
    rcases hcase with ⟨_, _, st2, hiter, _, hpost, _⟩ | ⟨_, hlt, st2, t, ht, _, hiter, hinv, _, _,
      hchk, _⟩
    · refine ⟨st2, ?_, hpost⟩
      simp only [ecmify_loop, hiter]
    · have hpos := sectorsize_pos t ht
      obtain ⟨st3, hl, hp⟩ := ih st2 hinv (by omega)
      refine ⟨st3, ?_, hp⟩
      simp only [ecmify_loop, hiter]
      exact hl

theorem take_put32lsb (buf : List Nat) (v : Nat) (h : 4 ≤ buf.length) :
    ((put32lsb buf 0 v).drop 0).take 4 = le32 v := by
  apply ext_getD
  · rw [List.drop_zero, List.length_take, length_put32lsb]
    simp only [le32, List.length_cons, List.length_nil]
    omega
  · intro i hi
    rw [List.drop_zero, List.length_take, length_put32lsb] at hi
    rw [List.drop_zero, getD_take _ _ _ (by omega), getD_put32lsb _ _ _ _ (by omega)]
    have : i = 0 ∨ i = 1 ∨ i = 2 ∨ i = 3 := by omega
    rcases this with rfl | rfl | rfl | rfl <;> rfl

theorem get32lsb_le32 (v : Nat) (hv : v < 2 ^ 32) (tail : List Nat) :
    get32lsb (le32 v ++ tail) = v := by
  have h := get32lsb_put32lsb (List.replicate 4 0) 0 v (by simp) hv
  refine Eq.trans ?_ h
  apply get32lsb_congr
  intro k hk
  rw [getD_drop, getD_put32lsb _ _ _ _ (by simp)]
  have : k = 0 ∨ k = 1 ∨ k = 2 ∨ k = 3 := by omega
  rcases this with rfl | rfl | rfl | rfl <;> simp [le32]

/-- The function `ecmify` returns, and its output is the magic identifier, the
records of the runs it flushed, the end-of-records indicator and the EDC of the
input; the runs satisfy the postcondition of the main loop. -/
theorem ecmify_spec (S : List Nat) (hb : ∀ b ∈ S, b < 256) :
    ∃ st, ecmify_loop S (S.length + 1) ecmify_init = .ok st ∧ EcmPost S st ∧
      ecmify S = .ok ([0x45, 0x43, 0x4D, 0x00] ++ runs_bytes S st.flushed ++
        write_type_count 0 0 ++ le32 (edc_compute 0 S S.length)) := by
  obtain ⟨st, hl, hp⟩ := ecmify_loop_spec S hb (S.length + 1) ecmify_init (ecmify_init_inv S)
    (by omega)
  refine ⟨st, hl, hp, ?_⟩
  simp only [ecmify, ecmify_fuel, hl, ecmify_finish, fwrite]
  rw [take_put32lsb _ _ (by rw [hp.buf_len]; norm_num), hp.out_ok, hp.edc_ok]

end Ecm
namespace Ecm

/-! ## Decoding an encoded stream -/

theorem read_end_marker (tail : List Nat) :
    read_type_count (write_type_count 0 0 ++ tail) = .ok (0, 0xFFFFFFFF, tail) :=
  read_write_type_count 0 0xFFFFFFFF tail (by decide) (by decide)

theorem end_marker_eq : write_type_count 0 0 = [0xFC, 0xFF, 0xFF, 0xFF, 0x3F] := by decide

/-- The decoder on a stream made of the magic identifier, `k` records that decode
to `S`, the end-of-records indicator and a trailer `T` of at least four bytes: all
of `S` is written, and the result is success exactly when the first four bytes of
`T` are the little-endian EDC of `S`. -/
theorem unecmify_stream (S body T : List Nat) (k : Nat) (hdec : Decodes k body S)
    (hT : 4 ≤ T.length) :
    unecmify ([0x45, 0x43, 0x4D, 0x00] ++ body ++ write_type_count 0 0 ++ T) =
      if get32lsb T ≠ edc_compute 0 S S.length then
        ⟨1, some .checksum, some S, edc_compute 0 S S.length⟩
      else ⟨0, none, some S, edc_compute 0 S S.length⟩ := by
  have hk := hdec.1
  have hw : 1 ≤ (write_type_count 0 0).length := by rw [end_marker_eq]; decide
  generalize hlen : ([0x45, 0x43, 0x4D, 0x00] ++ body ++ write_type_count 0 0 ++ T).length = n
  have hn : k + 1 ≤ n := by
    rw [← hlen]
    simp only [List.length_append, List.length_cons, List.length_nil]
    omega
  obtain ⟨f, hf⟩ : ∃ f, n + 1 = (f + 1) + k := ⟨n - k, by omega⟩
  obtain ⟨dbuf1, hb1, q⟩ := hdec.2 (f + 1) (write_type_count 0 0 ++ T) [] 0 sector_buffer_init
    (List.length_replicate ..)
  have hend := unecmify_loop_end f
    ⟨write_type_count 0 0 ++ T, [] ++ S, edc_compute 0 S S.length, dbuf1⟩ 0 T (read_end_marker T)
  have hg : get32lsb (dbuf1.take 0 ++ (T.take 4 ++ dbuf1.drop (0 + 4))) = get32lsb T := by
    apply get32lsb_congr
    intro i hi
    rw [getD_splice _ _ _ _ _ (by rw [List.length_take]; omega) (by omega), if_pos (by omega),
      getD_take _ _ _ (by omega)]
    rfl
  unfold unecmify unecmify_fuel
  rw [hlen, List.append_assoc, List.append_assoc, header_missing_magic]
  simp only [Bool.false_eq_true, if_false]
  rw [hf, q, hend]
  simp only [List.nil_append, fread_some _ _ _ _ hT, hg]

end Ecm
namespace Ecm

/-! ## States reached by the main loop of `ecmify` -/

theorem ecmify_steps_inv (S : List Nat) (hb : ∀ b ∈ S, b < 256) :
    ∀ (n : Nat) (st0 st : EcmState), EcmInv S st0 → ecmify_steps S n st0 = some st →
      EcmInv S st ∧ st0.input_bytes_checked + n ≤ st.input_bytes_checked := by
  intro n
  induction n with
  | zero =>
    intro st0 st h hs
    simp only [ecmify_steps, Option.some.injEq] at hs
    rw [← hs]
    exact ⟨h, le_refl _⟩
  | succ n ih =>
    intro st0 st h hs
    obtain ⟨st1, _, _, _, hcase⟩ := ecmify_iter_spec S st0 hb h
    rcases hcase with ⟨_, _, st2, hiter, _⟩ | ⟨_, _, st2, t, ht, _, hiter, hinv, _, _, hchk, _⟩
    · simp only [ecmify_steps, hiter] at hs
      exact absurd hs (by simp)
    · simp only [ecmify_steps, hiter] at hs
      obtain ⟨h2, hle⟩ := ih st2 st hinv hs
      have := sectorsize_pos t ht
      exact ⟨h2, by omega⟩

theorem ecmify_reach_inv (S : List Nat) (hb : ∀ b ∈ S, b < 256) (n : Nat) (st : EcmState)
    (hs : ecmify_steps S n ecmify_init = some st) :
    EcmInv S st ∧ n ≤ st.input_bytes_checked := by
  have := ecmify_steps_inv S hb n ecmify_init st (ecmify_init_inv S) hs
  refine ⟨this.1, ?_⟩
  have h0 : ecmify_init.input_bytes_checked = 0 := rfl
  omega

theorem le32_lt (v k : Nat) : (le32 v).getD k 0 < 256 := by
  rcases k with _ | _ | _ | _ | k
  · exact Nat.mod_lt _ (by norm_num)
  · exact Nat.mod_lt _ (by norm_num)
  · exact Nat.mod_lt _ (by norm_num)
  · exact Nat.mod_lt _ (by norm_num)
  · simp [le32]

theorem le32_length (v : Nat) : (le32 v).length = 4 := rfl

theorem get32lsb_ne_of_ne (T : List Nat) (v : Nat) (hT : T.length = 4) (hTb : ∀ b ∈ T, b < 256)
    (hv : v < 2 ^ 32) (hne : T ≠ le32 v) : get32lsb T ≠ v := by
  intro h
  apply hne
  have h2 := get32lsb_le32 v hv []
  rw [List.append_nil] at h2
  have := get32lsb_inj T (le32 v) (fun k _ => getD_lt_of_forall T hTb k)
    (fun k _ => le32_lt v k) (by rw [h, h2])
  apply ext_getD
  · rw [hT, le32_length]
  · intro i hi
    exact this i (by omega)

/-- The encoder output is decoded to the input: the shape of `ecmify S` and what
`unecmify` does with it. -/
theorem codec_spec (S : List Nat) (hb : ∀ b ∈ S, b < 256) :
    ∃ (st : EcmState) (body : List Nat) (k : Nat),
      ecmify_loop S (S.length + 1) ecmify_init = .ok st ∧ EcmPost S st ∧
      body = [0x45, 0x43, 0x4D, 0x00] ++ runs_bytes S st.flushed ++ write_type_count 0 0 ∧
      ecmify S = .ok (body ++ le32 (edc_compute 0 S S.length)) ∧
      Decodes k (runs_bytes S st.flushed) S ∧
      ∀ T : List Nat, 4 ≤ T.length →
        unecmify (body ++ T) =
          if get32lsb T ≠ edc_compute 0 S S.length then
            ⟨1, some .checksum, some S, edc_compute 0 S S.length⟩
          else ⟨0, none, some S, edc_compute 0 S S.length⟩ := by
  obtain ⟨st, hl, hp, he⟩ := ecmify_spec S hb
  have hdec := decodes_runs S st.flushed hp.runs_ok hp.tile_ok.1
  rw [hp.tile_ok.2, List.take_length] at hdec
  refine ⟨st, _, _, hl, hp, rfl, he, hdec, ?_⟩
  intro T hT
  exact unecmify_stream S _ T _ hdec hT

end Ecm
namespace Ecm

/-! ## The output name derived by `main`: lemmas -/

theorem decode_outname_suffix (pre : List Char) (a b c d : Char) (ha : a = '.')
    (hb : tolower b = 'e') (hc : tolower c = 'c') (hd : tolower d = 'm') :
    decode_outname (pre ++ [a, b, c, d])
      = if pre = [] then [a, b, c, d] ++ ['.', 'u', 'n', 'e', 'c', 'm'] else pre := by
  have hl : (pre ++ [a, b, c, d]).length = pre.length + 4 := by simp
  have g : ∀ k, k < 4 → (pre ++ [a, b, c, d]).getD (pre.length + k) 'x' = [a, b, c, d].getD k 'x' := by
    intro k hk
    simp [List.getD_eq_getElem?_getD, List.getElem?_append_right]
  unfold decode_outname
  simp only [hl]
  by_cases hp : pre = []
  · subst hp
    simp
  · have hpos : 0 < pre.length := List.length_pos.2 hp
    have e4 : pre.length + 4 - 4 = pre.length + 0 := by omega
    have e3 : pre.length + 4 - 3 = pre.length + 1 := by omega
    have e2 : pre.length + 4 - 2 = pre.length + 2 := by omega
    have e1 : pre.length + 4 - 1 = pre.length + 3 := by omega
    rw [e4, e3, e2, e1, g 0 (by omega), g 1 (by omega), g 2 (by omega), g 3 (by omega),
      if_neg hp, if_pos]
    · simp
    · exact ⟨by omega, ha, hb, hc, hd⟩

theorem decode_outname_other (name : List Char) (h : ¬ ends_in_ecm name) :
    decode_outname name = name ++ ['.', 'u', 'n', 'e', 'c', 'm'] := by
  unfold decode_outname
  simp only []
  rw [if_neg]
  rintro ⟨hl, ha, hb, hc, hd⟩
  apply h
  refine ⟨name.take (name.length - 4), name.getD (name.length - 4) 'x',
    name.getD (name.length - 3) 'x', name.getD (name.length - 2) 'x',
    name.getD (name.length - 1) 'x', ?_, ha, hb, hc, hd⟩
  apply List.ext_getElem
  · simp; omega
  · intro i h1 h2
    by_cases hi : i < name.length - 4
    · rw [List.getElem_append_left (by simp; omega)]
      simp
    · rw [List.getElem_append_right (by simp; omega)]
      have hlen : (List.take (name.length - 4) name).length = name.length - 4 := by simp
      simp only [hlen]
      have : i - (name.length - 4) = 0 ∨ i - (name.length - 4) = 1 ∨ i - (name.length - 4) = 2 ∨
          i - (name.length - 4) = 3 := by omega
      rcases this with e | e | e | e
      · have : i = name.length - 4 := by omega
        subst this
        simp [List.getD_eq_getElem?_getD, List.getElem?_eq_getElem h1]
      · have : i = name.length - 3 := by omega
        subst this
        simp [e, List.getD_eq_getElem?_getD, List.getElem?_eq_getElem h1]
      · have : i = name.length - 2 := by omega
        subst this
        simp [e, List.getD_eq_getElem?_getD, List.getElem?_eq_getElem h1]
      · have : i = name.length - 1 := by omega
        subst this
        simp [e, List.getD_eq_getElem?_getD, List.getElem?_eq_getElem h1]

end Ecm
namespace Ecm

/-! ## The bytes of a run -/

theorem write_literals_out (fuel : Nat) : ∀ (count : Nat) (io io1 : Files),
    write_literals fuel count io = .ok io1 → ∃ P, io1.out = io.out ++ P := by
  induction fuel with
  | zero =>
    intro count io io1 h
    by_cases hc : count ≠ 0
    · simp [write_literals, hc] at h
    · simp only [write_literals, if_neg hc, Except.ok.injEq] at h
      exact ⟨[], by rw [← h, List.append_nil]⟩
  | succ fuel ih =>
    intro count io io1 h
    by_cases hc : count ≠ 0
    · simp only [write_literals, if_pos hc] at h
      cases hf : fread io.sector_buffer 0
          (if count > sector_buffer_size then sector_buffer_size else count) io.inp with
      | none => simp [hf] at h
      | some p =>
        obtain ⟨buf, inp⟩ := p
        simp only [hf] at h
        obtain ⟨P, hP⟩ := ih _ _ _ h
        exact ⟨_, by rw [hP]; simp only [fwrite, List.append_assoc]; rfl⟩
    · simp only [write_literals, if_neg hc, Except.ok.injEq] at h
      exact ⟨[], by rw [← h, List.append_nil]⟩

theorem write_sector_out (t : Nat) (io io1 : Files) (h : write_sector t io = .ok io1) :
    ∃ P, io1.out = io.out ++ P := by
  unfold write_sector at h
  split_ifs at h
  · cases hf : fread io.sector_buffer 0 2352 io.inp with
    | none => simp [hf] at h
    | some p =>
      simp only [hf, Except.ok.injEq] at h
      exact ⟨_, by rw [← h]; simp only [fwrite, List.append_assoc]; rfl⟩
  · cases hf : fread io.sector_buffer 0 2336 io.inp with
    | none => simp [hf] at h
    | some p =>
      simp only [hf, Except.ok.injEq] at h
      exact ⟨_, by rw [← h]; simp only [fwrite]; rfl⟩
  · cases hf : fread io.sector_buffer 0 2336 io.inp with
    | none => simp [hf] at h
    | some p =>
      simp only [hf, Except.ok.injEq] at h
      exact ⟨_, by rw [← h]; simp only [fwrite]; rfl⟩
  · simp only [Except.ok.injEq] at h
    exact ⟨[], by rw [← h, List.append_nil]⟩

theorem write_sector_loop_out (t : Nat) (count : Nat) : ∀ (io io1 : Files),
    write_sector_loop t count io = .ok io1 → ∃ P, io1.out = io.out ++ P := by
  induction count with
  | zero =>
    intro io io1 h
    simp only [write_sector_loop, Except.ok.injEq] at h
    exact ⟨[], by rw [← h, List.append_nil]⟩
  | succ count ih =>
    intro io io1 h
    simp only [write_sector_loop] at h
    cases hs : write_sector t io with
    | error e => simp [hs] at h
    | ok io2 =>
      simp only [hs] at h
      obtain ⟨P1, h1⟩ := write_sector_out t io io2 hs
      obtain ⟨P2, h2⟩ := ih io2 io1 h
      exact ⟨P1 ++ P2, by rw [h2, h1, List.append_assoc]⟩

/-- The record of a run starts with the bytes of `write_type_count`. -/
theorem run_bytes_header (S : List Nat) (r : Nat × Nat × Nat) (h : RunOk S r) :
    ∃ P, run_bytes S r = write_type_count r.1 r.2.1 ++ P := by
  obtain ⟨inp1, ebuf1, _, hw⟩ := h.2.2.2.2.1 [] sector_buffer_init (List.length_replicate ..)
  have hw2 := hw
  unfold write_sectors at hw2
  simp only [List.nil_append] at hw2
  by_cases h0 : r.1 = 0
  · rw [if_pos h0] at hw2
    obtain ⟨P, hP⟩ := write_literals_out _ _ _ _ hw2
    exact ⟨P, hP⟩
  · rw [if_neg h0] at hw2
    obtain ⟨P, hP⟩ := write_sector_loop_out _ _ _ _ hw2
    exact ⟨P, hP⟩

theorem run_bytes_literal (S : List Nat) (c start : Nat) (h : start + c ≤ S.length) :
    run_bytes S (0, c, start) = write_type_count 0 c ++ (S.drop start).take c := by
  obtain ⟨buf1, _, hw⟩ := write_literals_spec c c (S.drop start) (write_type_count 0 c)
    sector_buffer_init (le_refl _) (by rw [List.length_drop]; omega) (List.length_replicate ..)
  simp only [run_bytes, write_sectors, if_true, List.nil_append, hw]

end Ecm
namespace Ecm

/-! ## Runs of the main loop on an input without sectors -/

theorem ecmify_steps_succ (S : List Nat) : ∀ (n : Nat) (st0 st st2 : EcmState),
    ecmify_steps S n st0 = some st → ecmify_iter S st = .ok (st2, false) →
    ecmify_steps S (n + 1) st0 = some st2 := by
  intro n
  induction n with
  | zero =>
    intro st0 st st2 hs hi
    simp only [ecmify_steps, Option.some.injEq] at hs
    subst hs
    simp only [ecmify_steps, hi]
  | succ n ih =>
    intro st0 st st2 hs hi
    rw [ecmify_steps] at hs
    rw [ecmify_steps]
    cases h0 : ecmify_iter S st0 with
    | error e => simp [h0] at hs
    | ok p =>
      obtain ⟨sta, b⟩ := p
      cases b with
      | true => simp [h0] at hs
      | false =>
        simp only [h0] at hs ⊢
        exact ih sta st st2 hs hi

theorem ecmify_loop_of_steps (S : List Nat) : ∀ (n : Nat) (st0 st st2 : EcmState) (fuel : Nat),
    ecmify_steps S n st0 = some st → ecmify_iter S st = .ok (st2, true) → n < fuel →
    ecmify_loop S fuel st0 = .ok st2 := by
  intro n
  induction n with
  | zero =>
    intro st0 st st2 fuel hs hi hf
    simp only [ecmify_steps, Option.some.injEq] at hs
    subst hs
    obtain ⟨f, rfl⟩ : ∃ f, fuel = f + 1 := ⟨fuel - 1, by omega⟩
    simp only [ecmify_loop, hi]
  | succ n ih =>
    intro st0 st st2 fuel hs hi hf
    obtain ⟨f, rfl⟩ : ∃ f, fuel = f + 1 := ⟨fuel - 1, by omega⟩
    rw [ecmify_steps] at hs
    cases h0 : ecmify_iter S st0 with
    | error e => simp [h0] at hs
    | ok p =>
      obtain ⟨sta, b⟩ := p
      cases b with
      | true => simp [h0] at hs
      | false =>
        simp only [h0] at hs
        simp only [ecmify_loop, h0]
        exact ih sta st st2 f hs hi (by omega)

theorem sync_after_mode2_curtype (st : EcmState) (h : sync_after_mode2 st = true) :
    2 ≤ st.curtype ∧ 0x10 ≤ st.queue_bytes_available := by
  simp only [sync_after_mode2, Bool.and_eq_true, decide_eq_true_eq] at h
  exact ⟨by tauto, by tauto⟩

theorem ecmify_detect_call (st : EcmState) (h0 : st.queue_bytes_available ≠ 0)
    (hs : st.literal_skip = 0) (hc : st.curtype < 2) :
    ecmify_detect st
      = (((detect_sector (st.queue.drop st.queue_start_ofs) st.queue_bytes_available : Nat) :
          Int), 0) ∧
    detect_invoked st = true := by
  have hsync : sync_after_mode2 st = false := by
    rw [Bool.eq_false_iff]
    intro h
    have := (sync_after_mode2_curtype st h).1
    omega
  constructor
  · unfold ecmify_detect
    rw [if_neg h0, if_neg (by omega), hsync, hs]
    simp
  · simp [detect_invoked, h0, hs, hsync]

theorem ecmify_refill_facts (S : List Nat) (st st1 : EcmState) (h : EcmInv S st)
    (hr : ecmify_refill S st = .ok st1) :
    st1.curtype = st.curtype ∧ st1.literal_skip = st.literal_skip ∧
    st1.curtype_count = st.curtype_count ∧
    (2352 ≤ st1.queue_bytes_available ∨
      S.length - st1.input_bytes_queued ≤ st1.queue_bytes_available) ∧
    st1.queue_bytes_available = st.queue_bytes_available +
      (if st.queue_bytes_available < 2352 ∧
          st.queue_bytes_available < S.length - st.input_bytes_queued then
        min (S.length - st.input_bytes_queued) (queue_size - st.queue_bytes_available)
      else 0) ∧
    st1.input_bytes_queued = st.input_bytes_queued +
      (if st.queue_bytes_available < 2352 ∧
          st.queue_bytes_available < S.length - st.input_bytes_queued then
        min (S.length - st.input_bytes_queued) (queue_size - st.queue_bytes_available)
      else 0) := by
  obtain ⟨st1a, hra, _, c1, c2, _, c4, _, _, _, _, hfull, ha, hq⟩ := ecmify_refill_spec S st h
  rw [hr] at hra
  simp only [Except.ok.injEq] at hra
  subst hra
  exact ⟨c1, c4, c2, hfull, ha, hq⟩

/-- The main loop on an input on which `detect_sector` finds no sector: after `n`
rounds `n` literal bytes have been counted, in one run up to 2^31 of them, in a
second run after that. -/
theorem ecmify_literal_steps (S : List Nat) (hb : ∀ b ∈ S, b < 256)
    (hlit : ∀ st1, EcmInv S st1 → st1.queue_bytes_available ≠ 0 →
      detect_sector (st1.queue.drop st1.queue_start_ofs) st1.queue_bytes_available = 0) :
    ∀ n, n ≤ S.length → n ≤ 2 ^ 32 →
      ∃ st, ecmify_steps S n ecmify_init = some st ∧ st.input_bytes_checked = n ∧
        st.literal_skip = 0 ∧ (n = 0 → st.curtype = -1) ∧ (1 ≤ n → st.curtype = 0) ∧
        st.curtype_count = (if n ≤ 2 ^ 31 then n else n - 2 ^ 31) ∧
        st.flushed = (if n ≤ 2 ^ 31 then [] else [(0, 2 ^ 31, 0)]) ∧
        st.curtype_in_start = (if n ≤ 2 ^ 31 then 0 else 2 ^ 31) := by
  intro n
  induction n with
  | zero =>
    intro _ _
    exact ⟨ecmify_init, rfl, rfl, rfl, fun _ => rfl, fun h => absurd h (by omega), rfl, rfl, rfl⟩
  | succ n ih =>
    intro hn hn2
    obtain ⟨st, hs, hchk, hskip, hc0, hc1, hcnt, hfl, hst⟩ := ih (by omega) (by omega)
    obtain ⟨hinv, _⟩ := ecmify_reach_inv S hb n st hs
    obtain ⟨st1, hr, h1, hc, hcase⟩ := ecmify_iter_spec S st hb hinv
    obtain ⟨r1, r2, r3, _⟩ := ecmify_refill_facts S st st1 hinv hr
    rcases hcase with ⟨_, hlen, _⟩ | ⟨h0, _, st2, t, ht, hd, hiter, hinv2, hcur, hsk2, hchk2, _, _, _,
      _, _, hagg⟩
    · omega
    · have hlt2 : st1.curtype < 2 := by
        rw [r1]
        by_cases hz : n = 0
        · rw [hc0 hz]; omega
        · rw [hc1 (by omega)]; omega
      obtain ⟨hdet, _⟩ := ecmify_detect_call st1 h0 (by rw [r2, hskip]) hlt2
      rw [hlit st1 h1 h0] at hdet
      have ht0 : t = 0 := by
        rw [hdet] at hd
        simp only [Nat.cast_zero] at hd
        omega
      subst ht0
      rw [sectorsize_0] at hchk2
      have key : st2.curtype_count = (if n + 1 ≤ 2 ^ 31 then n + 1 else n + 1 - 2 ^ 31) ∧
          st2.flushed = (if n + 1 ≤ 2 ^ 31 then [] else [(0, 2 ^ 31, 0)]) ∧
          st2.curtype_in_start = (if n + 1 ≤ 2 ^ 31 then 0 else 2 ^ 31) := by
        rcases hagg with ⟨a1, a2, a3, a4, a5⟩ | ⟨a1, a3, a4, a5⟩
        · -- the byte is counted in the current run
          by_cases hle : n ≤ 2 ^ 31
          · rw [if_pos hle] at hcnt hfl hst
            have hle2 : n + 1 ≤ 2 ^ 31 := by omega
            rw [if_pos hle2, if_pos hle2, if_pos hle2, a3, a4, a5, hcnt, hfl, hst]
            exact ⟨rfl, rfl, rfl⟩
          · rw [if_neg hle] at hcnt hfl hst
            have hle2 : ¬ n + 1 ≤ 2 ^ 31 := by omega
            rw [if_neg hle2, if_neg hle2, if_neg hle2, a3, a4, a5, hcnt, hfl, hst]
            exact ⟨by omega, rfl, rfl⟩
        · -- a new run is started
          by_cases hz : n = 0
          · subst hz
            rw [if_pos (by norm_num)] at hcnt hfl hst
            rw [if_pos (by norm_num), if_pos (by norm_num), if_pos (by norm_num), a3, a4, a5,
              hfl, hcnt, hchk]
            exact ⟨rfl, rfl, rfl⟩
          · have hcur0 := hc1 (by omega)
            have hgt : ¬ st.curtype_count ≤ 0x7FFFFFFF := by
              intro hle
              exact a1 ⟨by rw [hcur0]; rfl, hle⟩
            have hn31 : n = 2 ^ 31 := by
              by_cases hle : n ≤ 2 ^ 31
              · rw [if_pos hle] at hcnt
                omega
              · rw [if_neg hle] at hcnt
                omega
            rw [if_pos (by omega)] at hcnt hfl hst
            have hle2 : ¬ n + 1 ≤ 2 ^ 31 := by omega
            rw [if_neg hle2, if_neg hle2, if_neg hle2, a3, a4, a5, hfl, hcnt, hst, hcur0, hchk,
              if_pos (by omega), hn31]
            exact ⟨by norm_num, rfl, rfl⟩
      exact ⟨st2, ecmify_steps_succ S n _ st st2 hs hiter, by omega, by rw [hsk2, hdet],
        fun h => absurd h (by omega), fun _ => hcur, key.1, key.2.1, key.2.2⟩

end Ecm
namespace Ecm

/-- The runs flushed for an input on which `detect_sector` finds no sector. -/
theorem ecmify_literal_result (S : List Nat) (hb : ∀ b ∈ S, b < 256)
    (hlit : ∀ st1, EcmInv S st1 → st1.queue_bytes_available ≠ 0 →
      detect_sector (st1.queue.drop st1.queue_start_ofs) st1.queue_bytes_available = 0)
    (hn : S.length ≤ 2 ^ 32) :
    ∃ st, ecmify_loop S (S.length + 1) ecmify_init = .ok st ∧
      st.flushed = (if S.length = 0 then []
        else if S.length ≤ 2 ^ 31 then [(0, S.length, 0)]
        else [(0, 2 ^ 31, 0), (0, S.length - 2 ^ 31, 2 ^ 31)]) := by
  obtain ⟨st, hs, hchk, hskip, hc0, hc1, hcnt, hfl, hst⟩ :=
    ecmify_literal_steps S hb hlit S.length (le_refl _) hn
  obtain ⟨hinv, _⟩ := ecmify_reach_inv S hb _ st hs
  obtain ⟨st1, hr, h1, hc, hcase⟩ := ecmify_iter_spec S st hb hinv
  rcases hcase with ⟨_, _, st2, hiter, _, _, hfl2⟩ | ⟨_, hlt, _⟩
  · refine ⟨st2, ecmify_loop_of_steps S _ _ st st2 _ hs hiter (by omega), ?_⟩
    rw [hfl2]
    by_cases hz : S.length = 0
    · rw [if_pos hz]
      rw [hz, if_pos (by norm_num)] at hcnt hfl
      rw [hfl, hcnt]
      rfl
    · rw [if_neg hz]
      have hcur := hc1 (by omega)
      by_cases hle : S.length ≤ 2 ^ 31
      · rw [if_pos hle] at hcnt hfl hst ⊢
        rw [hfl, hcnt, hst, hcur, if_pos (by omega)]
        rfl
      · rw [if_neg hle] at hcnt hfl hst ⊢
        rw [hfl, hcnt, hst, hcur, if_pos (by omega)]
        rfl
  · omega

/-- The output of `ecmify` for an input on which `detect_sector` finds no sector and
which is not longer than 2^31 bytes: one run of literals. -/
theorem ecmify_literal_output (S : List Nat) (hb : ∀ b ∈ S, b < 256)
    (hlit : ∀ st1, EcmInv S st1 → st1.queue_bytes_available ≠ 0 →
      detect_sector (st1.queue.drop st1.queue_start_ofs) st1.queue_bytes_available = 0)
    (h1 : 1 ≤ S.length) (hn : S.length ≤ 2 ^ 31) :
    ecmify S = .ok ([0x45, 0x43, 0x4D, 0x00] ++ (write_type_count 0 S.length ++ S) ++
      write_type_count 0 0 ++ le32 (edc_compute 0 S S.length)) := by
  obtain ⟨st, hl, hfl⟩ := ecmify_literal_result S hb hlit (by omega)
  obtain ⟨st', hl', _, he⟩ := ecmify_spec S hb
  rw [hl] at hl'
  simp only [Except.ok.injEq] at hl'
  subst hl'
  rw [he, hfl, if_neg (by omega), if_pos hn, runs_bytes_single,
    run_bytes_literal S S.length 0 (by omega), List.drop_zero, List.take_length]

/-! ## The sample input -/

theorem literal_input_length (n : Nat) : (literal_input n).length = n := by
  simp [literal_input]

theorem literal_input_getD (n i : Nat) :
    (literal_input n).getD i 0 = if i < n then (i / 4) % 2 else 0 := by
  by_cases h : i < n
  · rw [if_pos h, literal_input, getD_map_range _ _ _ h]
  · rw [if_neg h, getD_of_length_le _ _ (by rw [literal_input_length]; omega)]

theorem literal_input_bytes (n : Nat) : ∀ b ∈ literal_input n, b < 256 := by
  intro b hb
  obtain ⟨k, _, rfl⟩ := mem_map_range _ _ _ hb
  omega

theorem literal_input_detect (n : Nat) (st : EcmState) (h : EcmInv (literal_input n) st)
    (_h0 : st.queue_bytes_available ≠ 0) :
    detect_sector (st.queue.drop st.queue_start_ofs) st.queue_bytes_available = 0 := by
  have e1 := h.queued_eq
  have e2 := h.queued_le
  rw [literal_input_length] at e2
  have m1 : mode1_shape (st.queue.drop st.queue_start_ofs) st.queue_bytes_available = false := by
    rw [Bool.eq_false_iff]
    intro hm
    obtain ⟨ha, _, hff, _⟩ := (mode1_shape_iff _ _).1 hm
    have := hff 1 (by omega) (by omega)
    rw [getD_drop, h.queue_ok 1 (by omega), literal_input_getD] at this
    split at this <;> omega
  have m2 : mode2_shape (st.queue.drop st.queue_start_ofs) st.queue_bytes_available = false := by
    rw [Bool.eq_false_iff]
    intro hm
    obtain ⟨ha, hfl⟩ := (mode2_shape_iff _ _).1 hm
    have := hfl 0 (by omega)
    rw [getD_drop, getD_drop, h.queue_ok 0 (by omega), h.queue_ok 4 (by omega),
      literal_input_getD, literal_input_getD, if_pos (by omega), if_pos (by omega)] at this
    omega
  simp [detect_sector, m1, m2]

end Ecm
namespace Ecm

/-! ## How far the queue is filled -/

theorem ecmify_steps_succ_inv (S : List Nat) : ∀ (n : Nat) (st0 st2 : EcmState),
    ecmify_steps S (n + 1) st0 = some st2 →
    ∃ st, ecmify_steps S n st0 = some st ∧ ecmify_iter S st = .ok (st2, false) := by
  intro n
  induction n with
  | zero =>
    intro st0 st2 hs
    rw [ecmify_steps] at hs
    cases h0 : ecmify_iter S st0 with
    | error e => simp [h0] at hs
    | ok p =>
      obtain ⟨sta, b⟩ := p
      cases b with
      | true => simp [h0] at hs
      | false =>
        simp only [h0, ecmify_steps, Option.some.injEq] at hs
        subst hs
        exact ⟨st0, rfl, h0⟩
  | succ n ih =>
    intro st0 st2 hs
    rw [ecmify_steps] at hs
    cases h0 : ecmify_iter S st0 with
    | error e => simp [h0] at hs
    | ok p =>
      obtain ⟨sta, b⟩ := p
      cases b with
      | true => simp [h0] at hs
      | false =>
        simp only [h0] at hs
        obtain ⟨st, h1, h2⟩ := ih sta st2 hs
        refine ⟨st, ?_, h2⟩
        rw [ecmify_steps]
        simp only [h0]
        exact h1

/-- When the input fits in the queue, all of it has been queued after the refill step
of every round. -/
theorem ecmify_queued_all (S : List Nat) (hb : ∀ b ∈ S, b < 256) (hS : S.length ≤ queue_size) :
    ∀ (n : Nat) (st : EcmState), ecmify_steps S n ecmify_init = some st →
      (st.input_bytes_queued = 0 ∧ st.queue_bytes_available = 0) ∨
        st.input_bytes_queued = S.length := by
  intro n
  induction n with
  | zero =>
    intro st hs
    simp only [ecmify_steps, Option.some.injEq] at hs
    rw [← hs]
    exact Or.inl ⟨rfl, rfl⟩
  | succ n ih =>
    intro st2 hs
    obtain ⟨st, hs1, hiter⟩ := ecmify_steps_succ_inv S n _ st2 hs
    obtain ⟨hinv, _⟩ := ecmify_reach_inv S hb n st hs1
    obtain ⟨st1, hr, h1, _, hcase⟩ := ecmify_iter_spec S st hb hinv
    obtain ⟨_, _, _, _, _, hq⟩ := ecmify_refill_facts S st st1 hinv hr
    rcases hcase with ⟨_, _, st3, hiter3, _⟩ | ⟨_, _, st3, t, _, _, hiter3, _, _, _, _, _, _, _, _,
      hq3, _⟩
    · rw [hiter] at hiter3
      simp at hiter3
    · rw [hiter] at hiter3
      simp only [Except.ok.injEq, Prod.mk.injEq, and_true] at hiter3
      subst hiter3
      right
      rw [hq3, hq]
      have hqs : queue_size = 0x40000 := rfl
      rcases ih st hs1 with ⟨q0, a0⟩ | q1
      · rw [q0, a0]
        split <;> omega
      · rw [q1]
        split <;> omega

/-- The main loop on `literal_input (queue_size + R)`: the first refill fills the
queue, and no byte is read after it while more than `R` bytes are available. -/
theorem literal_input_queue (R : Nat) (hR : 1 ≤ R) (hR2 : R < 2352) :
    ∀ n, n ≤ queue_size - R →
      ∃ st, ecmify_steps (literal_input (queue_size + R)) n ecmify_init = some st ∧
        st.literal_skip = 0 ∧ st.curtype < 2 ∧
        st.input_bytes_queued = (if n = 0 then 0 else queue_size) ∧
        st.queue_bytes_available = (if n = 0 then 0 else queue_size - n) := by
  have hqs : queue_size = 0x40000 := rfl
  have hlen := literal_input_length (queue_size + R)
  intro n
  induction n with
  | zero =>
    intro _
    exact ⟨ecmify_init, rfl, rfl, by decide, rfl, rfl⟩
  | succ n ih =>
    intro hn
    obtain ⟨st, hs, hskip, hcur, hq, ha⟩ := ih (by omega)
    obtain ⟨st2, hs2, _, hskip2, _, hcur2, _⟩ :=
      ecmify_literal_steps (literal_input (queue_size + R)) (literal_input_bytes _)
        (literal_input_detect _) (n + 1) (by rw [hlen]; omega) (by omega)
    obtain ⟨st', hs', hiter⟩ := ecmify_steps_succ_inv _ n _ st2 hs2
    rw [hs] at hs'
    simp only [Option.some.injEq] at hs'
    subst hs'
    obtain ⟨hinv, _⟩ := ecmify_reach_inv _ (literal_input_bytes _) n st hs
    obtain ⟨st1, hr, h1, _, hcase⟩ := ecmify_iter_spec _ st (literal_input_bytes _) hinv
    obtain ⟨_, _, _, _, ha1, hq1⟩ := ecmify_refill_facts _ st st1 hinv hr
    rw [hlen] at ha1 hq1
    rcases hcase with ⟨_, _, st3, hiter3, _⟩ | ⟨_, _, st3, t, _, _, hiter3, _, hcur3, _, _, _, ha3,
      _, _, hq3, _⟩
    · rw [hiter] at hiter3
      simp at hiter3
    · rw [hiter] at hiter3
      simp only [Except.ok.injEq, Prod.mk.injEq, and_true] at hiter3
      subst hiter3
      have ht0 : t = 0 := by
        have := hcur2 (by omega)
        rw [this] at hcur3
        omega
      subst ht0
      rw [sectorsize_0] at ha3
      have hc2 : st2.curtype < 2 := by rw [hcur2 (by omega)]; decide
      by_cases hz : n = 0
      · subst hz
        rw [if_pos rfl] at hq ha
        simp only [hq, ha] at ha1 hq1
        have hcond : 0 < 2352 ∧ 0 < queue_size + R - 0 := ⟨by norm_num, by omega⟩
        have hmin : min (queue_size + R - 0) (queue_size - 0) = queue_size := by
          rw [Nat.sub_zero, Nat.sub_zero]
          exact Nat.min_eq_right (by omega)
        rw [if_pos hcond, hmin, Nat.zero_add] at ha1 hq1
        have h10 : ¬ (0 + 1 = 0) := by omega
        refine ⟨st2, hs2, hskip2, hc2, ?_, ?_⟩
        · rw [if_neg h10, hq3, hq1]
        · rw [if_neg h10, ha3, ha1]
      · rw [if_neg hz] at hq ha
        simp only [hq, ha] at ha1 hq1
        have hcond : ¬ (queue_size - n < 2352 ∧
            queue_size - n < queue_size + R - queue_size) := by
          intro hc
          have := hc.2
          omega
        rw [if_neg hcond, Nat.add_zero] at ha1 hq1
        have h10 : ¬ (n + 1 = 0) := by omega
        refine ⟨st2, hs2, hskip2, hc2, ?_, ?_⟩
        · rw [if_neg h10, hq3, hq1]
        · rw [if_neg h10, ha3, ha1]
          omega

/-- A round of the main loop on `literal_input (0x40000 + 50)` in which
`detect_sector` is called with fewer than 2352 bytes available although not all of
the input has been queued. -/
theorem literal_input_short_queue :
    ∃ (n : Nat) (st st1 : EcmState),
      ecmify_steps (literal_input (0x40000 + 50)) n ecmify_init = some st ∧
      ecmify_refill (literal_input (0x40000 + 50)) st = .ok st1 ∧
      detect_invoked st1 = true ∧ st1.queue_bytes_available = 2351 ∧
      st1.input_bytes_queued = 0x40000 := by
  have hqs : queue_size = 0x40000 := rfl
  obtain ⟨st, hs, hskip, hcur, hq, ha⟩ := literal_input_queue 50 (by norm_num) (by norm_num)
    (queue_size - 2351) (by omega)
  rw [hqs] at hs
  have hn0 : ¬ (queue_size - 2351 = 0) := by omega
  rw [if_neg hn0] at hq ha
  have hinv := (ecmify_reach_inv _ (literal_input_bytes _) _ st hs).1
  obtain ⟨st1, hr, _, r1, _, _, r2, _, _, _, _, _, ha1, hq1⟩ := ecmify_refill_spec _ st hinv
  simp only [literal_input_length, hq, ha] at ha1 hq1
  have hcond : ¬ (queue_size - (queue_size - 2351) < 2352 ∧
      queue_size - (queue_size - 2351) < 0x40000 + 50 - queue_size) := by
    intro hc
    have := hc.2
    omega
  rw [if_neg hcond, Nat.add_zero] at ha1 hq1
  have hav : st1.queue_bytes_available = 2351 := by rw [ha1, hqs]
  have hqv : st1.input_bytes_queued = 0x40000 := by rw [hq1, hqs]
  refine ⟨_, st, st1, hs, hr, ?_, hav, hqv⟩
  exact (ecmify_detect_call st1 (by rw [hav]; norm_num) (by rw [r2, hskip])
    (by rw [r1]; exact hcur)).2

end Ecm
namespace Ecm

/-! ## The heuristic for a sync after a mode 2 sector -/

theorem sync_after_mode2_of_bytes (st : EcmState) (hc : 2 ≤ st.curtype)
    (ha : 16 ≤ st.queue_bytes_available)
    (h0 : st.queue.getD (st.queue_start_ofs + 0) 0 = 0x00)
    (hff : ∀ i, 1 ≤ i → i ≤ 10 → st.queue.getD (st.queue_start_ofs + i) 0 = 0xFF)
    (h11 : st.queue.getD (st.queue_start_ofs + 11) 0 = 0x00)
    (h15 : st.queue.getD (st.queue_start_ofs + 15) 0 = 0x02) :
    sync_after_mode2 st = true := by
  simp only [sync_after_mode2, Bool.and_eq_true, decide_eq_true_eq, beq_iff_eq]
  exact ⟨⟨⟨⟨⟨⟨⟨⟨⟨⟨⟨⟨⟨⟨hc, ha⟩, h0⟩, hff 1 (by omega) (by omega)⟩, hff 2 (by omega) (by omega)⟩,
    hff 3 (by omega) (by omega)⟩, hff 4 (by omega) (by omega)⟩, hff 5 (by omega) (by omega)⟩,
    hff 6 (by omega) (by omega)⟩, hff 7 (by omega) (by omega)⟩, hff 8 (by omega) (by omega)⟩,
    hff 9 (by omega) (by omega)⟩, hff 10 (by omega) (by omega)⟩, h11⟩, h15⟩

theorem ecmify_detect_skip (st : EcmState) (ha : st.queue_bytes_available ≠ 0)
    (hk : 0 < st.literal_skip) :
    ecmify_detect st = (0, st.literal_skip - 1) ∧ detect_invoked st = false := by
  constructor
  · unfold ecmify_detect
    rw [if_neg ha, if_pos hk]
  · have : ¬ st.literal_skip = 0 := by omega
    simp [detect_invoked, this]

theorem ecmify_detect_sync (st : EcmState) (ha : st.queue_bytes_available ≠ 0)
    (hk : st.literal_skip = 0) (hsync : sync_after_mode2 st = true) :
    ecmify_detect st = (0, 15) ∧ detect_invoked st = false := by
  constructor
  · unfold ecmify_detect
    rw [if_neg ha, if_neg (by omega), if_pos hsync]
  · simp [detect_invoked, hsync]

/-- A round in which the classification step yields a literal: one byte is
consumed. -/
theorem ecmify_literal_round (S : List Nat) (hb : ∀ b ∈ S, b < 256) (st st1 : EcmState)
    (hinv : EcmInv S st) (hr : ecmify_refill S st = .ok st1)
    (ha : st1.queue_bytes_available ≠ 0) (hd : (ecmify_detect st1).1 = 0) :
    ∃ st2, ecmify_iter S st = .ok (st2, false) ∧
      st2.literal_skip = (ecmify_detect st1).2 ∧
      st2.input_bytes_checked = st.input_bytes_checked + 1 ∧
      st2.queue_bytes_available = st1.queue_bytes_available - 1 ∧
      st.queue_bytes_available ≤ st1.queue_bytes_available ∧
      st1.literal_skip = st.literal_skip := by
  obtain ⟨st1a, hra, _, _, hcase⟩ := ecmify_iter_spec S st hb hinv
  obtain ⟨_, hsk, _, _, ha1, _⟩ := ecmify_refill_facts S st st1 hinv hr
  rw [hr] at hra
  simp only [Except.ok.injEq] at hra
  subst hra
  rcases hcase with ⟨h0, _⟩ | ⟨_, _, st2, t, _, hdt, hiter, _, _, hskip, hchk, _, hav, _⟩
  · exact absurd h0 ha
  · rw [hd] at hdt
    have ht : t = 0 := by omega
    subst ht
    have hsz : sectorsize.getD 0 0 = 1 := rfl
    rw [hsz] at hchk hav
    exact ⟨st2, hiter, hskip, hchk, hav, by rw [ha1]; omega, hsk⟩

/-- After the round in which the heuristic applies, the following rounds skip the
rest of the sync: before round `j` of them `16 - j` literals are still to skip. -/
theorem ecmify_sync_rounds (S : List Nat) (hb : ∀ b ∈ S, b < 256) (n : Nat)
    (st st1 : EcmState) (hs : ecmify_steps S n ecmify_init = some st)
    (hr : ecmify_refill S st = .ok st1) (hsync : sync_after_mode2 st1 = true) :
    ∀ j, j < 16 → ∃ stj, ecmify_steps S (n + (j + 1)) ecmify_init = some stj ∧
      stj.literal_skip = 15 - j ∧ 15 - j ≤ stj.queue_bytes_available ∧
      stj.input_bytes_checked = st.input_bytes_checked + (j + 1) := by
  intro j
  induction j with
  | zero =>
    intro _
    obtain ⟨hinv, _⟩ := ecmify_reach_inv S hb n st hs
    obtain ⟨hc, ha⟩ := sync_after_mode2_curtype st1 hsync
    obtain ⟨stx, hrx, h1, -⟩ := ecmify_iter_spec S st hb hinv
    rw [hr] at hrx
    simp only [Except.ok.injEq] at hrx
    subst hrx
    have hk : st1.literal_skip = 0 := by
      by_contra hne
      have := h1.skip_run (by omega)
      omega
    obtain ⟨hd, _⟩ := ecmify_detect_sync st1 (by omega) hk hsync
    obtain ⟨st2, hiter, hskip, hchk, hav, -, -⟩ :=
      ecmify_literal_round S hb st st1 hinv hr (by omega) (by rw [hd])
    rw [hd] at hskip
    exact ⟨st2, ecmify_steps_succ S n _ st st2 hs hiter, hskip, by omega, hchk⟩
  | succ j ih =>
    intro hj
    obtain ⟨stj, hsj, hkj, haj, hcj⟩ := ih (by omega)
    obtain ⟨hinv, _⟩ := ecmify_reach_inv S hb _ stj hsj
    obtain ⟨stj1, hrj, -⟩ := ecmify_iter_spec S stj hb hinv
    obtain ⟨-, hk1, -, -, ha1, -⟩ := ecmify_refill_facts S stj stj1 hinv hrj
    have hpos : stj1.queue_bytes_available ≠ 0 := by rw [ha1]; omega
    obtain ⟨hd, _⟩ := ecmify_detect_skip stj1 hpos (by omega)
    obtain ⟨st2, hiter, hskip, hchk, hav, hle, -⟩ :=
      ecmify_literal_round S hb stj stj1 hinv hrj hpos (by rw [hd])
    rw [hd] at hskip
    refine ⟨st2, ecmify_steps_succ S _ _ stj st2 hsj hiter, ?_, ?_, ?_⟩
    · simp only at hskip
      omega
    · omega
    · omega

theorem mode2_then_sync_length : mode2_then_sync.length = 2352 := by
  unfold mode2_then_sync
  rw [List.length_append, List.length_replicate]
  rfl

theorem mode2_then_sync_bytes : ∀ b ∈ mode2_then_sync, b < 256 := by
  intro b hb
  simp only [mode2_then_sync, List.mem_append] at hb
  rcases hb with hb | hb
  · rw [List.eq_of_mem_replicate hb]
    decide
  · revert b
    decide

theorem mode2_then_sync_zero (i : Nat) (h : i < 2336) : mode2_then_sync.getD i 0 = 0 := by
  unfold mode2_then_sync
  rw [getD_append_left _ _ _ (by rw [List.length_replicate]; exact h)]
  exact getD_replicate_zero 2336 i

theorem mode2_then_sync_tail (i : Nat) :
    mode2_then_sync.getD (2336 + i) 0 = sync_sample.getD i 0 := by
  unfold mode2_then_sync
  rw [getD_append_right _ _ _ (by rw [List.length_replicate]; omega), List.length_replicate,
    Nat.add_sub_cancel_left]

/-- On the input `mode2_then_sync` the second round of the main loop starts with a
pending run of type 2 and the 16 bytes of `sync_sample` in the queue. -/
theorem mode2_then_sync_state :
    ∃ st st1 : EcmState, ecmify_steps mode2_then_sync 1 ecmify_init = some st ∧
      ecmify_refill mode2_then_sync st = .ok st1 ∧ st1.curtype = 2 ∧
      st1.queue_bytes_available = 16 ∧
      ∀ i, i < 16 → st1.queue.getD (st1.queue_start_ofs + i) 0 = sync_sample.getD i 0 := by
  have hlen := mode2_then_sync_length
  have hb := mode2_then_sync_bytes
  have hqs : queue_size = 0x40000 := rfl
  have inv0 := ecmify_init_inv mode2_then_sync
  obtain ⟨sa, hra, ha, hchk, hcase⟩ := ecmify_iter_spec mode2_then_sync ecmify_init hb inv0
  obtain ⟨hcur, hskip, -, -, hav, hq⟩ := ecmify_refill_facts _ _ sa inv0 hra
  have e1 : ecmify_init.queue_bytes_available = 0 := rfl
  have e2 : ecmify_init.input_bytes_queued = 0 := rfl
  have e3 : ecmify_init.input_bytes_checked = 0 := rfl
  have e4 : ecmify_init.curtype = -1 := rfl
  have e5 : ecmify_init.literal_skip = 0 := rfl
  rw [e1, e2, hlen, hqs] at hav hq
  rw [e3] at hchk
  rw [e4] at hcur
  rw [e5] at hskip
  norm_num at hav hq
  rcases hcase with ⟨h0, -⟩ | ⟨-, -, sb, t, -, hdt, hiter, hb2, hcur2, hskip2, hchk2, -, hav2, -,
    -, hq2, -⟩
  · omega
  obtain ⟨hd, -⟩ := ecmify_detect_call sa (by omega) hskip (by omega)
  have hz : detect_sector (sa.queue.drop sa.queue_start_ofs) sa.queue_bytes_available = 2 := by
    apply detect_sector_zero _ _ (by omega)
    intro i hi
    rw [getD_drop, ha.queue_ok i (by omega), hchk, Nat.zero_add]
    exact mode2_then_sync_zero i hi
  rw [hd, hz] at hdt hskip2
  simp only at hdt hskip2
  have ht : t = 2 := by omega
  subst ht
  have hsz : sectorsize.getD 2 0 = 2336 := rfl
  rw [hsz, e3] at hchk2
  rw [hsz, hav] at hav2
  have hs1 : ecmify_steps mode2_then_sync 1 ecmify_init = some sb :=
    ecmify_steps_succ _ 0 _ _ sb rfl hiter
  obtain ⟨sc, hrc, hc, hchkc, -⟩ := ecmify_iter_spec mode2_then_sync sb hb hb2
  obtain ⟨hcurc, -, -, -, havc, -⟩ := ecmify_refill_facts _ _ sc hb2 hrc
  rw [hq2, hq, hav2, hlen] at havc
  norm_num at havc
  refine ⟨sb, sc, hs1, hrc, by rw [hcurc, hcur2]; rfl, havc, ?_⟩
  intro i hi
  rw [hc.queue_ok i (by omega), hchkc, hchk2, Nat.zero_add]
  exact mode2_then_sync_tail i

end Ecm
namespace Ecm

/-! ## Byte values of a reconstructed sector -/

set_option maxRecDepth 100000 in
theorem ecc_b_lut_bytes : ∀ b ∈ ecc_b_lut, b < 256 := by decide!

theorem forall_lt_set (l : List Nat) (i v : Nat) (h : ∀ b ∈ l, b < 256) (hv : v < 256) :
    ∀ b ∈ l.set i v, b < 256 := by
  intro b hb
  rcases List.mem_or_eq_of_mem_set hb with h1 | h1
  · exact h b h1
  · rw [h1]; exact hv

theorem ecc_minor_loop_lt (address : List Nat) (rd : Nat → Nat) (size minor_inc : Nat)
    (ha : ∀ b ∈ address, b < 256) (hrd : ∀ k, rd k < 256) :
    ∀ (n index ecc_a ecc_b : Nat), ecc_b < 256 →
      (ecc_minor_loop address rd size minor_inc n index ecc_a ecc_b).2 < 256 := by
  intro n
  induction n with
  | zero =>
    intro index ecc_a ecc_b hb
    exact hb
  | succ n ih =>
    intro index ecc_a ecc_b hb
    simp only [ecc_minor_loop]
    apply ih
    have ht : (if index < 4 then address.getD index 0 else rd (index - 4)) < 2 ^ 8 := by
      split
      · exact getD_lt_of_forall address ha index
      · exact hrd _
    exact Nat.xor_lt_two_pow (by omega) ht

theorem ecc_major_lt (address : List Nat) (rd : Nat → Nat)
    (major_count minor_count major_mult minor_inc major : Nat)
    (ha : ∀ b ∈ address, b < 256) (hrd : ∀ k, rd k < 256) :
    (ecc_major address rd major_count minor_count major_mult minor_inc major).1 < 256 ∧
    (ecc_major address rd major_count minor_count major_mult minor_inc major).2 < 256 := by
  simp only [ecc_major]
  have h1 := ecc_minor_loop_lt address rd (major_count * minor_count) minor_inc ha hrd
    minor_count ((major >>> 1) * major_mult + (major &&& 1)) 0 0 (by norm_num)
  have h2 : ∀ k, ecc_b_lut.getD k 0 < 2 ^ 8 := getD_lt_of_forall ecc_b_lut ecc_b_lut_bytes
  exact ⟨h2 _, Nat.xor_lt_two_pow (h2 _) (by omega)⟩

theorem ecc_writepq_loop_bytes (address : List Nat)
    (data major_count minor_count major_mult minor_inc ecc : Nat)
    (ha : ∀ b ∈ address, b < 256) :
    ∀ (n major : Nat) (sector : List Nat), (∀ b ∈ sector, b < 256) →
      ∀ b ∈ ecc_writepq_loop address data major_count minor_count major_mult minor_inc ecc
        n major sector, b < 256 := by
  intro n
  induction n with
  | zero =>
    intro major sector hs
    exact hs
  | succ n ih =>
    intro major sector hs
    simp only [ecc_writepq_loop]
    apply ih
    have hm := ecc_major_lt address (fun k => sector.getD (data + k) 0) major_count minor_count
      major_mult minor_inc major ha (fun k => getD_lt_of_forall sector hs _)
    exact forall_lt_set _ _ _ (forall_lt_set _ _ _ hs hm.1) hm.2

theorem ecc_writesector_bytes (address : List Nat) (data ecc : Nat) (sector : List Nat)
    (ha : ∀ b ∈ address, b < 256) (hs : ∀ b ∈ sector, b < 256) :
    ∀ b ∈ ecc_writesector address data ecc sector, b < 256 := by
  unfold ecc_writesector ecc_writepq
  exact ecc_writepq_loop_bytes _ _ _ _ _ _ _ ha _ _ _
    (ecc_writepq_loop_bytes _ _ _ _ _ _ _ ha _ _ _ hs)

theorem reconstruct_sync_bytes (s : List Nat) (h : ∀ b ∈ s, b < 256) :
    ∀ b ∈ reconstruct_sync s, b < 256 := by
  unfold reconstruct_sync
  iterate 12 apply forall_lt_set _ _ _ _ (by norm_num)
  exact h

theorem reconstruct_mode_1_bytes (s : List Nat) (h : ∀ b ∈ s, b < 256) :
    ∀ b ∈ reconstruct_mode s 1, b < 256 := by
  unfold reconstruct_mode
  rw [if_pos rfl]
  iterate 9 apply forall_lt_set _ _ _ _ (by norm_num)
  exact h

theorem reconstruct_edc_1_bytes (s : List Nat) (h : ∀ b ∈ s, b < 256) :
    ∀ b ∈ reconstruct_edc s 1, b < 256 := by
  unfold reconstruct_edc put32lsb
  rw [if_pos rfl]
  generalize edc_compute 0 s 0x810 = v
  iterate 4 apply forall_lt_set _ _ _ _ (Nat.mod_lt _ (by norm_num))
  exact h

theorem reconstruct_ecc_1_bytes (s : List Nat) (h : ∀ b ∈ s, b < 256) :
    ∀ b ∈ reconstruct_ecc s 1, b < 256 := by
  unfold reconstruct_ecc
  rw [if_pos rfl]
  exact ecc_writesector_bytes _ _ _ _ (fun b hb => h b (List.mem_of_mem_drop hb)) h

/-- The bytes of a reconstructed Mode 1 sector are bytes. -/
theorem reconstruct_1_bytes (buf : List Nat) (hb : ∀ b ∈ buf, b < 256) :
    ∀ b ∈ reconstruct_sector buf 1, b < 256 :=
  reconstruct_ecc_1_bytes _ (reconstruct_edc_1_bytes _ (reconstruct_mode_1_bytes _
    (reconstruct_sync_bytes _ hb)))

/-- The first 2352 bytes decide whether `detect_sector` finds a Mode 1 sector. -/
theorem detect_sector_1_congr (X Y : List Nat) (a b : Nat) (hX : detect_sector X a = 1)
    (h : ∀ i, i < 2352 → Y.getD i 0 = X.getD i 0) (hb : 2352 ≤ b) : detect_sector Y b = 1 := by
  rw [detect_sector_eq_1] at hX
  obtain ⟨hm, he, hc⟩ := hX
  have ha : 2352 ≤ a := ((mode1_shape_iff X a).1 hm).1
  have hY : detect_sector Y a = 1 := by
    rw [detect_sector_eq_1]
    refine ⟨?_, ?_, ?_⟩
    · rw [mode1_shape_congr Y X a h]; exact hm
    · rw [ecc_checksector_congr _ (X.drop 0xC) _ (X.drop 0x10) _ (X.drop 0x81C)
        (fun i hi => by rw [getD_drop, getD_drop]; exact h _ (by omega))
        (fun k hk => by rw [getD_drop, getD_drop]; exact h _ (by omega))
        (fun j hj => by rw [getD_drop, getD_drop]; exact h _ (by omega))]
      exact he
    · rw [edc_compute_congr 0x810 0 Y X (fun i hi => h i (by omega)),
        get32lsb_congr (Y.drop 0x810) (X.drop 0x810)
          (fun k hk => by rw [getD_drop, getD_drop]; exact h _ (by omega))]
      exact hc
  rw [detect_sector_eq_1] at hY ⊢
  refine ⟨?_, hY.2⟩
  have hs := (mode1_shape_iff Y a).1 hY.1
  rw [mode1_shape_iff]
  exact ⟨hb, hs.2⟩

end Ecm
namespace Ecm

/-! ## The main loop on two Mode 1 sectors -/

/-- The record that `write_sectors` writes for a run of two Mode 1 sectors at the
start of the input. -/
theorem run_bytes_two_mode1 (S : List Nat) (h : 4704 ≤ S.length) :
    run_bytes S (1, 2, 0) = write_type_count 1 2 ++
      ((S.drop 0xC).take 3 ++ (S.drop 0x10).take 0x800 ++
        (((S.drop 2352).drop 0xC).take 3 ++ ((S.drop 2352).drop 0x10).take 0x800)) := by
  have hl : sector_buffer_init.length = 2352 := List.length_replicate ..
  have w1 := write_sector_1 S (write_type_count 1 2) sector_buffer_init (by omega) hl
  have hl2 : (sector_buffer_init.take 0 ++ (S.take 2352 ++ sector_buffer_init.drop (0 + 2352))).length
      = 2352 := by
    simp only [List.length_append, List.length_take, List.length_drop, hl]
    omega
  have w2 := write_sector_1 (S.drop 2352)
    (write_type_count 1 2 ++ ((S.drop 0xC).take 3 ++ (S.drop 0x10).take 0x800))
    (sector_buffer_init.take 0 ++ (S.take 2352 ++ sector_buffer_init.drop (0 + 2352)))
    (by rw [List.length_drop]; omega) hl2
  have e : write_sectors 1 2 ⟨S.drop 0, [], sector_buffer_init⟩
      = write_sector_loop 1 2 ⟨S, write_type_count 1 2, sector_buffer_init⟩ := by
    simp only [write_sectors, List.nil_append, List.drop_zero]
    rfl
  simp only [run_bytes, e, write_sector_loop, w1, w2, List.append_assoc]

/-- On an input of two Mode 1 sectors the main loop calls `write_sectors` once, for
a run of type 1 and count 2 that starts at offset 0. -/
theorem ecmify_two_mode1 (A B : List Nat) (hA : A.length = 2352) (hB : B.length = 2352)
    (hb : ∀ b ∈ A ++ B, b < 256)
    (hdA : detect_sector A 2352 = 1) (hdB : detect_sector B 2352 = 1) :
    ∃ st, ecmify_loop (A ++ B) ((A ++ B).length + 1) ecmify_init = .ok st ∧
      st.flushed = [(1, 2, 0)] := by
  have hlen : (A ++ B).length = 4704 := by rw [List.length_append, hA, hB]
  have hqs : queue_size = 0x40000 := rfl
  have e1 : ecmify_init.queue_bytes_available = 0 := rfl
  have e2 : ecmify_init.input_bytes_queued = 0 := rfl
  have e3 : ecmify_init.input_bytes_checked = 0 := rfl
  have e4 : ecmify_init.curtype = -1 := rfl
  have e5 : ecmify_init.literal_skip = 0 := rfl
  have e6 : ecmify_init.curtype_count = 0 := rfl
  have e7 : ecmify_init.flushed = [] := rfl
  have hsz : sectorsize.getD 1 0 = 2352 := rfl
  have inv0 := ecmify_init_inv (A ++ B)
  -- the first round
  obtain ⟨sa, hra, ha, hchk, hcase⟩ := ecmify_iter_spec (A ++ B) ecmify_init hb inv0
  obtain ⟨hcur, hskip, -, -, hav, hq⟩ := ecmify_refill_facts _ _ sa inv0 hra
  rw [e1, e2, hlen, hqs] at hav hq
  rw [e3] at hchk
  rw [e4] at hcur
  rw [e5] at hskip
  norm_num at hav hq
  rcases hcase with ⟨h0, -⟩ | ⟨-, -, sb, t, -, hdt, hiter, hb2, hcur2, hskip2, hchk2, -, hav2, -,
    -, hq2, hagg⟩
  · omega
  obtain ⟨hd, -⟩ := ecmify_detect_call sa (by omega) hskip (by omega)
  have hz : detect_sector (sa.queue.drop sa.queue_start_ofs) sa.queue_bytes_available = 1 := by
    apply detect_sector_1_congr A _ 2352 _ hdA _ (by omega)
    intro i hi
    rw [getD_drop, ha.queue_ok i (by omega), hchk, Nat.zero_add,
      getD_append_left _ _ _ (by omega)]
  rw [hd, hz] at hdt hskip2
  simp only at hdt hskip2
  have ht : t = 1 := by omega
  subst ht
  rw [hsz, e3] at hchk2
  rw [hsz, hav] at hav2
  rw [e4, e6, e3, e7] at hagg
  have hagg1 : sb.curtype_count = 1 ∧ sb.curtype_in_start = 0 ∧ sb.flushed = [] := by
    rcases hagg with ⟨hx, -⟩ | ⟨-, c1, c2, c3⟩
    · omega
    · exact ⟨c1, c2, by rw [c3]; rfl⟩
  obtain ⟨cnt2, ins2, fl2⟩ := hagg1
  have hs1 : ecmify_steps (A ++ B) 1 ecmify_init = some sb :=
    ecmify_steps_succ _ 0 _ _ sb rfl hiter
  -- the second round
  obtain ⟨sc, hrc, hc, hchkc, hcasec⟩ := ecmify_iter_spec (A ++ B) sb hb hb2
  obtain ⟨hcurc, hskipc, -, -, havc, -⟩ := ecmify_refill_facts _ _ sc hb2 hrc
  rw [hq2, hq, hav2, hlen] at havc
  norm_num at havc
  rcases hcasec with ⟨h0, -⟩ | ⟨-, -, sd, t2, -, hdt2, hiter2, hb3, hcur3, -, hchk3, -, -, -,
    -, -, hagg2⟩
  · omega
  obtain ⟨hd2, -⟩ := ecmify_detect_call sc (by omega) (by rw [hskipc, hskip2])
    (by rw [hcurc, hcur2]; norm_num)
  have hz2 : detect_sector (sc.queue.drop sc.queue_start_ofs) sc.queue_bytes_available = 1 := by
    apply detect_sector_1_congr B _ 2352 _ hdB _ (by omega)
    intro i hi
    rw [getD_drop, hc.queue_ok i (by omega), hchkc, hchk2, Nat.zero_add,
      getD_append_right _ _ _ (by omega), hA, Nat.add_sub_cancel_left]
  rw [hd2, hz2] at hdt2
  simp only at hdt2
  have ht2 : t2 = 1 := by omega
  subst ht2
  rw [hsz, hchk2] at hchk3
  rw [cnt2, ins2, fl2, hcur2] at hagg2
  have hagg3 : sd.curtype_count = 2 ∧ sd.curtype_in_start = 0 ∧ sd.flushed = [] := by
    rcases hagg2 with ⟨-, -, c1, c2, c3⟩ | ⟨hx, -⟩
    · exact ⟨c1, c2, c3⟩
    · exact absurd ⟨rfl, by norm_num⟩ hx
  obtain ⟨cnt3, ins3, fl3⟩ := hagg3
  have hs2 : ecmify_steps (A ++ B) 2 ecmify_init = some sd :=
    ecmify_steps_succ _ 1 _ _ sd hs1 hiter2
  -- the third round leaves the loop
  obtain ⟨se, -, -, -, hcasee⟩ := ecmify_iter_spec (A ++ B) sd hb hb3
  rcases hcasee with ⟨-, -, sf, hiterf, -, -, hfl⟩ | ⟨-, hlt, -⟩
  · refine ⟨sf, ecmify_loop_of_steps _ 2 _ sd sf _ hs2 hiterf (by omega), ?_⟩
    rw [hfl, fl3, cnt3, ins3, hcur3]
    rfl
  · omega

end Ecm
namespace Ecm

/-! ## Claims on records, sectors and the header -/

/-- C4: for every type in {0,1,2,3} and every 32-bit count (count 0 included, which
wraps to n = 0xFFFFFFFF), the record parser of `unecmify` applied to the bytes of
`write_type_count(type, count)`, whatever follows them, consumes exactly those bytes,
reports no corruption, and yields the same type and n = (count - 1) mod 2^32. -/
theorem C4_record_roundtrip (type count : Nat) (tail : List Nat) (ht : type < 4)
    (hc : count < 2 ^ 32) :
    read_type_count (write_type_count type count ++ tail)
      = .ok (type, (count + (2 ^ 32 - 1)) % 2 ^ 32, tail) := by
  have e : ((count + (2 ^ 32 - 1)) % 2 ^ 32 + 1) % 2 ^ 32 = count := by omega
  have h := read_write_type_count type ((count + (2 ^ 32 - 1)) % 2 ^ 32) tail ht
    (Nat.mod_lt _ (by norm_num))
  rw [e] at h
  exact h

theorem C4_record_roundtrip_witness :
    read_type_count (write_type_count 0 0 ++ [1, 2]) = .ok (0, (0 + (2 ^ 32 - 1)) % 2 ^ 32, [1, 2]) :=
  C4_record_roundtrip 0 0 [1, 2] (by decide) (by decide)

/-- C5: for every wire value n in [0, 2^32) (count = n + 1 mod 2^32),
`write_type_count` emits 1 byte when n < 32 and otherwise
1 + ceil((bit_length(n) - 5) / 7) bytes, and when it emits more than one byte the last
byte is not zero. -/
theorem C5_record_length (type n : Nat) (hn : n < 2 ^ 32) :
    (write_type_count type ((n + 1) % 2 ^ 32)).length
      = (if n < 32 then 1 else 1 + (Nat.size n - 5 + 6) / 7) ∧
    (1 < (write_type_count type ((n + 1) % 2 ^ 32)).length →
      ∃ b, (write_type_count type ((n + 1) % 2 ^ 32)).getLast? = some b ∧ b ≠ 0) := by
  rw [write_type_count_eq type n hn]
  have hlen := write_count_loop_length (n >>> 5) (n >>> 5) (le_refl _)
  rw [size_shiftRight] at hlen
  have hdiv : n >>> 5 = n / 32 := by rw [Nat.shiftRight_eq_div_pow]
  constructor
  · rw [List.length_cons, hlen]
    split
    · rename_i h32
      have : Nat.size n ≤ 5 := Nat.size_le.2 (by omega)
      omega
    · omega
  · intro h1
    rw [List.length_cons] at h1
    have hne : n >>> 5 ≠ 0 := by
      intro h0
      rw [h0, write_count_loop_zero] at h1
      simp at h1
    obtain ⟨b, hb, hb0⟩ := write_count_loop_last (n >>> 5) (n >>> 5) (le_refl _) hne
    refine ⟨b, ?_, hb0⟩
    rw [List.getLast?_cons, hb]
    rfl

theorem C5_record_length_witness :
    (write_type_count 0 ((32 + 1) % 2 ^ 32)).length
      = (if 32 < 32 then 1 else 1 + (Nat.size 32 - 5 + 6) / 7) ∧
    (1 < (write_type_count 0 ((32 + 1) % 2 ^ 32)).length →
      ∃ b, (write_type_count 0 ((32 + 1) % 2 ^ 32)).getLast? = some b ∧ b ≠ 0) :=
  C5_record_length 0 32 (by decide)

set_option maxRecDepth 100000 in
/-- C6, as the code has it: encoding the empty input produces exactly the 13 bytes
45 43 4D 00 FC FF FF FF 3F 00 00 00 00: the magic, the end-of-records indicator
FC FF FF FF 3F and the EDC 0. -/
theorem C6_empty_input : ecmify [] =
    .ok [0x45, 0x43, 0x4D, 0x00, 0xFC, 0xFF, 0xFF, 0xFF, 0x3F, 0x00, 0x00, 0x00, 0x00] := by
  decide

set_option maxRecDepth 100000 in
/-- C6 as stated fails: the encoding of the empty input is not
45 43 4D 00 83 FF FF FF 7F 00 00 00 00. -/
theorem C6_empty_input_not_as_stated : ecmify [] ≠
    .ok [0x45, 0x43, 0x4D, 0x00, 0x83, 0xFF, 0xFF, 0xFF, 0x7F, 0x00, 0x00, 0x00, 0x00] := by
  decide

/-- C10: on every input whose first four bytes are not 45 43 4D 00 (inputs shorter
than four bytes included) `unecmify` returns 1 with the header error, and its output
file is never opened. -/
theorem C10_bad_header (inp : List Nat) (h : inp.take 4 ≠ [0x45, 0x43, 0x4D, 0x00]) :
    unecmify inp = ⟨1, some .bad_header, none, 0⟩ := by
  have hm := (header_missing_iff inp).2 h
  simp only [unecmify, unecmify_fuel, hm, if_true]

theorem C10_bad_header_witness :
    unecmify [0x45, 0x43] = ⟨1, some .bad_header, none, 0⟩ :=
  C10_bad_header [0x45, 0x43] (by decide)

/-- C33: `write_type_count` called with type 0 and count 0 emits exactly the five
bytes FC FF FF FF 3F, and the record parser of `unecmify` reads exactly these five
bytes as type 0 and num = 0xFFFFFFFF. -/
theorem C33_end_marker :
    write_type_count 0 0 = [0xFC, 0xFF, 0xFF, 0xFF, 0x3F] ∧
    ∀ tail, read_type_count ([0xFC, 0xFF, 0xFF, 0xFF, 0x3F] ++ tail)
      = .ok (0, 0xFFFFFFFF, tail) := by
  have e : write_type_count 0 0 = [0xFC, 0xFF, 0xFF, 0xFF, 0x3F] := by decide
  refine ⟨e, ?_⟩
  intro tail
  rw [← e]
  exact read_write_type_count 0 0xFFFFFFFF tail (by decide) (by decide)

end Ecm
namespace Ecm

/-! ## Claims on sector detection and reconstruction -/

/-- C2: for every sector on which `detect_sector` returns t in {1,2,3}, the payload
that `write_sectors` emits for type t (type 1: bytes 0x0C..0x0E and 0x10..0x80F;
type 2: bytes 0x04..0x807; type 3: bytes 0x04..0x91B), placed in the scratch buffer
as `unecmify` does and passed to `reconstruct_sector(t)`, yields as output bytes
(2352 for type 1, 2336 for types 2 and 3) exactly the original sector. -/
theorem C2_strip_reconstruct (t a : Nat) (s : List Nat) (hbytes : ∀ b ∈ s, b < 256)
    (ha : a ≤ s.length) (hd : detect_sector s a = t) (ht : 1 ≤ t) :
    ∃ P : List Nat,
      P = (if t = 1 then (s.drop 0xC).take 3 ++ (s.drop 0x10).take 0x800
        else if t = 2 then (s.drop 4).take 0x804 else (s.drop 4).take 0x918) ∧
      (∀ out ebuf, ebuf.length = 2352 → ∃ ebuf1,
        write_sector t ⟨s, out, ebuf⟩ = .ok ⟨s.drop (sectorsize.getD t 0), out ++ P, ebuf1⟩) ∧
      (∀ tail dout edc dbuf, dbuf.length = 2352 → ∃ edc1 dbuf1,
        unecmify_sector t ⟨P ++ tail, dout, edc, dbuf⟩
          = .ok ⟨tail, dout ++ s.take (sectorsize.getD t 0), edc1, dbuf1⟩) := by
  have ht4 : t < 4 := by rw [← hd]; exact detect_sector_lt s a
  have h123 : t = 1 ∨ t = 2 ∨ t = 3 := by omega
  rcases h123 with rfl | rfl | rfl
  · have h2352 : 2352 ≤ a := ((mode1_shape_iff s a).1 ((detect_sector_eq_1 s a).1 hd).1).1
    refine ⟨_, rfl, ?_, ?_⟩
    · intro out ebuf hb
      exact ⟨_, write_sector_1 s out ebuf (by omega) hb⟩
    · intro tail dout edc dbuf hb
      obtain ⟨dbuf1, _, h⟩ := unecmify_sector_1 s tail dout dbuf edc a hbytes (by omega) hd hb
      exact ⟨_, dbuf1, h⟩
  · have h2336 : 2336 ≤ a := ((mode2_shape_iff s a).1 ((detect_sector_eq_2 s a).1 hd).2.1).1
    refine ⟨_, rfl, ?_, ?_⟩
    · intro out ebuf hb
      exact ⟨_, write_sector_2 s out ebuf (by omega) hb⟩
    · intro tail dout edc dbuf hb
      obtain ⟨dbuf1, _, h⟩ := unecmify_sector_2 s tail dout dbuf edc a hbytes (by omega) hd hb
      exact ⟨_, dbuf1, h⟩
  · have h2336 : 2336 ≤ a := ((mode2_shape_iff s a).1 ((detect_sector_eq_3 s a).1 hd).2.1).1
    refine ⟨_, rfl, ?_, ?_⟩
    · intro out ebuf hb
      exact ⟨_, write_sector_3 s out ebuf (by omega) hb⟩
    · intro tail dout edc dbuf hb
      obtain ⟨dbuf1, _, h⟩ := unecmify_sector_3 s tail dout dbuf edc a hbytes (by omega) hd hb
      exact ⟨_, dbuf1, h⟩

theorem C2_strip_reconstruct_witness :
    ∃ P : List Nat,
      P = (if 2 = 1 then (zero_sector.drop 0xC).take 3 ++ (zero_sector.drop 0x10).take 0x800
        else if 2 = 2 then (zero_sector.drop 4).take 0x804 else (zero_sector.drop 4).take 0x918) ∧
      (∀ out ebuf, ebuf.length = 2352 → ∃ ebuf1,
        write_sector 2 ⟨zero_sector, out, ebuf⟩
          = .ok ⟨zero_sector.drop (sectorsize.getD 2 0), out ++ P, ebuf1⟩) ∧
      (∀ tail dout edc dbuf, dbuf.length = 2352 → ∃ edc1 dbuf1,
        unecmify_sector 2 ⟨P ++ tail, dout, edc, dbuf⟩
          = .ok ⟨tail, dout ++ zero_sector.take (sectorsize.getD 2 0), edc1, dbuf1⟩) :=
  C2_strip_reconstruct 2 2336 zero_sector zero_sector_bytes (le_of_eq zero_sector_length.symm)
    zero_sector_detect (by decide)

/-- C9: for every scratch buffer (any 3-byte address at 0x0C and 2048-byte data block
at 0x10), the 2352-byte sector built by `reconstruct_sector` with type 1 keeps that
address and data and is classified as 1 by `detect_sector` with at least 2352 bytes
available; and for every payload at 0x14..0x817 the 2336-byte sector at offset 0x10 of
the buffer built by `reconstruct_sector` with type 2 keeps it and is classified as 2. -/
theorem C9_rebuilt_sector_detected (buf : List Nat) (a1 a2 : Nat) (hlen : buf.length = 2352)
    (h1 : 2352 ≤ a1) (h2 : 2336 ≤ a2) :
    ((reconstruct_sector buf 1).length = 2352 ∧
      (∀ i, ((0xC ≤ i ∧ i < 0xF) ∨ (0x10 ≤ i ∧ i < 0x810)) →
        (reconstruct_sector buf 1).getD i 0 = buf.getD i 0) ∧
      detect_sector (reconstruct_sector buf 1) a1 = 1) ∧
    ((reconstruct_sector buf 2).length = 2352 ∧
      (∀ i, 0x14 ≤ i → i < 0x818 → (reconstruct_sector buf 2).getD i 0 = buf.getD i 0) ∧
      detect_sector ((reconstruct_sector buf 2).drop 0x10) a2 = 2) := by
  obtain ⟨l1, k1, _, d1⟩ := reconstruct_1_spec buf hlen
  obtain ⟨l2, k2, _, d2⟩ := reconstruct_2_spec buf hlen
  exact ⟨⟨l1, k1, d1 a1 h1⟩, ⟨l2, k2, d2 a2 h2⟩⟩

theorem C9_rebuilt_sector_detected_witness :
    ((reconstruct_sector zero_buffer 1).length = 2352 ∧
      (∀ i, ((0xC ≤ i ∧ i < 0xF) ∨ (0x10 ≤ i ∧ i < 0x810)) →
        (reconstruct_sector zero_buffer 1).getD i 0 = zero_buffer.getD i 0) ∧
      detect_sector (reconstruct_sector zero_buffer 1) 2352 = 1) ∧
    ((reconstruct_sector zero_buffer 2).length = 2352 ∧
      (∀ i, 0x14 ≤ i → i < 0x818 →
        (reconstruct_sector zero_buffer 2).getD i 0 = zero_buffer.getD i 0) ∧
      detect_sector ((reconstruct_sector zero_buffer 2).drop 0x10) 2336 = 2) :=
  C9_rebuilt_sector_detected zero_buffer 2352 2336 zero_buffer_length (by decide) (by decide)

/-- C14: for every buffer with at least 2352 bytes available that has the
Mode 1 structure (sync, byte 0x0F = 1, bytes 0x814..0x81B zero) but whose P/Q ECC or
EDC does not verify, `detect_sector` returns 0, whatever the Mode 2 tests would say. -/
theorem C14_mode1_shape_unverified (s : List Nat) (a : Nat) (hs : mode1_shape s a = true)
    (hbad : ¬ (ecc_checksector (s.drop 0xC) (s.drop 0x10) (s.drop 0x81C) = true ∧
      edc_compute 0 s 0x810 = get32lsb (s.drop 0x810))) :
    detect_sector s a = 0 :=
  detect_sector_eq_0_of_shape s a hs hbad

theorem C14_mode1_shape_unverified_witness : detect_sector mode1_unchecked_sector 2352 = 0 :=
  C14_mode1_shape_unverified mode1_unchecked_sector 2352 mode1_unchecked_shape
    (fun h => Bool.false_ne_true (mode1_unchecked_ecc.symm.trans h.1))

/-- C15: for every buffer that reaches the Mode 2 branch of `detect_sector` (Mode 1
structural test false, at least 2336 bytes available and bytes 0..3 equal to bytes
4..7) whose Form 1 EDC over bytes 0..0x807 differs from the LE32 at 0x808, whether or
not its Form 1 ECC verifies, `detect_sector` does not return 2: it returns 3 exactly
when the EDC over bytes 0..0x91B equals the LE32 at 0x91C, and 0 otherwise. -/
theorem C15_form1_edc_fails (s : List Nat) (a : Nat) (h1 : mode1_shape s a = false)
    (h2 : mode2_shape s a = true)
    (hedc : ¬ edc_compute 0 s 0x808 = get32lsb (s.drop 0x808)) :
    detect_sector s a ≠ 2 ∧
    (detect_sector s a = 3 ↔ edc_compute 0 s 0x91C = get32lsb (s.drop 0x91C)) ∧
    (detect_sector s a = 0 ↔ ¬ edc_compute 0 s 0x91C = get32lsb (s.drop 0x91C)) := by
  obtain ⟨n2, y3, y0⟩ := detect_sector_form2 s a h1 h2 hedc
  refine ⟨n2, ⟨?_, y3⟩, ⟨?_, y0⟩⟩
  · intro h3
    by_contra hne
    rw [y0 hne] at h3
    exact absurd h3 (by decide)
  · intro h0 he
    rw [y3 he] at h0
    exact absurd h0 (by decide)

theorem C15_form1_edc_fails_witness :
    detect_sector form1_bad_edc_sector 2336 ≠ 2 ∧
    (detect_sector form1_bad_edc_sector 2336 = 3 ↔
      edc_compute 0 form1_bad_edc_sector 0x91C = get32lsb (form1_bad_edc_sector.drop 0x91C)) ∧
    (detect_sector form1_bad_edc_sector 2336 = 0 ↔
      ¬ edc_compute 0 form1_bad_edc_sector 0x91C
        = get32lsb (form1_bad_edc_sector.drop 0x91C)) :=
  C15_form1_edc_fails form1_bad_edc_sector 2336 form1_bad_edc_shape1 form1_bad_edc_shape2
    form1_bad_edc_edc

/-- C16: `detect_sector` returns 0 whenever fewer than 2336 bytes are available,
whatever the buffer holds; hence the classification step of `ecmify` yields a literal
at every position where between 1 and 2335 bytes are available; and `detect_sector`
returns 1 only when at least 2352 bytes are available. -/
theorem C16_short_is_literal (s : List Nat) (a : Nat) (st : EcmState) :
    (a < 2336 → detect_sector s a = 0) ∧
    (0 < st.queue_bytes_available → st.queue_bytes_available < 2336 →
      (ecmify_detect st).1 = 0) ∧
    (detect_sector s a = 1 → 2352 ≤ a) := by
  refine ⟨detect_sector_small s a, ?_, ?_⟩
  · intro h0 h1
    unfold ecmify_detect
    rw [if_neg (by omega)]
    split_ifs
    · rfl
    · rfl
    · simp only
      rw [detect_sector_small _ _ h1]
      rfl
  · intro h
    exact ((mode1_shape_iff s a).1 ((detect_sector_eq_1 s a).1 h).1).1

theorem C16_short_is_literal_witness : detect_sector zero_sector 2335 = 0 :=
  (C16_short_is_literal zero_sector 2335 ecmify_init).1 (by decide)

/-- C28: `reconstruct_sector` keeps the payload it is given in a 2352-byte scratch
buffer: with type 1 bytes 0x0C..0x0E and 0x10..0x80F are unchanged, with type 2 bytes
0x14..0x817 are unchanged, and with type 3 every byte other than 0x00..0x0B, 0x0F,
0x10..0x13 and 0x92C..0x92F is unchanged (so bytes 0x14..0x92B are, and no ECC is
written). -/
theorem C28_payload_kept (buf : List Nat) (hlen : buf.length = 2352) :
    (∀ i, ((0xC ≤ i ∧ i < 0xF) ∨ (0x10 ≤ i ∧ i < 0x810)) →
      (reconstruct_sector buf 1).getD i 0 = buf.getD i 0) ∧
    (∀ i, 0x14 ≤ i → i < 0x818 → (reconstruct_sector buf 2).getD i 0 = buf.getD i 0) ∧
    (∀ i, 12 ≤ i → i ≠ 0xF → (i < 0x10 ∨ 0x14 ≤ i) → (i < 0x92C ∨ 0x930 ≤ i) →
      (reconstruct_sector buf 3).getD i 0 = buf.getD i 0) ∧
    (reconstruct_sector buf 3).length = 2352 :=
  ⟨(reconstruct_1_spec buf hlen).2.1, (reconstruct_2_spec buf hlen).2.1,
    fun i h12 hF hfl he => reconstruct_3_frame buf hlen i h12 hF hfl he,
    (reconstruct_3_spec buf hlen).1⟩

theorem C28_payload_kept_witness :
    (∀ i, ((0xC ≤ i ∧ i < 0xF) ∨ (0x10 ≤ i ∧ i < 0x810)) →
      (reconstruct_sector zero_buffer 1).getD i 0 = zero_buffer.getD i 0) ∧
    (∀ i, 0x14 ≤ i → i < 0x818 →
      (reconstruct_sector zero_buffer 2).getD i 0 = zero_buffer.getD i 0) ∧
    (∀ i, 12 ≤ i → i ≠ 0xF → (i < 0x10 ∨ 0x14 ≤ i) → (i < 0x92C ∨ 0x930 ≤ i) →
      (reconstruct_sector zero_buffer 3).getD i 0 = zero_buffer.getD i 0) ∧
    (reconstruct_sector zero_buffer 3).length = 2352 :=
  C28_payload_kept zero_buffer zero_buffer_length

/-- C32: on a buffer whose first 2336 bytes are all zero, with at least 2336 bytes
available, `detect_sector` returns 2: the zero flags match, the P/Q parity of zero
data with the zero address verifies against the zero ECC field, and the EDC of the
zero bytes is 0, equal to the stored EDC. -/
theorem C32_zero_sector (s : List Nat) (a : Nat) (ha : 2336 ≤ a)
    (hz : ∀ i, i < 2336 → s.getD i 0 = 0) :
    detect_sector s a = 2 ∧ mode2_shape s a = true ∧
    ecc_checksector zeroaddress s (s.drop 0x80C) = true ∧
    edc_compute 0 s 0x808 = 0 ∧ get32lsb (s.drop 0x808) = 0 := by
  have hd := detect_sector_zero s a ha hz
  obtain ⟨_, h2, hecc, hedc⟩ := (detect_sector_eq_2 s a).1 hd
  have h0 : edc_compute 0 s 0x808 = 0 := edc_compute_zero 0x808 s (fun i hi => hz i (by omega))
  exact ⟨hd, h2, hecc, h0, by rw [← hedc, h0]⟩

theorem C32_zero_sector_witness :
    detect_sector zero_sector 2336 = 2 ∧ mode2_shape zero_sector 2336 = true ∧
    ecc_checksector zeroaddress zero_sector (zero_sector.drop 0x80C) = true ∧
    edc_compute 0 zero_sector 0x808 = 0 ∧ get32lsb (zero_sector.drop 0x808) = 0 :=
  C32_zero_sector zero_sector 2336 (by decide) (fun i _ => zero_sector_getD i)

end Ecm
namespace Ecm

/-! ## Claims on the EDC, the ECC and the record parser -/

/-- C20: `edc_compute` is compositional over concatenation: for every accumulator a
and byte strings X and Y, edc_compute(edc_compute(a, X), Y) = edc_compute(a, X ++ Y),
and edc_compute(a, empty) = a; in pointer form, a block of n + m bytes may be folded
as its first n bytes followed by the m bytes after them. -/
theorem C20_edc_compositional (a : Nat) (X Y : List Nat) :
    edc_compute (edc_compute a X X.length) Y Y.length
      = edc_compute a (X ++ Y) (X ++ Y).length ∧
    edc_compute a [] 0 = a ∧
    ∀ (src : List Nat) (n m : Nat),
      edc_compute a src (n + m) = edc_compute (edc_compute a src n) (src.drop n) m :=
  ⟨(edc_compute_length_append a X Y).symm, rfl, fun src n m => edc_compute_add n a src m⟩

/-- C21: the table-driven EDC is the bit-serial right-shift CRC with generator
constant 0xD8018001: for every 32-bit accumulator a and byte b,
(a >> 8) XOR edc_lut[(a XOR b) & 0xFF] equals the result of XORing b into a and
applying eight times e <- (e >> 1) XOR (0xD8018001 if e is odd else 0); this is the
value `edc_compute` returns for the one-byte block b. -/
theorem C21_edc_table_is_bit_serial (a b : Nat) (ha : a < 2 ^ 32) (hb : b < 256) :
    (a >>> 8) ^^^ edc_lut.getD ((a ^^^ b) &&& 0xFF) 0 = edc_bit_serial a b ∧
    edc_compute a [b] 1 = edc_bit_serial a b := by
  have h1 := edc_table_step a b hb
  refine ⟨h1, ?_⟩
  have hlt : edc_bit_serial a b < 2 ^ 32 :=
    crc_shift_iterate_lt 8 _ (Nat.xor_lt_two_pow ha (by omega))
  simp only [edc_compute, List.getD_cons_zero]
  rw [h1]
  exact Nat.mod_eq_of_lt hlt

theorem C21_edc_table_is_bit_serial_witness :
    (0 >>> 8) ^^^ edc_lut.getD ((0 ^^^ 1) &&& 0xFF) 0 = edc_bit_serial 0 1 ∧
    edc_compute 0 [1] 1 = edc_bit_serial 0 1 :=
  C21_edc_table_is_bit_serial 0 1 (by decide) (by decide)

/-- C25: for every 2352-byte sector buffer, `ecc_checksector(sector + 0xC,
sector + 0x10, sector + 0x81C)` returns true if and only if `ecc_writesector` called
with the same three pointers leaves bytes 0x81C..0x92F (the 172 P bytes and the 104
Q bytes) unchanged; the same holds for the call with `zeroaddress`. -/
theorem C25_check_iff_write_fixes (s : List Nat) (hlen : s.length = 2352) :
    (ecc_checksector (s.drop 0xC) (s.drop 0x10) (s.drop 0x81C) = true ↔
      ∀ i, 0x81C ≤ i → i < 0x930 →
        (ecc_writesector (s.drop 0xC) 0x10 0x81C s).getD i 0 = s.getD i 0) ∧
    (ecc_checksector zeroaddress (s.drop 0x10) (s.drop 0x81C) = true ↔
      ∀ i, 0x81C ≤ i → i < 0x930 →
        (ecc_writesector zeroaddress 0x10 0x81C s).getD i 0 = s.getD i 0) := by
  have key : ∀ address : List Nat,
      (ecc_checksector address (s.drop 0x10) (s.drop 0x81C) = true ↔
        ∀ i, 0x81C ≤ i → i < 0x930 →
          (ecc_writesector address 0x10 0x81C s).getD i 0 = s.getD i 0) := by
    intro address
    obtain ⟨wl, wf, wc⟩ := ecc_writesector_spec address address 0x10 s (fun _ _ => rfl)
      (by omega)
    constructor
    · intro hc i h1 h2
      exact ecc_unique (ecc_writesector address 0x10 0x81C s) s address address 0x10 wc hc
        (fun _ _ => rfl) (fun k _ hk => wf k (Or.inl hk)) i h1 h2
    · intro h
      have e : ecc_writesector address 0x10 0x81C s = s := by
        apply ext_getD _ _ wl
        intro i _
        by_cases hi : 0x81C ≤ i ∧ i < 0x930
        · exact h i hi.1 hi.2
        · exact wf i (by omega)
      have wc1 := wc
      rw [show (0x10 + 2060 : Nat) = 0x81C from rfl] at wc1
      rw [e] at wc1
      exact wc1
  exact ⟨key _, key _⟩

theorem C25_check_iff_write_fixes_witness :
    (ecc_checksector (zero_buffer.drop 0xC) (zero_buffer.drop 0x10) (zero_buffer.drop 0x81C)
        = true ↔
      ∀ i, 0x81C ≤ i → i < 0x930 →
        (ecc_writesector (zero_buffer.drop 0xC) 0x10 0x81C zero_buffer).getD i 0
          = zero_buffer.getD i 0) ∧
    (ecc_checksector zeroaddress (zero_buffer.drop 0x10) (zero_buffer.drop 0x81C) = true ↔
      ∀ i, 0x81C ≤ i → i < 0x930 →
        (ecc_writesector zeroaddress 0x10 0x81C zero_buffer).getD i 0
          = zero_buffer.getD i 0) :=
  C25_check_iff_write_fixes zero_buffer zero_buffer_length

/-- C26: for the P parameters (86, 24, 2, 86) and the Q parameters (52, 43, 86, 88),
the parity of a `major` is computed from the reads at the indices of
`ecc_major_indices`; every such index is below size = major_count * minor_count, the
conditional subtraction after it equals reduction modulo size, and the data offset
index - 4 is below 2060 (P) or 2232 (Q), inside the sector at both call sites
(0x10 + 2232 <= 2352 and 2232 <= 2336). -/
theorem C26_ecc_index_bounds :
    (∀ (address : List Nat) (rd : Nat → Nat) (mc minc mm inc major : Nat),
      ecc_minor_loop address rd (mc * minc) inc minc ((major >>> 1) * mm + (major &&& 1)) 0 0
        = (ecc_major_indices mc minc mm inc major).foldl (ecc_minor_step address rd) (0, 0)) ∧
    (∀ major, major < 86 → ∀ i ∈ ecc_major_indices 86 24 2 86 major,
      i < 86 * 24 ∧ i - 4 < 2060 ∧
      (if i + 86 ≥ 86 * 24 then i + 86 - 86 * 24 else i + 86) = (i + 86) % (86 * 24)) ∧
    (∀ major, major < 52 → ∀ i ∈ ecc_major_indices 52 43 86 88 major,
      i < 52 * 43 ∧ i - 4 < 2232 ∧
      (if i + 88 ≥ 52 * 43 then i + 88 - 52 * 43 else i + 88) = (i + 88) % (52 * 43)) ∧
    0x10 + 2232 ≤ 2352 ∧ 2232 ≤ 2336 := by
  refine ⟨?_, ?_, ?_, by norm_num, by norm_num⟩
  · intro address rd mc minc mm inc major
    exact ecc_minor_loop_trace address rd _ _ _ _ _ _
  · intro major hm i hi
    rw [ecc_indices_P major hm] at hi
    obtain ⟨k, _, rfl⟩ := mem_map_range _ _ _ hi
    have : (major + k * 86) % 2064 < 2064 := Nat.mod_lt _ (by norm_num)
    refine ⟨by omega, by omega, ?_⟩
    split <;> omega
  · intro major hm i hi
    rw [ecc_indices_Q major hm] at hi
    obtain ⟨k, _, rfl⟩ := mem_map_range _ _ _ hi
    have : ((major / 2) * 86 + major % 2 + k * 88) % 2236 < 2236 := Nat.mod_lt _ (by norm_num)
    refine ⟨by omega, by omega, ?_⟩
    split <;> omega

theorem C26_ecc_index_bounds_witness :
    ∀ i ∈ ecc_major_indices 52 43 86 88 51,
      i < 52 * 43 ∧ i - 4 < 2232 ∧
      (if i + 88 ≥ 52 * 43 then i + 88 - 52 * 43 else i + 88) = (i + 88) % (52 * 43) :=
  C26_ecc_index_bounds.2.2.1 51 (by decide)

/-- C27: after `eccedc_init`, for every i in [0,256): `ecc_f_lut[i]` is
(i << 1) XOR (0x11D if i >= 0x80 else 0), which is below 256 (so the store truncates
nothing), and `ecc_b_lut[i XOR ecc_f_lut[i]]` is i; the map i -> i XOR ecc_f_lut[i] is
a permutation of [0,256) (injective, and onto with inverse `ecc_b_lut`), so no store
to `ecc_b_lut` is overwritten. -/
theorem C27_ecc_tables :
    (∀ i, i < 256 →
      ecc_f_lut.getD i 0 = ((i <<< 1) ^^^ (if i ≥ 0x80 then 0x11D else 0)) ∧
      ((i <<< 1) ^^^ (if i &&& 0x80 ≠ 0 then 0x11D else 0)) < 256 ∧
      i ^^^ ecc_f_lut.getD i 0 < 256 ∧
      ecc_b_lut.getD (i ^^^ ecc_f_lut.getD i 0) 0 = i) ∧
    (∀ i j, i < 256 → j < 256 →
      i ^^^ ecc_f_lut.getD i 0 = j ^^^ ecc_f_lut.getD j 0 → i = j) ∧
    (∀ k, k < 256 → ∃ i, i < 256 ∧ i ^^^ ecc_f_lut.getD i 0 = k) := by
  refine ⟨?_, ?_, ?_⟩
  · intro i hi
    obtain ⟨f1, f2⟩ := ecc_f_lut_eq i hi
    obtain ⟨b1, b2⟩ := ecc_b_lut_eq i hi
    refine ⟨f2, ?_, b1, b2⟩
    rw [← f1]
    have hx : i ^^^ (i ^^^ ecc_f_lut.getD i 0) < 2 ^ 8 := Nat.xor_lt_two_pow (by omega) (by omega)
    rw [← Nat.xor_assoc, Nat.xor_self, Nat.zero_xor] at hx
    omega
  · intro i j hi hj h
    have e1 := (ecc_b_lut_eq i hi).2
    have e2 := (ecc_b_lut_eq j hj).2
    rw [h] at e1
    omega
  · intro k hk
    exact ⟨ecc_b_lut.getD k 0, (ecc_b_lut_onto k hk).1, (ecc_b_lut_onto k hk).2⟩

theorem C27_ecc_tables_witness :
    ecc_f_lut.getD 0x80 0 = ((0x80 <<< 1) ^^^ (if 0x80 ≥ 0x80 then 0x11D else 0)) ∧
    ((0x80 <<< 1) ^^^ (if 0x80 &&& 0x80 ≠ 0 then 0x11D else 0)) < 256 ∧
    0x80 ^^^ ecc_f_lut.getD 0x80 0 < 256 ∧
    ecc_b_lut.getD (0x80 ^^^ ecc_f_lut.getD 0x80 0) 0 = 0x80 :=
  C27_ecc_tables.1 0x80 (by decide)

/-- C31: for the P parameters (86, 24, 2, 86) and for the Q parameters
(52, 43, 86, 88), every `major` reads minor_count indices, all below
major_count * minor_count, and every integer below major_count * minor_count is read
at exactly one (major, minor) iteration: every covered byte belongs to exactly one P
column and exactly one Q diagonal. -/
theorem C31_ecc_indices_cover :
    (∀ m, m < 86 → (ecc_major_indices 86 24 2 86 m).length = 24 ∧
      ∀ k, k < 24 → (ecc_major_indices 86 24 2 86 m).getD k 0 < 86 * 24) ∧
    (∀ i, i < 86 * 24 → ∃ m k, m < 86 ∧ k < 24 ∧
      (ecc_major_indices 86 24 2 86 m).getD k 0 = i ∧
      ∀ m1 k1, m1 < 86 → k1 < 24 → (ecc_major_indices 86 24 2 86 m1).getD k1 0 = i →
        m1 = m ∧ k1 = k) ∧
    (∀ m, m < 52 → (ecc_major_indices 52 43 86 88 m).length = 43 ∧
      ∀ k, k < 43 → (ecc_major_indices 52 43 86 88 m).getD k 0 < 52 * 43) ∧
    (∀ i, i < 52 * 43 → ∃ m k, m < 52 ∧ k < 43 ∧
      (ecc_major_indices 52 43 86 88 m).getD k 0 = i ∧
      ∀ m1 k1, m1 < 52 → k1 < 43 → (ecc_major_indices 52 43 86 88 m1).getD k1 0 = i →
        m1 = m ∧ k1 = k) := by
  have gP : ∀ m k, m < 86 → k < 24 →
      (ecc_major_indices 86 24 2 86 m).getD k 0 = (m + k * 86) % 2064 := by
    intro m k hm hk
    rw [ecc_indices_P m hm, getD_map_range _ _ _ hk]
  have gQ : ∀ m k, m < 52 → k < 43 →
      (ecc_major_indices 52 43 86 88 m).getD k 0
        = ((m / 2) * 86 + m % 2 + k * 88) % 2236 := by
    intro m k hm hk
    rw [ecc_indices_Q m hm, getD_map_range _ _ _ hk]
  refine ⟨?_, ?_, ?_, ?_⟩
  · intro m hm
    refine ⟨by rw [ecc_indices_P m hm]; simp, ?_⟩
    intro k hk
    rw [gP m k hm hk]
    exact Nat.mod_lt _ (by norm_num)
  · intro i hi
    refine ⟨i % 86, i / 86, by omega, by omega, ?_, ?_⟩
    · rw [gP _ _ (by omega) (by omega)]
      omega
    · intro m1 k1 hm1 hk1 h
      rw [gP m1 k1 hm1 hk1] at h
      omega
  · intro m hm
    refine ⟨by rw [ecc_indices_Q m hm]; simp, ?_⟩
    intro k hk
    rw [gQ m k hm hk]
    exact Nat.mod_lt _ (by norm_num)
  · intro i hi
    have ho := q_index_onto i hi
    unfold Nat.ModEq at ho
    rw [Nat.mod_eq_of_lt hi] at ho
    have hk : ((i - i % 2) * 22) % 43 < 43 := Nat.mod_lt _ (by norm_num)
    have hj : ((i - i % 2 + 4472 - 88 * (((i - i % 2) * 22) % 43)) / 86) % 26 < 26 :=
      Nat.mod_lt _ (by norm_num)
    generalize ((i - i % 2) * 22) % 43 = k at ho hk hj
    generalize ((i - i % 2 + 4472 - 88 * k) / 86) % 26 = j at ho hj
    have hm : 2 * j + i % 2 < 52 := by omega
    have e1 : (2 * j + i % 2) / 2 = j := by omega
    have e2 : (2 * j + i % 2) % 2 = i % 2 := by omega
    have hval : (ecc_major_indices 52 43 86 88 (2 * j + i % 2)).getD k 0 = i := by
      rw [gQ _ _ hm hk, e1, e2]
      exact ho
    refine ⟨2 * j + i % 2, k, hm, hk, hval, ?_⟩
    intro m1 k1 hm1 hk1 h
    rw [gQ m1 k1 hm1 hk1] at h
    have h1 : ((m1 / 2) * 86 + m1 % 2 + k1 * 88) % 2236
        = (((2 * j + i % 2) / 2) * 86 + (2 * j + i % 2) % 2 + k * 88) % 2236 := by
      rw [e1, e2, h, ho]
    exact q_index_inj m1 k1 (2 * j + i % 2) k hm1 hk1 hm hk h1

theorem C31_ecc_indices_cover_witness :
    ∃ m k, m < 52 ∧ k < 43 ∧
      (ecc_major_indices 52 43 86 88 m).getD k 0 = 2235 ∧
      ∀ m1 k1, m1 < 52 → k1 < 43 → (ecc_major_indices 52 43 86 88 m1).getD k1 0 = 2235 →
        m1 = m ∧ k1 = k :=
  C31_ecc_indices_cover.2.2.2 2235 (by decide)

/-- C13: on an input of at least six bytes, the record parser of `unecmify` reports
a corrupt sector count if and only if the first four bytes all have the continuation
bit and the fifth byte has low seven bits >= 0x40 (it is read as fifth header byte and
rejected) or has the continuation bit (a sixth header byte is read); in every other
case it returns type = first byte & 3, a value n < 2^32 made of the 5-bit group of the
first byte and the 7-bit groups of the continuation bytes, least significant first,
and the input after the header bytes read. -/
theorem C13_corrupt_count (b1 b2 b3 b4 b5 b6 : Nat) (tail : List Nat) :
    (read_type_count (b1 :: b2 :: b3 :: b4 :: b5 :: b6 :: tail) = .error .corrupt_count ↔
      (b1 &&& 0x80 ≠ 0 ∧ b2 &&& 0x80 ≠ 0 ∧ b3 &&& 0x80 ≠ 0 ∧ b4 &&& 0x80 ≠ 0 ∧
        ((b5 &&& 0x7F) ≥ 0x40 ∨ b5 &&& 0x80 ≠ 0))) ∧
    (¬ (b1 &&& 0x80 ≠ 0 ∧ b2 &&& 0x80 ≠ 0 ∧ b3 &&& 0x80 ≠ 0 ∧ b4 &&& 0x80 ≠ 0 ∧
        ((b5 &&& 0x7F) ≥ 0x40 ∨ b5 &&& 0x80 ≠ 0)) →
      ∃ n rest, read_type_count (b1 :: b2 :: b3 :: b4 :: b5 :: b6 :: tail)
          = .ok (b1 &&& 3, n, rest) ∧ n < 2 ^ 32 ∧
        n = (((b1 >>> 2) &&& 0x1F) |||
          (if b1 &&& 0x80 ≠ 0 then ((b2 &&& 0x7F) <<< 5) |||
            (if b2 &&& 0x80 ≠ 0 then ((b3 &&& 0x7F) <<< 12) |||
              (if b3 &&& 0x80 ≠ 0 then ((b4 &&& 0x7F) <<< 19) |||
                (if b4 &&& 0x80 ≠ 0 then (b5 &&& 0x7F) <<< 26 else 0) else 0) else 0) else 0)) ∧
        rest = (if b1 &&& 0x80 ≠ 0 then
            (if b2 &&& 0x80 ≠ 0 then
              (if b3 &&& 0x80 ≠ 0 then
                (if b4 &&& 0x80 ≠ 0 then b6 :: tail else b5 :: b6 :: tail)
                else b4 :: b5 :: b6 :: tail)
              else b3 :: b4 :: b5 :: b6 :: tail)
            else b2 :: b3 :: b4 :: b5 :: b6 :: tail)) :=
  read_type_count_six b1 b2 b3 b4 b5 b6 tail

theorem C13_corrupt_count_witness :
    read_type_count [0x80, 0x80, 0x80, 0x80, 0x40, 0, 7] = .error .corrupt_count :=
  (C13_corrupt_count 0x80 0x80 0x80 0x80 0x40 0 [7]).1.2 (by decide)

end Ecm
namespace Ecm

/-! ## Claims on the encoder and the decoder as a whole -/

/-- C1: for every input byte string S (any length, the empty one included),
`ecmify` returns an output, and `unecmify` run on that output succeeds (return
code 0, no error) and writes exactly S. -/
theorem C1_roundtrip (S : List Nat) (hb : ∀ b ∈ S, b < 256) :
    ∃ enc, ecmify S = .ok enc ∧
      unecmify enc = ⟨0, none, some S, edc_compute 0 S S.length⟩ := by
  obtain ⟨st, body, k, _, _, _, he, _, hu⟩ := codec_spec S hb
  refine ⟨_, he, ?_⟩
  rw [hu _ (by rw [le32_length]), if_neg]
  have h := get32lsb_le32 (edc_compute 0 S S.length) (edc_compute_lt _ _ _ (by norm_num)) []
  rw [List.append_nil] at h
  exact fun hne => hne h

theorem C1_roundtrip_witness :
    ∃ enc, ecmify [0xAA, 0x55] = .ok enc ∧
      unecmify enc = ⟨0, none, some [0xAA, 0x55], edc_compute 0 [0xAA, 0x55] [0xAA, 0x55].length⟩ :=
  C1_roundtrip [0xAA, 0x55] (by decide)

/-- C3: for every input S, when the main loop of `ecmify` is left `input_edc` is
edc_compute(0, S) over the whole input in file order, the last four bytes that
`ecmify` writes are its little-endian encoding, and it is the output EDC that
`unecmify` has accumulated when it has decoded that stream with success. -/
theorem C3_trailer_edc (S : List Nat) (hb : ∀ b ∈ S, b < 256) :
    ∃ (st : EcmState) (body : List Nat),
      ecmify_loop S (S.length + 1) ecmify_init = .ok st ∧
      st.input_edc = edc_compute 0 S S.length ∧
      ecmify S = .ok (body ++ le32 (edc_compute 0 S S.length)) ∧
      get32lsb (le32 (edc_compute 0 S S.length)) = edc_compute 0 S S.length ∧
      (unecmify (body ++ le32 (edc_compute 0 S S.length))).output_edc
        = edc_compute 0 S S.length ∧
      (unecmify (body ++ le32 (edc_compute 0 S S.length))).returncode = 0 := by
  obtain ⟨st, body, k, hl, hp, _, he, _, hu⟩ := codec_spec S hb
  have h := get32lsb_le32 (edc_compute 0 S S.length) (edc_compute_lt _ _ _ (by norm_num)) []
  rw [List.append_nil] at h
  refine ⟨st, body, hl, hp.edc_ok, he, h, ?_, ?_⟩
  · rw [hu _ (by rw [le32_length]), if_neg (fun hne => hne h)]
  · rw [hu _ (by rw [le32_length]), if_neg (fun hne => hne h)]

theorem C3_trailer_edc_witness :
    ∃ (st : EcmState) (body : List Nat),
      ecmify_loop [0xAA] ([0xAA].length + 1) ecmify_init = .ok st ∧
      st.input_edc = edc_compute 0 [0xAA] [0xAA].length ∧
      ecmify [0xAA] = .ok (body ++ le32 (edc_compute 0 [0xAA] [0xAA].length)) ∧
      get32lsb (le32 (edc_compute 0 [0xAA] [0xAA].length))
        = edc_compute 0 [0xAA] [0xAA].length ∧
      (unecmify (body ++ le32 (edc_compute 0 [0xAA] [0xAA].length))).output_edc
        = edc_compute 0 [0xAA] [0xAA].length ∧
      (unecmify (body ++ le32 (edc_compute 0 [0xAA] [0xAA].length))).returncode = 0 :=
  C3_trailer_edc [0xAA] (by decide)

/-- C11: for every input S, if the four bytes of the EDC at the end of the output
of `ecmify` are replaced by four different bytes, `unecmify` fails with the
checksum error, and the bytes it has written to its output by then are exactly S. -/
theorem C11_bad_trailer (S T : List Nat) (hb : ∀ b ∈ S, b < 256) (hT : T.length = 4)
    (hTb : ∀ b ∈ T, b < 256) (hne : T ≠ le32 (edc_compute 0 S S.length)) :
    ∃ body, ecmify S = .ok (body ++ le32 (edc_compute 0 S S.length)) ∧
      unecmify (body ++ T) = ⟨1, some .checksum, some S, edc_compute 0 S S.length⟩ := by
  obtain ⟨st, body, k, _, _, _, he, _, hu⟩ := codec_spec S hb
  refine ⟨body, he, ?_⟩
  rw [hu T (by omega), if_pos]
  exact get32lsb_ne_of_ne T _ hT hTb (edc_compute_lt _ _ _ (by norm_num)) hne

theorem C11_bad_trailer_witness :
    ∃ body, ecmify [] = .ok (body ++ le32 (edc_compute 0 [] ([] : List Nat).length)) ∧
      unecmify (body ++ [1, 0, 0, 0])
        = ⟨1, some .checksum, some [], edc_compute 0 [] ([] : List Nat).length⟩ :=
  C11_bad_trailer [] [1, 0, 0, 0] (by decide) (by decide) (by decide) (by decide)

/-- C34: the main loop of `ecmify` terminates on every input: with |S| + 1 rounds
it is left by `break`; a state reached after n rounds has checked at least n and at
most |S| bytes, and the round that starts in it either leaves the loop, which
happens only when the queue is empty after the refill step and all the input has
been queued, or advances `input_bytes_checked` by at least one byte without passing
the input length. -/
theorem C34_loop_terminates (S : List Nat) (hb : ∀ b ∈ S, b < 256) :
    (∃ st, ecmify_loop S (S.length + 1) ecmify_init = .ok st) ∧
    (∀ n st, ecmify_steps S n ecmify_init = some st →
      n ≤ st.input_bytes_checked ∧ st.input_bytes_checked ≤ S.length ∧
      ((∃ st1 st2, ecmify_iter S st = .ok (st2, true) ∧ ecmify_refill S st = .ok st1 ∧
          st1.queue_bytes_available = 0 ∧ st1.input_bytes_queued = S.length) ∨
        (∃ st2, ecmify_iter S st = .ok (st2, false) ∧
          st.input_bytes_checked + 1 ≤ st2.input_bytes_checked ∧
          st2.input_bytes_checked ≤ S.length))) := by
  obtain ⟨st, hl, _⟩ := ecmify_spec S hb
  refine ⟨⟨st, hl⟩, ?_⟩
  intro n st hs
  obtain ⟨hinv, hn⟩ := ecmify_reach_inv S hb n st hs
  have e1 := hinv.queued_eq
  have e2 := hinv.queued_le
  refine ⟨hn, by omega, ?_⟩
  obtain ⟨st1, hr, h1, hc, hcase⟩ := ecmify_iter_spec S st hb hinv
  have f1 := h1.queued_eq
  rcases hcase with ⟨h0, hlen, st2, hiter, _⟩ | ⟨_, _, st2, t, ht, _, hiter, hinv2, _, _, hchk, _⟩
  · exact Or.inl ⟨st1, st2, hiter, hr, h0, by omega⟩
  · have := sectorsize_pos t ht
    have g1 := hinv2.queued_eq
    have g2 := hinv2.queued_le
    exact Or.inr ⟨st2, hiter, by omega, by omega⟩

theorem C34_loop_terminates_witness :
    ∃ st, ecmify_loop [0xAA] ([0xAA].length + 1) ecmify_init = .ok st :=
  (C34_loop_terminates [0xAA] (by decide)).1

end Ecm
namespace Ecm

/-! ## Claim on the output name derived by `main` -/

/-- C22, as the code has it: in the one-argument decode form the derived output name
is the input name without its last four characters when the input name ends in
".ecm" in any letter case and is longer than four characters; it is the input name
followed by ".unecm" when the name ends in ".ecm" but has only those four
characters, and when it has no such suffix. -/
theorem C22_decode_outname (name : List Char) :
    (ends_in_ecm name → 4 < name.length →
      decode_outname name = name.take (name.length - 4)) ∧
    (ends_in_ecm name → name.length ≤ 4 →
      decode_outname name = name ++ ['.', 'u', 'n', 'e', 'c', 'm']) ∧
    (¬ ends_in_ecm name → decode_outname name = name ++ ['.', 'u', 'n', 'e', 'c', 'm']) := by
  refine ⟨?_, ?_, decode_outname_other name⟩
  · rintro ⟨pre, a, b, c, d, rfl, ha, hb, hc, hd⟩ hl
    have hp : pre ≠ [] := by
      intro h0
      rw [h0] at hl
      simp only [List.nil_append, List.length_cons, List.length_nil] at hl
      omega
    rw [decode_outname_suffix pre a b c d ha hb hc hd, if_neg hp]
    simp
  · rintro ⟨pre, a, b, c, d, rfl, ha, hb, hc, hd⟩ hl
    have hp : pre = [] := by
      apply List.eq_nil_of_length_eq_zero
      rw [List.length_append] at hl
      simp only [List.length_cons, List.length_nil] at hl
      omega
    rw [decode_outname_suffix pre a b c d ha hb hc hd, if_pos hp, hp]
    rfl

theorem C22_decode_outname_witness :
    decode_outname ['a', '.', 'E', 'c', 'M']
      = List.take (['a', '.', 'E', 'c', 'M'].length - 4) ['a', '.', 'E', 'c', 'M'] :=
  (C22_decode_outname ['a', '.', 'E', 'c', 'M']).1
    ⟨['a'], '.', 'E', 'c', 'M', rfl, rfl, by decide, by decide, by decide⟩ (by decide)

/-- C22 as stated fails: the name ".ecm" ends in ".ecm", yet the derived output name
is ".ecm.unecm", not the name without its last four characters. -/
theorem C22_dot_ecm_not_stripped :
    ends_in_ecm ['.', 'e', 'c', 'm'] ∧
    decode_outname ['.', 'e', 'c', 'm'] = ['.', 'e', 'c', 'm', '.', 'u', 'n', 'e', 'c', 'm'] ∧
    decode_outname ['.', 'e', 'c', 'm']
      ≠ List.take (['.', 'e', 'c', 'm'].length - 4) ['.', 'e', 'c', 'm'] := by
  refine ⟨⟨[], '.', 'e', 'c', 'm', rfl, rfl, by decide, by decide, by decide⟩, by decide,
    by decide⟩

end Ecm
namespace Ecm

/-! ## Claims on the runs that the encoder writes -/

/-- C7: for every input S with 1 <= |S| < 2336 the output of `ecmify` is the magic
identifier, the header of a single run (type 0, count |S|) as `write_type_count`
writes it (the byte 0x00 for |S| = 1, the bytes 0x80, 0x01 for |S| = 33), the bytes
of S, the end-of-records indicator and the little-endian EDC of S. -/
theorem C7_short_input (S : List Nat) (hb : ∀ b ∈ S, b < 256) (h1 : 1 ≤ S.length)
    (h2 : S.length < 2336) :
    ecmify S = .ok ([0x45, 0x43, 0x4D, 0x00] ++ (write_type_count 0 S.length ++ S) ++
      write_type_count 0 0 ++ le32 (edc_compute 0 S S.length)) ∧
    write_type_count 0 1 = [0x00] ∧ write_type_count 0 33 = [0x80, 0x01] := by
  refine ⟨?_, by decide, by decide⟩
  apply ecmify_literal_output S hb _ h1 (by omega)
  intro st1 h _
  have e1 := h.queued_eq
  have e2 := h.queued_le
  exact detect_sector_small _ _ (by omega)

theorem C7_short_input_witness :
    ecmify [0xAA] = .ok ([0x45, 0x43, 0x4D, 0x00] ++ (write_type_count 0 [0xAA].length ++ [0xAA])
      ++ write_type_count 0 0 ++ le32 (edc_compute 0 [0xAA] [0xAA].length)) ∧
    write_type_count 0 1 = [0x00] ∧ write_type_count 0 33 = [0x80, 0x01] :=
  C7_short_input [0xAA] (by decide) (by decide) (by decide)

/-- C17, as the code has it: in the list of runs that `ecmify` flushes, two adjacent
runs have the same type only when the first of them has the count 2^31 at which a
run is cut; for an input shorter than 2^31 bytes no two adjacent runs have the same
type. -/
theorem C17_adjacent_runs (S : List Nat) (hb : ∀ b ∈ S, b < 256) :
    ∃ st, ecmify_loop S (S.length + 1) ecmify_init = .ok st ∧
      ecmify S = .ok ([0x45, 0x43, 0x4D, 0x00] ++ runs_bytes S st.flushed ++
        write_type_count 0 0 ++ le32 (edc_compute 0 S S.length)) ∧
      (∀ i, i + 1 < st.flushed.length →
        (st.flushed.getD i (0, 0, 0)).1 ≠ (st.flushed.getD (i + 1) (0, 0, 0)).1 ∨
        (st.flushed.getD i (0, 0, 0)).2.1 = 2 ^ 31) ∧
      (S.length < 2 ^ 31 → ∀ i, i + 1 < st.flushed.length →
        (st.flushed.getD i (0, 0, 0)).1 ≠ (st.flushed.getD (i + 1) (0, 0, 0)).1) := by
  obtain ⟨st, hl, hp, he⟩ := ecmify_spec S hb
  refine ⟨st, hl, he, hp.adj_ok, ?_⟩
  intro hlen i hi
  rcases hp.adj_ok i hi with h | h
  · exact h
  · exfalso
    have hmem : st.flushed.getD i (0, 0, 0) ∈ st.flushed := by
      rw [List.getD_eq_getElem _ _ (by omega)]
      exact List.getElem_mem _
    obtain ⟨ht, _, _, hsz, _⟩ := hp.runs_ok _ hmem
    have hpos := sectorsize_pos _ ht
    unfold run_size at hsz
    rw [h] at hsz
    have : 2 ^ 31 * 1 ≤ 2 ^ 31 * sectorsize.getD (st.flushed.getD i (0, 0, 0)).1 0 :=
      Nat.mul_le_mul_left _ hpos
    omega

theorem C17_adjacent_runs_witness :
    ∃ st, ecmify_loop [0xAA] ([0xAA].length + 1) ecmify_init = .ok st ∧
      ecmify [0xAA] = .ok ([0x45, 0x43, 0x4D, 0x00] ++ runs_bytes [0xAA] st.flushed ++
        write_type_count 0 0 ++ le32 (edc_compute 0 [0xAA] [0xAA].length)) ∧
      (∀ i, i + 1 < st.flushed.length →
        (st.flushed.getD i (0, 0, 0)).1 ≠ (st.flushed.getD (i + 1) (0, 0, 0)).1 ∨
        (st.flushed.getD i (0, 0, 0)).2.1 = 2 ^ 31) ∧
      ([0xAA].length < 2 ^ 31 → ∀ i, i + 1 < st.flushed.length →
        (st.flushed.getD i (0, 0, 0)).1 ≠ (st.flushed.getD (i + 1) (0, 0, 0)).1) :=
  C17_adjacent_runs [0xAA] (by decide)

/-- C17 as stated fails: for the input `literal_input (2^31 + 1)`, of 2^31 + 1
literal bytes, `ecmify` flushes two runs, and both have type 0. -/
theorem C17_same_type_twice :
    ∃ st, ecmify_loop (literal_input (2 ^ 31 + 1)) ((literal_input (2 ^ 31 + 1)).length + 1)
        ecmify_init = .ok st ∧
      st.flushed.length = 2 ∧
      (st.flushed.getD 0 (0, 0, 0)).1 = (st.flushed.getD 1 (0, 0, 0)).1 := by
  obtain ⟨st, hl, hfl⟩ := ecmify_literal_result (literal_input (2 ^ 31 + 1))
    (literal_input_bytes _) (literal_input_detect _)
    (by rw [literal_input_length]; norm_num)
  rw [literal_input_length] at hfl
  rw [if_neg (by norm_num), if_neg (by norm_num)] at hfl
  exact ⟨st, hl, by rw [hfl]; rfl, by rw [hfl]; rfl⟩

/-- C18, as the code has it: the count of a run never exceeds 0x80000000: in every
state that the main loop of `ecmify` reaches, `curtype_count` is at most 0x80000000
and every run flushed so far has a count between 1 and 0x80000000, as has every run
flushed when the loop is left; a run has at most |S| units, so for an input of at
most 0x7FFFFFFF bytes no count exceeds 0x7FFFFFFF. -/
theorem C18_count_cap (S : List Nat) (hb : ∀ b ∈ S, b < 256) :
    (∀ n st, ecmify_steps S n ecmify_init = some st →
      st.curtype_count ≤ 0x80000000 ∧
      ∀ r ∈ st.flushed, 1 ≤ r.2.1 ∧ r.2.1 ≤ 0x80000000 ∧ r.2.1 ≤ S.length) ∧
    (∃ st, ecmify_loop S (S.length + 1) ecmify_init = .ok st ∧
      ∀ r ∈ st.flushed, 1 ≤ r.2.1 ∧ r.2.1 ≤ 0x80000000 ∧ r.2.1 ≤ S.length) := by
  have hrun : ∀ r, RunOk S r → 1 ≤ r.2.1 ∧ r.2.1 ≤ 0x80000000 ∧ r.2.1 ≤ S.length := by
    intro r hr
    obtain ⟨ht, hc1, hc2, hsz, _⟩ := hr
    have hpos := sectorsize_pos _ ht
    unfold run_size at hsz
    have : r.2.1 * 1 ≤ r.2.1 * sectorsize.getD r.1 0 := Nat.mul_le_mul_left _ hpos
    exact ⟨hc1, hc2, by omega⟩
  constructor
  · intro n st hs
    obtain ⟨hinv, _⟩ := ecmify_reach_inv S hb n st hs
    refine ⟨?_, fun r hr => hrun r (hinv.runs_ok r hr)⟩
    rcases hinv.run_ok with ⟨_, h0, _⟩ | ⟨t, _, _, _, h2, _⟩
    · rw [h0]; norm_num
    · exact h2
  · obtain ⟨st, hl, hp, _⟩ := ecmify_spec S hb
    exact ⟨st, hl, fun r hr => hrun r (hp.runs_ok r hr)⟩

theorem C18_count_cap_witness :
    ∃ st, ecmify_loop [0xAA] ([0xAA].length + 1) ecmify_init = .ok st ∧
      ∀ r ∈ st.flushed, 1 ≤ r.2.1 ∧ r.2.1 ≤ 0x80000000 ∧ r.2.1 ≤ [0xAA].length :=
  (C18_count_cap [0xAA] (by decide)).2

/-- C18 as stated fails: for the input `literal_input (2^31 + 1)`, of 2^31 + 1
literal bytes, `ecmify` flushes a run whose count, 0x80000000, is greater than
0x7FFFFFFF. -/
theorem C18_count_exceeds_cap :
    ∃ st, ecmify_loop (literal_input (2 ^ 31 + 1)) ((literal_input (2 ^ 31 + 1)).length + 1)
        ecmify_init = .ok st ∧
      ∃ r ∈ st.flushed, r.2.1 = 0x80000000 ∧ 0x7FFFFFFF < r.2.1 := by
  obtain ⟨st, hl, hfl⟩ := ecmify_literal_result (literal_input (2 ^ 31 + 1))
    (literal_input_bytes _) (literal_input_detect _)
    (by rw [literal_input_length]; norm_num)
  rw [literal_input_length] at hfl
  rw [if_neg (by norm_num), if_neg (by norm_num)] at hfl
  refine ⟨st, hl, (0, 2 ^ 31, 0), by rw [hfl]; simp, by norm_num, by norm_num⟩

/-- C19: for every input, every run that `ecmify` writes before the end-of-records
indicator has a count between 1 and 2^31, so its record starts with a header that
the record parser of `unecmify` reads as n = count - 1, which is not 0xFFFFFFFF;
the parser reads the end-of-records indicator as n = 0xFFFFFFFF. -/
theorem C19_terminator_only_at_end (S : List Nat) (hb : ∀ b ∈ S, b < 256) :
    ∃ st, ecmify_loop S (S.length + 1) ecmify_init = .ok st ∧
      ecmify S = .ok ([0x45, 0x43, 0x4D, 0x00] ++ runs_bytes S st.flushed ++
        write_type_count 0 0 ++ le32 (edc_compute 0 S S.length)) ∧
      (∀ r ∈ st.flushed, 1 ≤ r.2.1 ∧ r.2.1 < 2 ^ 32 ∧
        (∃ P, run_bytes S r = write_type_count r.1 r.2.1 ++ P) ∧
        ∀ tail, read_type_count (write_type_count r.1 r.2.1 ++ tail)
            = .ok (r.1, r.2.1 - 1, tail) ∧ r.2.1 - 1 ≠ 0xFFFFFFFF) ∧
      ∀ tail, read_type_count (write_type_count 0 0 ++ tail) = .ok (0, 0xFFFFFFFF, tail) := by
  obtain ⟨st, hl, hp, he⟩ := ecmify_spec S hb
  refine ⟨st, hl, he, ?_, read_end_marker⟩
  intro r hr
  have hok := hp.runs_ok r hr
  obtain ⟨ht, hc1, hc2, _⟩ := hp.runs_ok r hr
  refine ⟨hc1, by omega, run_bytes_header S r hok, ?_⟩
  intro tail
  have h := read_write_type_count r.1 (r.2.1 - 1) tail (by omega) (by omega)
  have e : (r.2.1 - 1 + 1) % 2 ^ 32 = r.2.1 := by omega
  rw [e] at h
  exact ⟨h, by omega⟩

theorem C19_terminator_only_at_end_witness :
    ∃ st, ecmify_loop [0xAA] ([0xAA].length + 1) ecmify_init = .ok st ∧
      ecmify [0xAA] = .ok ([0x45, 0x43, 0x4D, 0x00] ++ runs_bytes [0xAA] st.flushed ++
        write_type_count 0 0 ++ le32 (edc_compute 0 [0xAA] [0xAA].length)) ∧
      (∀ r ∈ st.flushed, 1 ≤ r.2.1 ∧ r.2.1 < 2 ^ 32 ∧
        (∃ P, run_bytes [0xAA] r = write_type_count r.1 r.2.1 ++ P) ∧
        ∀ tail, read_type_count (write_type_count r.1 r.2.1 ++ tail)
            = .ok (r.1, r.2.1 - 1, tail) ∧ r.2.1 - 1 ≠ 0xFFFFFFFF) ∧
      ∀ tail, read_type_count (write_type_count 0 0 ++ tail) = .ok (0, 0xFFFFFFFF, tail) :=
  C19_terminator_only_at_end [0xAA] (by decide)

/-- C29: in every state that the main loop of `ecmify` reaches, and after the refill
step of the round that starts there, queue_start_ofs + queue_bytes_available is at
most queue_size (0x40000) and at most the number of bytes held in the queue; the
heuristic reads its 16 bytes only when 16 bytes are available, `detect_sector`
depends only on the bytes available, and the advance by sectorsize[curtype] is at
most queue_bytes_available, so the subtraction does not wrap. -/
theorem C29_queue_bounds (S : List Nat) (hb : ∀ b ∈ S, b < 256) (n : Nat) (st : EcmState)
    (hs : ecmify_steps S n ecmify_init = some st) :
    st.queue_start_ofs + st.queue_bytes_available ≤ queue_size ∧
    ∃ st1, ecmify_refill S st = .ok st1 ∧
      st1.queue_start_ofs + st1.queue_bytes_available ≤ queue_size ∧
      st1.queue_start_ofs + st1.queue_bytes_available ≤ st1.queue.length ∧
      (sync_after_mode2 st1 = true → 0x10 ≤ st1.queue_bytes_available) ∧
      (∀ X : List Nat,
        (∀ i, i < st1.queue_bytes_available →
          X.getD i 0 = (st1.queue.drop st1.queue_start_ofs).getD i 0) →
        detect_sector X st1.queue_bytes_available
          = detect_sector (st1.queue.drop st1.queue_start_ofs) st1.queue_bytes_available) ∧
      (∀ st2, ecmify_iter S st = .ok (st2, false) →
        sectorsize.getD st2.curtype.toNat 0 ≤ st1.queue_bytes_available ∧
        st2.queue_bytes_available
          = st1.queue_bytes_available - sectorsize.getD st2.curtype.toNat 0 ∧
        st2.queue_start_ofs + st2.queue_bytes_available ≤ queue_size) := by
  obtain ⟨hinv, _⟩ := ecmify_reach_inv S hb n st hs
  obtain ⟨st1, hr, h1, _, hcase⟩ := ecmify_iter_spec S st hb hinv
  refine ⟨hinv.queue_cap, st1, hr, h1.queue_cap, h1.queue_len,
    fun h => (sync_after_mode2_curtype st1 h).2,
    fun X hX => detect_sector_congr _ _ _ hX, ?_⟩
  intro st2 hiter
  rcases hcase with ⟨_, _, st3, hiter3, _⟩ | ⟨_, _, st3, t, ht, _, hiter3, hinv3, hcur, _, _, hsz,
    hav, _⟩
  · rw [hiter] at hiter3
    simp at hiter3
  · rw [hiter] at hiter3
    simp only [Except.ok.injEq, Prod.mk.injEq, and_true] at hiter3
    subst hiter3
    have htn : st2.curtype.toNat = t := by rw [hcur]; exact Int.toNat_ofNat t
    rw [htn]
    exact ⟨hsz, hav, hinv3.queue_cap⟩

theorem C29_queue_bounds_witness :
    ecmify_init.queue_start_ofs + ecmify_init.queue_bytes_available ≤ queue_size ∧
    ∃ st1, ecmify_refill [0xAA] ecmify_init = .ok st1 ∧
      st1.queue_start_ofs + st1.queue_bytes_available ≤ queue_size ∧
      st1.queue_start_ofs + st1.queue_bytes_available ≤ st1.queue.length ∧
      (sync_after_mode2 st1 = true → 0x10 ≤ st1.queue_bytes_available) ∧
      (∀ X : List Nat,
        (∀ i, i < st1.queue_bytes_available →
          X.getD i 0 = (st1.queue.drop st1.queue_start_ofs).getD i 0) →
        detect_sector X st1.queue_bytes_available
          = detect_sector (st1.queue.drop st1.queue_start_ofs) st1.queue_bytes_available) ∧
      (∀ st2, ecmify_iter [0xAA] ecmify_init = .ok (st2, false) →
        sectorsize.getD st2.curtype.toNat 0 ≤ st1.queue_bytes_available ∧
        st2.queue_bytes_available
          = st1.queue_bytes_available - sectorsize.getD st2.curtype.toNat 0 ∧
        st2.queue_start_ofs + st2.queue_bytes_available ≤ queue_size) :=
  C29_queue_bounds [0xAA] (by decide) 0 ecmify_init rfl

/-- C30: for every input S the runs (t_i, c_i) that `ecmify` flushes tile the input
in order: run i starts at the input offset (its `curtype_in_start`) that is the sum
over j < i of c_j * sectorsize[t_j], and the sum over all runs is |S|. -/
theorem C30_runs_tile (S : List Nat) (hb : ∀ b ∈ S, b < 256) :
    ∃ st, ecmify_loop S (S.length + 1) ecmify_init = .ok st ∧
      ecmify S = .ok ([0x45, 0x43, 0x4D, 0x00] ++ runs_bytes S st.flushed ++
        write_type_count 0 0 ++ le32 (edc_compute 0 S S.length)) ∧
      (∀ i, i < st.flushed.length →
        (st.flushed.getD i (0, 0, 0)).2.2 = runs_size (st.flushed.take i)) ∧
      runs_size st.flushed = S.length ∧
      ∀ r ∈ st.flushed, r.1 ≤ 3 ∧ run_size r = r.2.1 * sectorsize.getD r.1 0 ∧
        sectorsize = [1, 2352, 2336, 2336] := by
  obtain ⟨st, hl, hp, he⟩ := ecmify_spec S hb
  exact ⟨st, hl, he, hp.tile_ok.1, hp.tile_ok.2,
    fun r hr => ⟨(hp.runs_ok r hr).1, rfl, rfl⟩⟩

theorem C30_runs_tile_witness :
    ∃ st, ecmify_loop [0xAA] ([0xAA].length + 1) ecmify_init = .ok st ∧
      ecmify [0xAA] = .ok ([0x45, 0x43, 0x4D, 0x00] ++ runs_bytes [0xAA] st.flushed ++
        write_type_count 0 0 ++ le32 (edc_compute 0 [0xAA] [0xAA].length)) ∧
      (∀ i, i < st.flushed.length →
        (st.flushed.getD i (0, 0, 0)).2.2 = runs_size (st.flushed.take i)) ∧
      runs_size st.flushed = [0xAA].length ∧
      ∀ r ∈ st.flushed, r.1 ≤ 3 ∧ run_size r = r.2.1 * sectorsize.getD r.1 0 ∧
        sectorsize = [1, 2352, 2336, 2336] :=
  C30_runs_tile [0xAA] (by decide)

/-- C23, as the code has it: at every round of the main loop of `ecmify`, after the
refill step (hence whenever `detect_sector` is invoked) either at least 2352 bytes
are available in the queue or the bytes of the input not yet read into the queue are
no more than the bytes available; when the input is not longer than the queue
(0x40000 bytes), either at least 2352 bytes are available or every byte of the input
has been read into the queue. -/
theorem C23_refill_guarantee (S : List Nat) (hb : ∀ b ∈ S, b < 256) (n : Nat) (st : EcmState)
    (hs : ecmify_steps S n ecmify_init = some st) :
    ∃ st1, ecmify_refill S st = .ok st1 ∧
      (2352 ≤ st1.queue_bytes_available ∨
        S.length - st1.input_bytes_queued ≤ st1.queue_bytes_available) ∧
      (S.length ≤ queue_size →
        2352 ≤ st1.queue_bytes_available ∨ st1.input_bytes_queued = S.length) := by
  have hinv := (ecmify_reach_inv S hb n st hs).1
  obtain ⟨st1, hr, _, _, _, _, _, _, _, _, _, hfull, ha1, hq1⟩ := ecmify_refill_spec S st hinv
  refine ⟨st1, hr, hfull, ?_⟩
  intro hS
  right
  have hqs : queue_size = 0x40000 := rfl
  rcases ecmify_queued_all S hb hS n st hs with ⟨q0, a0⟩ | q1
  · rw [q0, a0] at hq1
    rw [hq1]
    split <;> omega
  · rw [q1] at hq1
    rw [hq1]
    split <;> omega

theorem C23_refill_guarantee_witness :
    ∃ st1, ecmify_refill [0xAA] ecmify_init = .ok st1 ∧
      (2352 ≤ st1.queue_bytes_available ∨
        [0xAA].length - st1.input_bytes_queued ≤ st1.queue_bytes_available) ∧
      ([0xAA].length ≤ queue_size →
        2352 ≤ st1.queue_bytes_available ∨ st1.input_bytes_queued = [0xAA].length) :=
  C23_refill_guarantee [0xAA] (by decide) 0 ecmify_init rfl

/-- C23 as stated fails: on the input `literal_input (0x40000 + 50)` the main loop
reaches a round in which `detect_sector` is invoked with 2351 bytes available while
only 0x40000 of the 0x40000 + 50 bytes of the input have been read into the queue. -/
theorem C23_detect_on_short_queue :
    ∃ (n : Nat) (st st1 : EcmState),
      ecmify_steps (literal_input (0x40000 + 50)) n ecmify_init = some st ∧
      ecmify_refill (literal_input (0x40000 + 50)) st = .ok st1 ∧
      detect_invoked st1 = true ∧ st1.queue_bytes_available < 2352 ∧
      st1.input_bytes_queued ≠ (literal_input (0x40000 + 50)).length := by
  obtain ⟨n, st, st1, hs, hr, hd, ha, hq⟩ := literal_input_short_queue
  refine ⟨n, st, st1, hs, hr, hd, by rw [ha]; norm_num, ?_⟩
  rw [hq, literal_input_length]
  norm_num

end Ecm
namespace Ecm

/-- C24: in a round of the main loop of `ecmify` in which, after the refill step,
the pending run type is at least 2, at least 16 bytes are available and the next 16
queue bytes are 00, FF x 10, 00, any three bytes, 02, the classification step yields
a literal for that byte and for each of the following 15 bytes, one byte per round,
and `detect_sector` is not invoked in any of these 16 rounds. -/
theorem C24_sync_heuristic (S : List Nat) (hb : ∀ b ∈ S, b < 256) (n : Nat)
    (st st1 : EcmState) (hs : ecmify_steps S n ecmify_init = some st)
    (hr : ecmify_refill S st = .ok st1) (hc : 2 ≤ st1.curtype)
    (ha : 16 ≤ st1.queue_bytes_available)
    (h0 : st1.queue.getD (st1.queue_start_ofs + 0) 0 = 0x00)
    (hff : ∀ i, 1 ≤ i → i ≤ 10 → st1.queue.getD (st1.queue_start_ofs + i) 0 = 0xFF)
    (h11 : st1.queue.getD (st1.queue_start_ofs + 11) 0 = 0x00)
    (h15 : st1.queue.getD (st1.queue_start_ofs + 15) 0 = 0x02) :
    ∀ j, j < 16 → ∃ stj stj1 stj2 : EcmState,
      ecmify_steps S (n + j) ecmify_init = some stj ∧
      stj.input_bytes_checked = st.input_bytes_checked + j ∧
      ecmify_refill S stj = .ok stj1 ∧
      (ecmify_detect stj1).1 = 0 ∧ detect_invoked stj1 = false ∧
      ecmify_iter S stj = .ok (stj2, false) ∧
      stj2.input_bytes_checked = stj.input_bytes_checked + 1 := by
  have hsync := sync_after_mode2_of_bytes st1 hc ha h0 hff h11 h15
  intro j hj
  cases j with
  | zero =>
    obtain ⟨hinv, -⟩ := ecmify_reach_inv S hb n st hs
    obtain ⟨stx, hrx, h1, -⟩ := ecmify_iter_spec S st hb hinv
    rw [hr] at hrx
    simp only [Except.ok.injEq] at hrx
    subst hrx
    have hk : st1.literal_skip = 0 := by
      by_contra hne
      have := h1.skip_run (by omega)
      omega
    obtain ⟨hd, hinv0⟩ := ecmify_detect_sync st1 (by omega) hk hsync
    obtain ⟨st2, hiter, -, hchk, -⟩ :=
      ecmify_literal_round S hb st st1 hinv hr (by omega) (by rw [hd])
    exact ⟨st, st1, st2, hs, rfl, hr, by rw [hd], hinv0, hiter, hchk⟩
  | succ j =>
    obtain ⟨stj, hsj, hkj, haj, hcj⟩ := ecmify_sync_rounds S hb n st st1 hs hr hsync j (by omega)
    obtain ⟨hinv, -⟩ := ecmify_reach_inv S hb _ stj hsj
    obtain ⟨stj1, hrj, -⟩ := ecmify_iter_spec S stj hb hinv
    obtain ⟨-, hk1, -, -, ha1, -⟩ := ecmify_refill_facts S stj stj1 hinv hrj
    have hpos : stj1.queue_bytes_available ≠ 0 := by rw [ha1]; omega
    obtain ⟨hd, hinv0⟩ := ecmify_detect_skip stj1 hpos (by omega)
    obtain ⟨st2, hiter, -, hchk, -⟩ :=
      ecmify_literal_round S hb stj stj1 hinv hrj hpos (by rw [hd])
    exact ⟨stj, stj1, st2, hsj, hcj, hrj, by rw [hd], hinv0, hiter, hchk⟩

theorem C24_sync_heuristic_witness :
    ∃ st : EcmState, ecmify_steps mode2_then_sync 1 ecmify_init = some st ∧
      ∀ j, j < 16 → ∃ stj stj1 stj2 : EcmState,
        ecmify_steps mode2_then_sync (1 + j) ecmify_init = some stj ∧
        stj.input_bytes_checked = st.input_bytes_checked + j ∧
        ecmify_refill mode2_then_sync stj = .ok stj1 ∧
        (ecmify_detect stj1).1 = 0 ∧ detect_invoked stj1 = false ∧
        ecmify_iter mode2_then_sync stj = .ok (stj2, false) ∧
        stj2.input_bytes_checked = stj.input_bytes_checked + 1 := by
  obtain ⟨st, st1, hs, hr, hc, ha, hq⟩ := mode2_then_sync_state
  exact ⟨st, hs, C24_sync_heuristic mode2_then_sync mode2_then_sync_bytes 1 st st1 hs hr
    (by rw [hc]) (by rw [ha]) (by rw [hq 0 (by omega)]; rfl)
    (fun i h1 h2 => by
      rw [hq i (by omega)]
      have hi : i = 1 ∨ i = 2 ∨ i = 3 ∨ i = 4 ∨ i = 5 ∨ i = 6 ∨ i = 7 ∨ i = 8 ∨ i = 9 ∨
          i = 10 := by omega
      rcases hi with h | h | h | h | h | h | h | h | h | h <;> subst h <;> rfl)
    (by rw [hq 11 (by omega)]; rfl) (by rw [hq 15 (by omega)]; rfl)⟩

/-- C8: for every pair of 2352-byte sectors A and B that `detect_sector` each
classifies as Mode 1, `ecmify` on the 4704-byte input A ++ B writes, between the
magic and the end marker, exactly one run record: the header byte 0x05 (which is
`write_type_count` of type 1 and count 2) followed by 2 x 0x803 payload bytes,
A[0x0C..0x0F) ++ A[0x10..0x810) ++ B[0x0C..0x0F) ++ B[0x10..0x810). -/
theorem C8_two_mode1_sectors (A B : List Nat) (hA : A.length = 2352) (hB : B.length = 2352)
    (hbA : ∀ b ∈ A, b < 256) (hbB : ∀ b ∈ B, b < 256)
    (hdA : detect_sector A 2352 = 1) (hdB : detect_sector B 2352 = 1) :
    ecmify (A ++ B) = .ok ([0x45, 0x43, 0x4D, 0x00] ++
      ([0x05] ++ ((A.drop 0xC).take 3 ++ (A.drop 0x10).take 0x800 ++
        ((B.drop 0xC).take 3 ++ (B.drop 0x10).take 0x800))) ++
      write_type_count 0 0 ++ le32 (edc_compute 0 (A ++ B) (A ++ B).length)) ∧
    write_type_count 1 2 = [0x05] ∧
    ((A.drop 0xC).take 3 ++ (A.drop 0x10).take 0x800 ++
      ((B.drop 0xC).take 3 ++ (B.drop 0x10).take 0x800)).length = 2 * 0x803 := by
  have hb : ∀ b ∈ A ++ B, b < 256 := by
    intro b h
    rcases List.mem_append.1 h with h | h
    · exact hbA b h
    · exact hbB b h
  have hw : write_type_count 1 2 = [0x05] := by decide
  refine ⟨?_, hw, ?_⟩
  · obtain ⟨st, hl, hfl⟩ := ecmify_two_mode1 A B hA hB hb hdA hdB
    obtain ⟨st1, hl1, -, he⟩ := ecmify_spec (A ++ B) hb
    rw [hl] at hl1
    simp only [Except.ok.injEq] at hl1
    subst hl1
    rw [he, hfl]
    have hr := run_bytes_two_mode1 (A ++ B) (by rw [List.length_append, hA, hB])
    rw [List.drop_left' hA, hw, List.drop_append_of_le_length (by omega),
      List.take_append_of_le_length (by rw [List.length_drop]; omega),
      List.drop_append_of_le_length (by omega),
      List.take_append_of_le_length (by rw [List.length_drop]; omega)] at hr
    simp only [runs_bytes, hr, List.append_nil]
  · simp only [List.length_append, List.length_take, List.length_drop, hA, hB]
    norm_num

theorem C8_two_mode1_sectors_witness :
    ecmify (reconstruct_sector zero_buffer 1 ++ reconstruct_sector zero_buffer 1)
      = .ok ([0x45, 0x43, 0x4D, 0x00] ++
        ([0x05] ++ (((reconstruct_sector zero_buffer 1).drop 0xC).take 3 ++
            ((reconstruct_sector zero_buffer 1).drop 0x10).take 0x800 ++
          (((reconstruct_sector zero_buffer 1).drop 0xC).take 3 ++
            ((reconstruct_sector zero_buffer 1).drop 0x10).take 0x800))) ++
        write_type_count 0 0 ++
        le32 (edc_compute 0 (reconstruct_sector zero_buffer 1 ++ reconstruct_sector zero_buffer 1)
          (reconstruct_sector zero_buffer 1 ++ reconstruct_sector zero_buffer 1).length)) ∧
    write_type_count 1 2 = [0x05] ∧
    ((((reconstruct_sector zero_buffer 1).drop 0xC).take 3 ++
        ((reconstruct_sector zero_buffer 1).drop 0x10).take 0x800 ++
      (((reconstruct_sector zero_buffer 1).drop 0xC).take 3 ++
        ((reconstruct_sector zero_buffer 1).drop 0x10).take 0x800))).length = 2 * 0x803 :=
  C8_two_mode1_sectors _ _ (reconstruct_1_spec zero_buffer zero_buffer_length).1
    (reconstruct_1_spec zero_buffer zero_buffer_length).1
    (reconstruct_1_bytes zero_buffer (fun b hb => by rw [List.eq_of_mem_replicate hb]; decide))
    (reconstruct_1_bytes zero_buffer (fun b hb => by rw [List.eq_of_mem_replicate hb]; decide))
    ((reconstruct_1_spec zero_buffer zero_buffer_length).2.2.2 2352 (le_refl _))
    ((reconstruct_1_spec zero_buffer zero_buffer_length).2.2.2 2352 (le_refl _))

end Ecm
